import Mathlib

/-!
Verification development for the ubiqx Modules binary-tree family
(ubi_BinTree.c, ubi_SplayTree.c, ubi_Cache.c, ubi_AVLtree.h).

The C code is an intrusive pointer-based binary search tree with parent
pointers (Link[LEFT], Link[PARENT], Link[RIGHT] plus a gender byte).  We
embed it shallowly:

* a tree is an inductive `BT` of nodes carrying a key (compared with the
  tree's comparison function, modelled by a linear order) and an opaque
  payload (distinguishing duplicate-keyed nodes);
* a node pointer, together with its chain of parent pointers, is a zipper
  location `Loc`: the subtree hanging from the node plus the list of
  `Frame`s above it.  A frame records the node's gender (`Dir`), the
  parent's key/payload and the sibling subtree, which is exactly the
  information the C code reaches through `Link[PARENT]` and `gender`;
* each C function is translated clause by clause onto this representation;
  `while` loops over parent pointers become structural recursion over the
  frame list, `while` loops descending the tree become structural
  recursion over the subtree.

Machine integers: the cache hit counters are C `unsigned short`, modelled
as `Nat` with explicit `% 65536`; `unsigned long` counters never overflow
on the reachable states considered and are modelled as `Nat` (C unsigned
underflow cannot occur where we use truncated subtraction, as proved by
the accompanying invariants).
-/

/-- Direction of a child link: `ubi_trLEFT` or `ubi_trRIGHT`.  The third C
constant `ubi_trPARENT`/`ubi_trEQUAL` is represented by `Ordering.eq`
results of the comparison and by the absence of a frame (root). -/
inductive Dir : Type where
  | left : Dir
  | right : Dir
deriving DecidableEq, Repr

/-- Reverse direction, the `ubi_trRevWay` macro. -/
def Dir.rev : Dir → Dir
  | .left => .right
  | .right => .left

/-- Binary tree of nodes; each node stores a key of type `α` (ordered by
the tree's comparison function) and a payload of type `β` (the rest of the
caller's record, used to tell duplicate-keyed nodes apart). -/
inductive BT (α β : Type) : Type where
  | nil : BT α β
  | node (l : BT α β) (key : α) (val : β) (r : BT α β) : BT α β
deriving DecidableEq, Repr

/-- Three-way comparison derived from the linear order on keys; this is the
shallow embedding of the caller-supplied comparison function after the
`ubi_trAbNormal` normalisation ({negative, zero, positive} to
{LEFT, EQUAL, RIGHT}). -/
def cmp3 {α : Type} [LinearOrder α] (a b : α) : Ordering :=
  if a < b then .lt else if b < a then .gt else .eq

/-- One step of parent-pointer information for a node: which child it is
(`d`, the C `gender` field), its parent's key and payload, and the subtree
hanging from the parent's other child link. -/
structure Frame (α β : Type) : Type where
  d : Dir
  key : α
  val : β
  sib : BT α β
deriving DecidableEq, Repr

/-- A location in a tree (the zipper form of a node pointer): the subtree
rooted at the node plus the frames above it, innermost (immediate parent)
first.  An empty frame list means the node is the tree's root. -/
structure Loc (α β : Type) : Type where
  sub : BT α β
  ctx : List (Frame α β)
deriving DecidableEq, Repr

/-- Rebuild the parent node from a frame and the child subtree. -/
def plug1 {α β : Type} (f : Frame α β) (t : BT α β) : BT α β :=
  match f.d with
  | .left => .node t f.key f.val f.sib
  | .right => .node f.sib f.key f.val t

/-- Rebuild the whole tree from a location (follow all parent pointers up
to the root). -/
def plugCtx {α β : Type} : BT α β → List (Frame α β) → BT α β
  | t, [] => t
  | t, f :: rest => plugCtx (plug1 f t) rest

/-- In-order traversal, listing each node's (key, payload) pair. -/
def inorder {α β : Type} : BT α β → List (α × β)
  | .nil => []
  | .node l k v r => inorder l ++ (k, v) :: inorder r

/-- Number of nodes in a subtree. -/
def BT.size {α β : Type} : BT α β → Nat
  | .nil => 0
  | .node l _ _ r => l.size + r.size + 1

/-- Key and payload of the node a location points at (none for a null
pointer, i.e. an empty subtree). -/
def rootEntry {α β : Type} : BT α β → Option (α × β)
  | .nil => none
  | .node _ k v _ => some (k, v)

/-- Entry of the node at a location. -/
def locEntry {α β : Type} (loc : Loc α β) : Option (α × β) :=
  rootEntry loc.sub

/-- Keys of a tree in traversal order. -/
def keys {α β : Type} (t : BT α β) : List α :=
  (inorder t).map Prod.fst

variable {α β : Type} [LinearOrder α]

/-- Translation of the static `qFind()` of ubi_BinTree.c: non-recursive
descent comparing the search key at each node, following `Link[tmp]` until
an EQUAL comparison or a null pointer.  The zipper keeps the parent chain;
`none` is the C `NULL` return. -/
def qFindZ (k : α) : BT α β → List (Frame α β) → Option (Loc α β)
  | .nil, _ => none
  | .node l k' v r, ctx =>
    match cmp3 k k' with
    | .eq => some ⟨.node l k' v r, ctx⟩
    | .lt => qFindZ k l (⟨.left, k', v, r⟩ :: ctx)
    | .gt => qFindZ k r (⟨.right, k', v, l⟩ :: ctx)

/-- Translation of the static `TreeFind()` of ubi_BinTree.c: like `qFind`
but the final location is returned even on failure, so the caller can read
the parent pointer and the last-travelled direction (the C `parentp` and
`gender` out-parameters, here the head of the context). -/
def treeFindZ (k : α) : BT α β → List (Frame α β) → Loc α β
  | .nil, ctx => ⟨.nil, ctx⟩
  | .node l k' v r, ctx =>
    match cmp3 k k' with
    | .eq => ⟨.node l k' v r, ctx⟩
    | .lt => treeFindZ k l (⟨.left, k', v, r⟩ :: ctx)
    | .gt => treeFindZ k r (⟨.right, k', v, l⟩ :: ctx)

/-- Translation of the static `SubSlide()` of ubi_BinTree.c: slide down the
`d` side of the subtree as far as possible. -/
def subSlideZ (d : Dir) : BT α β → List (Frame α β) → Loc α β
  | .nil, ctx => ⟨.nil, ctx⟩
  | .node l k v r, ctx =>
    match d with
    | .left =>
      match l with
      | .nil => ⟨.node .nil k v r, ctx⟩
      | .node a x w b => subSlideZ .left (.node a x w b) (⟨.left, k, v, r⟩ :: ctx)
    | .right =>
      match r with
      | .nil => ⟨.node l k v .nil, ctx⟩
      | .node a x w b => subSlideZ .right (.node a x w b) (⟨.right, k, v, l⟩ :: ctx)

/-- Climb phase of the static `Neighbor()` of ubi_BinTree.c: walk up the
parent chain while the current node's gender equals `d`; on the first
frame with the opposite gender return the parent; return `none` when the
root is reached without finding one. -/
def climbZ (d : Dir) : BT α β → List (Frame α β) → Option (Loc α β)
  | _, [] => none
  | t, f :: rest =>
    if f.d = d then climbZ d (plug1 f t) rest
    else some ⟨plug1 f t, rest⟩

/-- Translation of the static `Neighbor()` of ubi_BinTree.c: the in-order
neighbor of the current node in direction `d` (RIGHT is the successor,
LEFT the predecessor).  If the `d` child exists, slide down its opposite
side; otherwise climb. -/
def neighborZ (d : Dir) (loc : Loc α β) : Option (Loc α β) :=
  match loc.sub with
  | .nil => none
  | .node l k v r =>
    match d with
    | .left =>
      match l with
      | .nil => climbZ .left (.node .nil k v r) loc.ctx
      | .node a x w b =>
        some (subSlideZ .right (.node a x w b) (⟨.left, k, v, r⟩ :: loc.ctx))
    | .right =>
      match r with
      | .nil => climbZ .right (.node l k v .nil) loc.ctx
      | .node a x w b =>
        some (subSlideZ .left (.node a x w b) (⟨.right, k, v, l⟩ :: loc.ctx))

/-- First loop of the static `Border()` of ubi_BinTree.c: while the parent
exists and its key compares EQUAL to the search key, move up to it. -/
def borderUp (k : α) : BT α β → List (Frame α β) → Loc α β
  | t, [] => ⟨t, []⟩
  | t, f :: rest =>
    if cmp3 k f.key = .eq then borderUp k (plug1 f t) rest
    else ⟨t, f :: rest⟩

/-- Number of nodes below a location's subtree (termination measure). -/
def Loc.subSize (loc : Loc α β) : Nat := loc.sub.size

theorem qFindZ_size_le {k : α} :
    ∀ (t : BT α β) (ctx : List (Frame α β)) (loc : Loc α β),
      qFindZ k t ctx = some loc → loc.sub.size ≤ t.size := by
  intro t
  induction t with
  | nil => intro ctx loc h; simp [qFindZ] at h
  | node l k' v r ihl ihr =>
    intro ctx loc h
    rw [qFindZ] at h
    cases hc : cmp3 k k' with
    | eq => rw [hc] at h; cases h; simp
    | lt =>
      rw [hc] at h
      have := ihl _ _ h
      simp [BT.size]; omega
    | gt =>
      rw [hc] at h
      have := ihr _ _ h
      simp [BT.size]; omega

/-- Second loop of the static `Border()` of ubi_BinTree.c: repeatedly take
the `d`-side child and search it for another EQUAL-keyed node (via
`qFind`); while one is found, move there and repeat.  The C code checks
the child for NULL before calling `qFind`; since `qFind` of NULL is NULL,
the translation calls `qFindZ` directly. -/
def borderDown (k : α) (d : Dir) (loc : Loc α β) : Loc α β :=
  match hs : loc.sub with
  | .nil => loc
  | .node l k' v r =>
    let child : Loc α β :=
      match d with
      | .left => ⟨l, ⟨.left, k', v, r⟩ :: loc.ctx⟩
      | .right => ⟨r, ⟨.right, k', v, l⟩ :: loc.ctx⟩
    match hq : qFindZ k child.sub child.ctx with
    | none => loc
    | some ploc => borderDown k d ploc
termination_by loc.sub.size
decreasing_by
  have hle := qFindZ_size_le child.sub child.ctx ploc hq
  have hlt : child.sub.size < loc.sub.size := by
    cases d <;> simp [child, hs, BT.size] <;> omega
  omega

/-- Translation of the static `Border()` of ubi_BinTree.c (the `whichway`
argument is LEFT or RIGHT; the degenerate PARENT case of the C code is
excluded by the `Dir` type).  If the tree does not allow duplicate keys,
the starting node is returned unchanged. -/
def borderZ (dupsOK : Bool) (k : α) (d : Dir) (loc : Loc α β) : Loc α β :=
  if dupsOK then borderDown k d (borderUp k loc.sub loc.ctx)
  else loc

/-- Single rotation of ubi_SplayTree.c (`Rotate()`): promote the current
node one level, demoting its parent (given as a frame) to child.  The C
function is a no-op on the root; in zipper form the caller only invokes it
with a parent frame at hand.  The `nil` case cannot arise (only nonempty
subtrees are splayed) and is mapped to plain reassembly. -/
def zig (f : Frame α β) (t : BT α β) : BT α β :=
  match t with
  | .nil => plug1 f .nil
  | .node a x w b =>
    match f.d with
    | .left => .node a x w (.node b f.key f.val f.sib)
    | .right => .node (.node f.sib f.key f.val a) x w b

/-- Effect of the first rotation of a zig-zig step (`Rotate( parent )` in
`Splay()` of ubi_SplayTree.c): the parent rotates above the grandparent,
leaving the current node a `f1.d`-child of the parent with an enlarged
sibling subtree. -/
def zigzigFrame (f1 f2 : Frame α β) : Frame α β :=
  match f1.d with
  | .left => ⟨.left, f1.key, f1.val, .node f1.sib f2.key f2.val f2.sib⟩
  | .right => ⟨.right, f1.key, f1.val, .node f2.sib f2.key f2.val f1.sib⟩

/-- Translation of the static `Splay()` of ubi_SplayTree.c: bottom-up
splay of the current node.  With two or more frames left the step is
zig-zig (parent and node share gender: rotate parent, then node) or
zig-zag (genders differ: rotate the node twice); with a single frame the
parent is the root and one zig rotation finishes. -/
def splayZip : BT α β → List (Frame α β) → BT α β
  | t, [] => t
  | t, [f] => zig f t
  | t, f1 :: f2 :: rest =>
    if f1.d = f2.d then splayZip (zig (zigzigFrame f1 f2) t) rest
    else splayZip (zig f2 (zig f1 t)) rest

/-- Result of the node-placement phase of `ubi_btInsert()`: the location of
the newly linked node (`fresh`, covering both the empty-slot and the
duplicate-keys cases), the location of the new node spliced over a
replaced one together with the replaced entry (`replaced`), or the
location of the conflicting node when the insertion is refused
(`rejected`). -/
inductive InsResult (α β : Type) : Type where
  | fresh (loc : Loc α β) : InsResult α β
  | replaced (loc : Loc α β) (oldk : α) (oldv : β) : InsResult α β
  | rejected (loc : Loc α β) : InsResult α β

/-- Duplicate-keys placement loop of `ubi_btInsert()`: starting below the
matched node, descend taking the RIGHT child on EQUAL or greater
comparisons and the LEFT child on lesser ones, and link the new node at
the first null slot reached. -/
def dupDescend (k : α) (v : β) : BT α β → List (Frame α β) → Loc α β
  | .nil, ctx => ⟨.node .nil k v .nil, ctx⟩
  | .node l k' v' r, ctx =>
    match cmp3 k k' with
    | .lt => dupDescend k v l (⟨.left, k', v', r⟩ :: ctx)
    | _ => dupDescend k v r (⟨.right, k', v', l⟩ :: ctx)

/-- Placement phase of `ubi_btInsert()` of ubi_BinTree.c: `TreeFind` the
key; on a null result link the new node under the last-visited parent; on
a match consult the flags: allow-duplicates appends through a rightward
descent from the match, allow-overwrite splices the new node into the
matched node's exact position (`ReplaceNode`), otherwise reject. -/
def insertZ (dups ovwt : Bool) (k : α) (v : β) (t : BT α β) : InsResult α β :=
  let floc := treeFindZ k t []
  match floc.sub with
  | .nil => .fresh ⟨.node .nil k v .nil, floc.ctx⟩
  | .node l k' v' r =>
    if dups then .fresh (dupDescend k v r (⟨.right, k', v', l⟩ :: floc.ctx))
    else if ovwt then .replaced ⟨.node l k v r, floc.ctx⟩ k' v'
    else .rejected ⟨.node l k' v' r, floc.ctx⟩

/-- Tree header (`ubi_btRoot`): root pointer, node count and the two
effective flag bits. -/
structure TRoot (α β : Type) : Type where
  root : BT α β
  count : Nat
  dups : Bool
  ovwt : Bool
deriving DecidableEq, Repr

/-- Translation of `ubi_btInitTree()`: empty root, zero count; the DUPKEY
flag takes precedence over OVERWRITE (they are stored mutually
exclusive). -/
def ubi_btInitTree (d o : Bool) : TRoot α β :=
  ⟨.nil, 0, d, !d && o⟩

/-- Translation of `ubi_btInsert()` at the tree level: run the placement
phase and rebuild the tree by following the new (or conflicting) node's
parent pointers; the count is incremented only when a node was actually
added.  Returns (success, OldNode, new tree header). -/
def ubi_btInsert (R : TRoot α β) (k : α) (v : β) :
    Bool × Option (α × β) × TRoot α β :=
  match insertZ R.dups R.ovwt k v R.root with
  | .fresh loc =>
    (true, none, ⟨plugCtx loc.sub loc.ctx, R.count + 1, R.dups, R.ovwt⟩)
  | .replaced loc ok ov =>
    (true, some (ok, ov), ⟨plugCtx loc.sub loc.ctx, R.count, R.dups, R.ovwt⟩)
  | .rejected loc =>
    (false, rootEntry loc.sub, ⟨plugCtx loc.sub loc.ctx, R.count, R.dups, R.ovwt⟩)

/-- Detach the rightmost node of a subtree, returning the remaining
subtree and the detached entry.  This is the net effect of `ubi_btPrev()`
plus `SwapNodes()` plus the splice in `ubi_btRemove()` on the left
subtree of a doubly-childed node: the in-order predecessor (which has no
right child) moves up into the removed node's position. -/
def splitMax : BT α β → BT α β × Option (α × β)
  | .nil => (.nil, none)
  | .node l k v .nil => (l, some (k, v))
  | .node l k v (.node a x w b) =>
    let p := splitMax (.node a x w b)
    (.node l k v p.1, p.2)

/-- Removal of the node at the root of a subtree, the core of
`ubi_btRemove()`: with two children, swap with the in-order predecessor
(the rightmost node of the left subtree) and splice; with at most one
child, splice that child into the vacated position. -/
def delRoot : BT α β → BT α β
  | .nil => .nil
  | .node l k v r =>
    match l with
    | .nil => r
    | .node a x w b =>
      match r with
      | .nil => .node a x w b
      | _ =>
        match splitMax (.node a x w b) with
        | (l', some (pk, pv)) => .node l' pk pv r
        | (_, none) => r

/-- Translation of `ubi_btRemove()`: remove the node at the given
location (the C caller passes a node pointer and guarantees membership;
here the location carries the parent chain) and decrement the count. -/
def ubi_btRemove (R : TRoot α β) (loc : Loc α β) : TRoot α β :=
  ⟨plugCtx (delRoot loc.sub) loc.ctx, R.count - 1, R.dups, R.ovwt⟩

/-- Translation of `ubi_btFind()`: `qFind` from the root; the entry of the
found node, or `none`. -/
def ubi_btFind (R : TRoot α β) (k : α) : Option (α × β) :=
  (qFindZ k R.root []).bind locEntry

/-- Comparison operators accepted by `ubi_btLocate()`. -/
inductive CompOp : Type where
  | LT : CompOp
  | LE : CompOp
  | EQ : CompOp
  | GE : CompOp
  | GT : CompOp
deriving DecidableEq, Repr

/-- Location-level translation of `ubi_btLocate()` of ubi_BinTree.c.
With a match: LT borders LEFT then takes the LEFT neighbor, GT borders
RIGHT then takes the RIGHT neighbor, and every other operator returns the
LEFT border of the match.  With no match: EQ fails; otherwise the parent
of the insertion point (`parent`/`whichkid` of `TreeFind`) is used — if
the last travelled direction equals the search direction the parent's
neighbor in that direction is returned, else the parent itself.  An empty
tree returns `none` (the C `parent` is NULL there). -/
def ubi_btLocateZ (dupsOK : Bool) (k : α) (op : CompOp) (t : BT α β) :
    Option (Loc α β) :=
  let floc := treeFindZ k t []
  match floc.sub with
  | .node l k' v' r =>
    match op with
    | .LT => neighborZ .left (borderZ dupsOK k .left ⟨.node l k' v' r, floc.ctx⟩)
    | .GT => neighborZ .right (borderZ dupsOK k .right ⟨.node l k' v' r, floc.ctx⟩)
    | _ => some (borderZ dupsOK k .left ⟨.node l k' v' r, floc.ctx⟩)
  | .nil =>
    match op with
    | .EQ => none
    | .LT | .LE =>
      match floc.ctx with
      | [] => none
      | f :: rest =>
        if f.d = .left then neighborZ .left ⟨plug1 f .nil, rest⟩
        else some ⟨plug1 f .nil, rest⟩
    | .GE | .GT =>
      match floc.ctx with
      | [] => none
      | f :: rest =>
        if f.d = .right then neighborZ .right ⟨plug1 f .nil, rest⟩
        else some ⟨plug1 f .nil, rest⟩

/-- Translation of `ubi_btLocate()` returning the located entry. -/
def ubi_btLocate (R : TRoot α β) (k : α) (op : CompOp) : Option (α × β) :=
  (ubi_btLocateZ R.dups k op R.root).bind locEntry

/-- Translation of `ubi_btFirstOf()`: if the given node is null or does
not match the key, return NULL (error); otherwise the LEFT border of the
node. -/
def ubi_btFirstOf (R : TRoot α β) (k : α) (loc : Loc α β) : Option (Loc α β) :=
  match loc.sub with
  | .nil => none
  | .node l k' v r =>
    if cmp3 k k' = .eq then some (borderZ R.dups k .left ⟨.node l k' v r, loc.ctx⟩)
    else none

/-- Translation of `ubi_btLastOf()` as written in ubi_BinTree.c: the guard
reads `if( (NULL != p) || (ubi_trEQUAL != cmp(MatchMe, p)) ) return NULL;`
so every non-null starting node short-circuits to NULL.  (When `p` is
NULL the C code goes on to dereference it — undefined behavior — which the
model maps to `none` as well.) -/
def ubi_btLastOf (R : TRoot α β) (k : α) (loc : Loc α β) : Option (Loc α β) :=
  match loc.sub with
  | .node _ _ _ _ => none
  | .nil => none

/-- Fixed behavior of `ubi_btLastOf()` per its own documentation (the
`NULL == p` guard, mirroring `ubi_btFirstOf()`): the RIGHT border of a
matching node. -/
def ubi_btLastOfDocumented (R : TRoot α β) (k : α) (loc : Loc α β) :
    Option (Loc α β) :=
  match loc.sub with
  | .nil => none
  | .node l k' v r =>
    if cmp3 k k' = .eq then some (borderZ R.dups k .right ⟨.node l k' v r, loc.ctx⟩)
    else none

/-- Translation of `ubi_sptInsert()` of ubi_SplayTree.c: perform the base
insertion, then splay the newly added node — or, when the insertion is
refused, the conflicting old node — up to the root. -/
def ubi_sptInsert (R : TRoot α β) (k : α) (v : β) :
    Bool × Option (α × β) × TRoot α β :=
  match insertZ R.dups R.ovwt k v R.root with
  | .fresh loc =>
    (true, none, ⟨splayZip loc.sub loc.ctx, R.count + 1, R.dups, R.ovwt⟩)
  | .replaced loc ok ov =>
    (true, some (ok, ov), ⟨splayZip loc.sub loc.ctx, R.count, R.dups, R.ovwt⟩)
  | .rejected loc =>
    (false, rootEntry loc.sub, ⟨splayZip loc.sub loc.ctx, R.count, R.dups, R.ovwt⟩)

/-- Translation of `ubi_sptRemove()` of ubi_SplayTree.c: splay the doomed
node to the root; if a left subtree exists, make it the root, attach the
right subtree below the rightmost node of the left subtree and re-splay at
that junction node; otherwise the right subtree (possibly empty) becomes
the root.  The count is decremented. -/
def ubi_sptRemove (R : TRoot α β) (loc : Loc α β) : TRoot α β :=
  match splayZip loc.sub loc.ctx with
  | .nil => ⟨.nil, R.count - 1, R.dups, R.ovwt⟩
  | .node L _ _ Rt =>
    match L with
    | .nil => ⟨Rt, R.count - 1, R.dups, R.ovwt⟩
    | .node a x w b =>
      let rloc := subSlideZ .right (.node a x w b) []
      match rloc.sub with
      | .node a2 y w2 .nil =>
        ⟨splayZip (.node a2 y w2 Rt) rloc.ctx, R.count - 1, R.dups, R.ovwt⟩
      | _ => ⟨.node a x w b, R.count - 1, R.dups, R.ovwt⟩

/-- Translation of `ubi_sptFind()`: `qFind`, then splay the found node (if
any) to the root.  Returns the found entry and the updated tree. -/
def ubi_sptFind (R : TRoot α β) (k : α) : Option (α × β) × TRoot α β :=
  match qFindZ k R.root [] with
  | none => (none, R)
  | some loc =>
    (locEntry loc, ⟨splayZip loc.sub loc.ctx, R.count, R.dups, R.ovwt⟩)

/-- Translation of `ubi_sptLocate()`: base `Locate`, then splay the
located node (if any) to the root. -/
def ubi_sptLocate (R : TRoot α β) (k : α) (op : CompOp) :
    Option (α × β) × TRoot α β :=
  match ubi_btLocateZ R.dups k op R.root with
  | none => (none, R)
  | some loc =>
    (locEntry loc, ⟨splayZip loc.sub loc.ctx, R.count, R.dups, R.ovwt⟩)

/-- Translation of `ubi_sptSplay()`: splay the tree at the given node. -/
def ubi_sptSplay (R : TRoot α β) (loc : Loc α β) : TRoot α β :=
  ⟨splayZip loc.sub loc.ctx, R.count, R.dups, R.ovwt⟩

/-- Entries contributed to the in-order prefix (left of the current node)
by one frame: a RIGHT-gender frame places the parent's left subtree and
the parent itself before the current node. -/
def lpart {α β : Type} (f : Frame α β) : List (α × β) :=
  match f.d with
  | .left => []
  | .right => inorder f.sib ++ [(f.key, f.val)]

/-- Entries contributed to the in-order suffix (right of the current node)
by one frame: a LEFT-gender frame places the parent and the parent's right
subtree after the current node. -/
def rpart {α β : Type} (f : Frame α β) : List (α × β) :=
  match f.d with
  | .left => (f.key, f.val) :: inorder f.sib
  | .right => []

/-- Entries of the whole tree that precede (in traversal order) every
entry of the current location's subtree. -/
def ctxL {α β : Type} : List (Frame α β) → List (α × β)
  | [] => []
  | f :: rest => ctxL rest ++ lpart f

/-- Entries of the whole tree that follow (in traversal order) every entry
of the current location's subtree. -/
def ctxR {α β : Type} : List (Frame α β) → List (α × β)
  | [] => []
  | f :: rest => rpart f ++ ctxR rest

/-- The `Link[whichway]` read of ubi_btLeafNode: the child of the pointed
node on side `d`, as a location, or none when that child is NULL (or the
location itself is null, which the C callers exclude). -/
def childLoc {α β : Type} (d : Dir) (loc : Loc α β) : Option (Loc α β) :=
  match loc.sub with
  | .nil => none
  | .node l k v r =>
    match d with
    | .left =>
      match l with
      | .nil => none
      | .node a x w b => some ⟨.node a x w b, ⟨.left, k, v, r⟩ :: loc.ctx⟩
    | .right =>
      match r with
      | .nil => none
      | .node a x w b => some ⟨.node a x w b, ⟨.right, k, v, l⟩ :: loc.ctx⟩

/-- One iteration of the ubi_btLeafNode descent: the first C loop fills
the next generation with the `d`-side children of the current nodes; the
direction is then reversed and the second loop tops the array up with
reverse-side children, but only while fewer than MAXPATHS-1 = 3 slots are
used. -/
def leafFill {α β : Type} (d : Dir) (q : List (Loc α β)) : List (Loc α β) :=
  let ps1 := q.filterMap (childLoc d)
  ps1 ++ (q.filterMap (childLoc d.rev)).take (3 - ps1.length)

/-- The `while (paths > 0)` loop of ubi_btLeafNode: keep a generation of
paths; when the next generation is empty, return the first node of the
current one.  The fuel argument only serves Lean's termination checker;
callers pass more fuel than the subtree has nodes, which is never
exhausted (each generation lives strictly deeper than the last). -/
def leafLoop {α β : Type} : Nat → Dir → List (Loc α β) → Option (Loc α β)
  | 0, _, _ => none
  | _ + 1, _, [] => none
  | n + 1, d, q0 :: qs =>
    match leafFill d (q0 :: qs) with
    | [] => some q0
    | p0 :: ps => leafLoop n d.rev (p0 :: ps)

/-- Translation of `ubi_btLeafNode()`: NULL in, NULL out; otherwise run
the multi-path descent from the given node (here: the given subtree, with
the returned location's context expressed relative to it), starting
leftward with a single path. -/
def ubi_btLeafNode {α β : Type} (t : BT α β) : Option (Loc α β) :=
  match t with
  | .nil => none
  | .node l k v r =>
    leafLoop ((BT.node l k v r).size + 1) .left [⟨.node l k v r, []⟩]

/-- The ubi_cacheRoot structure of ubi_Cache.h: a splay tree (opened in
OVERWRITE mode by ubi_cacheInit) whose payload is the entry's recorded
size in bytes, the two limits (zero = unlimited), the current memory
total, and the two unsigned-short hit-ratio counters. -/
structure CacheRoot (α : Type) : Type where
  tree : TRoot α Nat
  max_entries : Nat
  max_memory : Nat
  mem_used : Nat
  cache_hits : Nat
  cache_trys : Nat
deriving DecidableEq, Repr

/-- Translation of the static `free_entry()` of ubi_Cache.c: adjust the
mem_used counter by the removed entry's size (the actual call to the
caller's free function has no observable effect in the model). -/
def free_entry {α : Type} (c : CacheRoot α) (entry_size : Nat) : CacheRoot α :=
  { c with mem_used := c.mem_used - entry_size }

/-- Translation of `ubi_cacheReduce()`: remove `count` entries, each time
picking a leaf via ubi_btLeafNode, removing it with the splay-tree remove
and freeing it; FALSE (with the cache already empty) if the tree runs out
of nodes first. -/
def ubi_cacheReduce {α : Type} [LinearOrder α] :
    CacheRoot α → Nat → Bool × CacheRoot α
  | c, 0 => (true, c)
  | c, n + 1 =>
    match ubi_btLeafNode c.tree.root with
    | none => (false, c)
    | some loc =>
      let sz : Nat :=
        match loc.sub with
        | .node _ _ s _ => s
        | .nil => 0
      ubi_cacheReduce (free_entry { c with tree := ubi_sptRemove c.tree loc } sz) n

/-- Translation of the static `cachetrim()` of ubi_Cache.c: while a
nonzero entry limit is exceeded by the count or a nonzero memory limit is
exceeded by mem_used, reduce by one entry; stop if the reduction fails.
The C loop needs no fuel (every successful reduction removes a live
node); the fuel argument only satisfies Lean's termination checker and
callers pass more than the tree's node count. -/
def cachetrim {α : Type} [LinearOrder α] : Nat → CacheRoot α → CacheRoot α
  | 0, c => c
  | n + 1, c =>
    if (c.max_entries ≠ 0 ∧ c.max_entries < c.tree.count) ∨
        (c.max_memory ≠ 0 ∧ c.max_memory < c.mem_used) then
      match ubi_cacheReduce c 1 with
      | (false, c2) => c2
      | (true, c2) => cachetrim n c2
    else c

/-- Translation of `ubi_cacheInit()`: open the underlying tree in
OVERWRITE mode, record the limits, zero the usage and the counters. -/
def ubi_cacheInit {α : Type} (MaxEntries MaxMemory : Nat) : CacheRoot α :=
  ⟨⟨.nil, 0, false, true⟩, MaxEntries, MaxMemory, 0, 0, 0⟩

/-- Translation of `ubi_cacheClear()`: kill the tree (all entries freed)
and re-zero mem_used and both counters; the limits survive. -/
def ubi_cacheClear {α : Type} (c : CacheRoot α) : CacheRoot α :=
  { c with tree := ⟨.nil, 0, c.tree.dups, c.tree.ovwt⟩,
           mem_used := 0, cache_hits := 0, cache_trys := 0 }

/-- Translation of `ubi_cachePut()`: account the new entry's size, insert
(overwrite mode evicts a matching old entry, whose size is given back),
then trim the cache to its limits. -/
def ubi_cachePut {α : Type} [LinearOrder α] (c : CacheRoot α) (EntrySize : Nat)
    (k : α) : CacheRoot α :=
  let c1 : CacheRoot α := { c with mem_used := c.mem_used + EntrySize }
  let r := ubi_sptInsert c1.tree k EntrySize
  let c2 : CacheRoot α := { c1 with tree := r.2.2 }
  let c3 : CacheRoot α :=
    match r.2.1 with
    | some old => free_entry c2 old.2
    | none => c2
  cachetrim (c3.tree.root.size + 1) c3

/-- Translation of `ubi_cacheGet()`: splay-find the key; bump the try
counter, and the hit counter on success, then halve both unsigned-short
counters once the tries reach 0xFFFE.  The increments are taken modulo
2^16 exactly as the 16-bit fields would wrap. -/
def ubi_cacheGet {α : Type} [LinearOrder α] (c : CacheRoot α) (k : α) :
    Option (α × Nat) × CacheRoot α :=
  let f := ubi_sptFind c.tree k
  let hits1 : Nat := if f.1.isSome then (c.cache_hits + 1) % 65536 else c.cache_hits
  let trys1 : Nat := (c.cache_trys + 1) % 65536
  if 0xFFFE ≤ trys1 then
    (f.1, { c with tree := f.2, cache_hits := hits1 / 2, cache_trys := trys1 / 2 })
  else
    (f.1, { c with tree := f.2, cache_hits := hits1, cache_trys := trys1 })

/-- Translation of `ubi_cacheDelete()`: splay-find the key; on success the
found node is the new root, remove and free it. -/
def ubi_cacheDelete {α : Type} [LinearOrder α] (c : CacheRoot α) (k : α) :
    Bool × CacheRoot α :=
  let f := ubi_sptFind c.tree k
  match f.1 with
  | none => (false, c)
  | some e =>
    (true, free_entry { c with tree := ubi_sptRemove f.2 ⟨f.2.root, []⟩ } e.2)

/-- Translation of `ubi_cacheSetMaxEntries()`: record the new limit and
trim when it shrank, or when a limit appeared where none existed. -/
def ubi_cacheSetMaxEntries {α : Type} [LinearOrder α] (c : CacheRoot α)
    (NewSize : Nat) : Nat × CacheRoot α :=
  let oldsize := c.max_entries
  let c1 : CacheRoot α := { c with max_entries := NewSize }
  if NewSize < oldsize ∨ (NewSize ≠ 0 ∧ oldsize = 0) then
    (oldsize, cachetrim (c1.tree.root.size + 1) c1)
  else
    (oldsize, c1)

/-- Translation of `ubi_cacheSetMaxMemory()`: record the new limit and
trim when it shrank, or when a limit appeared where none existed. -/
def ubi_cacheSetMaxMemory {α : Type} [LinearOrder α] (c : CacheRoot α)
    (NewSize : Nat) : Nat × CacheRoot α :=
  let oldsize := c.max_memory
  let c1 : CacheRoot α := { c with max_memory := NewSize }
  if NewSize < oldsize ∨ (NewSize ≠ 0 ∧ oldsize = 0) then
    (oldsize, cachetrim (c1.tree.root.size + 1) c1)
  else
    (oldsize, c1)

/-- Translation of `ubi_cacheHitRatio()`: 10000 times the hit ratio, or 0
when there have been no tries. -/
def ubi_cacheHitRatio {α : Type} (c : CacheRoot α) : Nat :=
  if c.cache_trys ≠ 0 then (10000 * c.cache_hits) / c.cache_trys else 0

/-- The budget condition of the C3 claim: the cache is empty, or every
nonzero limit is respected. -/
def budgetOK {α : Type} (c : CacheRoot α) : Prop :=
  c.tree.root = .nil ∨
    ((c.max_entries ≠ 0 → c.tree.count ≤ c.max_entries) ∧
     (c.max_memory ≠ 0 → c.mem_used ≤ c.max_memory))

/-- Cache states reachable through the ubi_Cache interface. -/
inductive CacheReach : CacheRoot α → Prop where
  | init (me mm : Nat) : CacheReach (ubi_cacheInit me mm)
  | put {c : CacheRoot α} (sz : Nat) (k : α) :
      CacheReach c → CacheReach (ubi_cachePut c sz k)
  | get {c : CacheRoot α} (k : α) :
      CacheReach c → CacheReach (ubi_cacheGet c k).2
  | del {c : CacheRoot α} (k : α) :
      CacheReach c → CacheReach (ubi_cacheDelete c k).2
  | reduce {c : CacheRoot α} (n : Nat) :
      CacheReach c → CacheReach (ubi_cacheReduce c n).2
  | setME {c : CacheRoot α} (n : Nat) :
      CacheReach c → CacheReach (ubi_cacheSetMaxEntries c n).2
  | setMM {c : CacheRoot α} (n : Nat) :
      CacheReach c → CacheReach (ubi_cacheSetMaxMemory c n).2
  | clear {c : CacheRoot α} : CacheReach c → CacheReach (ubi_cacheClear c)

/-- Modelled from the spec: an AVL tree node carries the shared node
layout plus a balance field in the tri-state {LeansLeft, Balanced,
LeansRight}, encoded as the integers {-1, 0, 1} (the C sources keep the
same convention via ubi_trLEFT/ubi_trEQUAL/ubi_trRIGHT). -/
inductive AVL (α β : Type) : Type where
  | nil : AVL α β
  | node (l : AVL α β) (key : α) (val : β) (bal : Int) (r : AVL α β) : AVL α β
deriving DecidableEq, Repr

/-- Modelled from the spec: height of an AVL subtree (empty = 0). -/
def AVL.height {α β : Type} : AVL α β → Nat
  | .nil => 0
  | .node l _ _ _ r => max l.height r.height + 1

/-- Modelled from the spec: number of nodes of an AVL subtree. -/
def AVL.size {α β : Type} : AVL α β → Nat
  | .nil => 0
  | .node l _ _ _ r => l.size + r.size + 1

/-- Balance factor stored at the root of an AVL subtree (0 for empty). -/
def balOf {α β : Type} : AVL α β → Int
  | .nil => 0
  | .node _ _ _ b _ => b

/-- Modelled from the spec: the per-node AVL state-machine invariant —
the stored balance equals height(right) minus height(left) and stays in
the tri-state range. -/
def WellAVL {α β : Type} : AVL α β → Prop
  | .nil => True
  | .node l _ _ b r => WellAVL l ∧ WellAVL r ∧
      b = (r.height : Int) - (l.height : Int) ∧ b.natAbs ≤ 1

/-- Modelled from the spec: the balance-field reading of the claim — each
balance equals the sign of the subtree height difference, and that
difference never exceeds one in magnitude. -/
def BalSignOK {α β : Type} : AVL α β → Prop
  | .nil => True
  | .node l _ _ b r => BalSignOK l ∧ BalSignOK r ∧
      b = Int.sign ((r.height : Int) - (l.height : Int)) ∧
      ((r.height : Int) - (l.height : Int)).natAbs ≤ 1

/-- Modelled from the spec: rebalance a node whose left subtree has become
two levels taller than its right subtree — a single right rotation for the
left-left and equal cases, a double rotation for the left-right case; the
Bool reports whether the rebalanced subtree is one level shorter than the
unbalanced node would have been (always, except in the equal case that
only deletion can produce). -/
def fixL {α β : Type} : AVL α β → α → β → AVL α β → AVL α β × Bool
  | .node ll lk lv lb lr, k, v, r =>
    if lb = 1 then
      match lr with
      | .node lrl lrk lrv lrb lrr =>
        (.node (.node ll lk lv (if lrb = 1 then -1 else 0) lrl) lrk lrv 0
          (.node lrr k v (if lrb = -1 then 1 else 0) r), true)
      | .nil => (.node ll lk lv 0 (.node lr k v 0 r), true)
    else if lb = 0 then
      (.node ll lk lv 1 (.node lr k v (-1) r), false)
    else
      (.node ll lk lv 0 (.node lr k v 0 r), true)
  | .nil, k, v, r => (.node .nil k v 0 r, true)

/-- Modelled from the spec: mirror image of `fixL` for a node whose right
subtree has become two levels taller than its left subtree. -/
def fixR {α β : Type} : AVL α β → α → β → AVL α β → AVL α β × Bool
  | l, k, v, .node rl rk rv rb rr =>
    if rb = -1 then
      match rl with
      | .node rll rlk rlv rlb rlr =>
        (.node (.node l k v (if rlb = 1 then -1 else 0) rll) rlk rlv 0
          (.node rlr rk rv (if rlb = -1 then 1 else 0) rr), true)
      | .nil => (.node (.node l k v 0 rl) rk rv 0 rr, true)
    else if rb = 0 then
      (.node (.node l k v 1 rl) rk rv (-1) rr, false)
    else
      (.node (.node l k v 0 rl) rk rv 0 rr, true)
  | l, k, v, .nil => (.node l k v 0 .nil, true)

/-- Modelled from the spec: ubi_avlInsert — the BaseTree placement
followed by the upward balance-factor walk (here fused into the
recursion); the Bool reports whether the subtree grew by one level, which
is what the C walk uses to decide whether to keep climbing.  An equal key
overwrites the payload in place (the cache and the default test setup open
trees in OVERWRITE mode). -/
def ubi_avlInsert {α β : Type} [LinearOrder α] (k : α) (v : β) :
    AVL α β → AVL α β × Bool
  | .nil => (.node .nil k v 0 .nil, true)
  | .node l k2 v2 b r =>
    match cmp3 k k2 with
    | .eq => (.node l k2 v b r, false)
    | .lt =>
      match ubi_avlInsert k v l with
      | (l2, false) => (.node l2 k2 v2 b r, false)
      | (l2, true) =>
        if b = 1 then (.node l2 k2 v2 0 r, false)
        else if b = 0 then (.node l2 k2 v2 (-1) r, true)
        else ((fixL l2 k2 v2 r).1, false)
    | .gt =>
      match ubi_avlInsert k v r with
      | (r2, false) => (.node l k2 v2 b r2, false)
      | (r2, true) =>
        if b = -1 then (.node l k2 v2 0 r2, false)
        else if b = 0 then (.node l k2 v2 1 r2, true)
        else ((fixR l k2 v2 r2).1, false)

/-- Modelled from the spec: remove and return the rightmost entry of an
AVL subtree (the in-order predecessor used by Remove's two-children case),
rebalancing on the way back up; the Bool reports whether the subtree
shrank by one level. -/
def avlDelMax {α β : Type} : AVL α β → AVL α β × Option (α × β) × Bool
  | .nil => (.nil, none, false)
  | .node l k v _ .nil => (l, some (k, v), true)
  | .node l k v b (.node rl rk rv rb rr) =>
    match avlDelMax (.node rl rk rv rb rr) with
    | (r2, e, false) => (.node l k v b r2, e, false)
    | (r2, e, true) =>
      if b = 1 then (.node l k v 0 r2, e, true)
      else if b = 0 then (.node l k v (-1) r2, e, false)
      else
        match fixL l k v r2 with
        | (t2, s) => (t2, e, s)

/-- Modelled from the spec: ubi_avlRemove — the BaseTree removal (splice,
or swap with the in-order predecessor when both children exist) followed
by the upward debalance walk; the Bool reports whether the subtree shrank
by one level.  A missing key leaves the tree unchanged (the C caller
contract passes only member nodes; the total model makes the lookup
explicit). -/
def ubi_avlRemove {α β : Type} [LinearOrder α] (k : α) :
    AVL α β → AVL α β × Bool
  | .nil => (.nil, false)
  | .node l k2 v2 b r =>
    match cmp3 k k2 with
    | .lt =>
      match ubi_avlRemove k l with
      | (l2, false) => (.node l2 k2 v2 b r, false)
      | (l2, true) =>
        if b = -1 then (.node l2 k2 v2 0 r, true)
        else if b = 0 then (.node l2 k2 v2 1 r, false)
        else fixR l2 k2 v2 r
    | .gt =>
      match ubi_avlRemove k r with
      | (r2, false) => (.node l k2 v2 b r2, false)
      | (r2, true) =>
        if b = 1 then (.node l k2 v2 0 r2, true)
        else if b = 0 then (.node l k2 v2 (-1) r2, false)
        else fixL l k2 v2 r2
    | .eq =>
      match avlDelMax l with
      | (_, none, _) => (r, true)
      | (l2, some e, false) => (.node l2 e.1 e.2 b r, false)
      | (l2, some e, true) =>
        if b = -1 then (.node l2 e.1 e.2 0 r, true)
        else if b = 0 then (.node l2 e.1 e.2 1 r, false)
        else fixR l2 e.1 e.2 r

/-- AVL trees built by any sequence of inserts and removes. -/
inductive AVLReach : AVL α β → Prop where
  | init : AVLReach .nil
  | ins {t : AVL α β} (k : α) (v : β) :
      AVLReach t → AVLReach (ubi_avlInsert k v t).1
  | rem {t : AVL α β} (k : α) :
      AVLReach t → AVLReach (ubi_avlRemove k t).1

theorem cmp3_eq_iff {a b : α} : cmp3 a b = .eq ↔ a = b := by
  rcases lt_trichotomy a b with h | h | h
  · simp [cmp3, h, h.ne]
  · subst h; simp [cmp3]
  · simp [cmp3, h, h.ne', not_lt_of_gt h]

theorem cmp3_lt_iff {a b : α} : cmp3 a b = .lt ↔ a < b := by
  rcases lt_trichotomy a b with h | h | h
  · simp [cmp3, h]
  · subst h; simp [cmp3]
  · simp [cmp3, h, not_lt_of_gt h]

theorem cmp3_gt_iff {a b : α} : cmp3 a b = .gt ↔ b < a := by
  rcases lt_trichotomy a b with h | h | h
  · simp [cmp3, h, not_lt_of_gt h]
  · subst h; simp [cmp3]
  · simp [cmp3, h, not_lt_of_gt h]

theorem cmp3_self (a : α) : cmp3 a a = .eq := by
  simp [cmp3]

theorem inorder_plug1 {α β : Type} (f : Frame α β) (t : BT α β) :
    inorder (plug1 f t) = lpart f ++ inorder t ++ rpart f := by
  cases hd : f.d <;> simp [plug1, lpart, rpart, hd, inorder]

theorem inorder_plugCtx {α β : Type} :
    ∀ (ctx : List (Frame α β)) (t : BT α β),
      inorder (plugCtx t ctx) = ctxL ctx ++ inorder t ++ ctxR ctx := by
  intro ctx
  induction ctx with
  | nil => intro t; simp [plugCtx, ctxL, ctxR]
  | cons f rest ih =>
    intro t
    show inorder (plugCtx (plug1 f t) rest) = _
    rw [ih, inorder_plug1]
    simp [ctxL, ctxR]

/-- Central splay lemma: splaying the node `(k, v)` up through its context
yields a tree rooted at that node whose left part collects exactly the
entries that preceded it and whose right part collects exactly the entries
that followed it, in order.  In particular splaying preserves the in-order
traversal and brings the splayed node to the root. -/
theorem splayParts :
    ∀ (ctx : List (Frame α β)) (l : BT α β) (k : α) (v : β) (r : BT α β),
    ∃ l2 r2, splayZip (.node l k v r) ctx = .node l2 k v r2 ∧
      inorder l2 = ctxL ctx ++ inorder l ∧ inorder r2 = inorder r ++ ctxR ctx
  | [], l, k, v, r => ⟨l, r, rfl, by simp [ctxL], by simp [ctxR]⟩
  | [f], l, k, v, r => by
    obtain ⟨d, fk, fv, sib⟩ := f
    cases d
    · exact ⟨l, .node r fk fv sib, rfl, by simp [ctxL, lpart],
        by simp [ctxR, rpart, inorder]⟩
    · exact ⟨.node sib fk fv l, r, rfl, by simp [ctxL, lpart, inorder],
        by simp [ctxR, rpart]⟩
  | f1 :: f2 :: rest, l, k, v, r => by
    obtain ⟨d1, k1, v1, s1⟩ := f1
    obtain ⟨d2, k2, v2, s2⟩ := f2
    by_cases hd : d1 = d2
    · subst hd
      cases d1
      · have step : splayZip (.node l k v r) (⟨.left, k1, v1, s1⟩ :: ⟨.left, k2, v2, s2⟩ :: rest) =
            splayZip (.node l k v (.node r k1 v1 (.node s1 k2 v2 s2))) rest := by
          simp [splayZip, zigzigFrame, zig]
        obtain ⟨l2, r2, heq, hl, hr⟩ :=
          splayParts rest l k v (.node r k1 v1 (.node s1 k2 v2 s2))
        refine ⟨l2, r2, step.trans heq, ?_, ?_⟩
        · rw [hl]; simp [ctxL, lpart]
        · rw [hr]; simp [ctxR, rpart, inorder]
      · have step : splayZip (.node l k v r) (⟨.right, k1, v1, s1⟩ :: ⟨.right, k2, v2, s2⟩ :: rest) =
            splayZip (.node (.node (.node s2 k2 v2 s1) k1 v1 l) k v r) rest := by
          simp [splayZip, zigzigFrame, zig]
        obtain ⟨l2, r2, heq, hl, hr⟩ :=
          splayParts rest (.node (.node s2 k2 v2 s1) k1 v1 l) k v r
        refine ⟨l2, r2, step.trans heq, ?_, ?_⟩
        · rw [hl]; simp [ctxL, lpart, inorder]
        · rw [hr]; simp [ctxR, rpart]
    · cases d1 <;> cases d2 <;> try exact absurd rfl hd
      · have step : splayZip (.node l k v r) (⟨.left, k1, v1, s1⟩ :: ⟨.right, k2, v2, s2⟩ :: rest) =
            splayZip (.node (.node s2 k2 v2 l) k v (.node r k1 v1 s1)) rest := by
          simp [splayZip, zig]
        obtain ⟨l2, r2, heq, hl, hr⟩ :=
          splayParts rest (.node s2 k2 v2 l) k v (.node r k1 v1 s1)
        refine ⟨l2, r2, step.trans heq, ?_, ?_⟩
        · rw [hl]; simp [ctxL, lpart, inorder]
        · rw [hr]; simp [ctxR, rpart, inorder]
      · have step : splayZip (.node l k v r) (⟨.right, k1, v1, s1⟩ :: ⟨.left, k2, v2, s2⟩ :: rest) =
            splayZip (.node (.node s1 k1 v1 l) k v (.node r k2 v2 s2)) rest := by
          simp [splayZip, zig]
        obtain ⟨l2, r2, heq, hl, hr⟩ :=
          splayParts rest (.node s1 k1 v1 l) k v (.node r k2 v2 s2)
        refine ⟨l2, r2, step.trans heq, ?_, ?_⟩
        · rw [hl]; simp [ctxL, lpart, inorder]
        · rw [hr]; simp [ctxR, rpart, inorder]

theorem treeFindZ_plug (k : α) :
    ∀ (t : BT α β) (ctx : List (Frame α β)),
      plugCtx (treeFindZ k t ctx).sub (treeFindZ k t ctx).ctx = plugCtx t ctx := by
  intro t
  induction t with
  | nil => intro ctx; rfl
  | node l k' v r ihl ihr =>
    intro ctx
    cases hc : cmp3 k k' with
    | eq => simp [treeFindZ, hc]
    | lt =>
      have h := ihl (⟨.left, k', v, r⟩ :: ctx)
      simp only [treeFindZ, hc]
      simpa [plugCtx, plug1] using h
    | gt =>
      have h := ihr (⟨.right, k', v, l⟩ :: ctx)
      simp only [treeFindZ, hc]
      simpa [plugCtx, plug1] using h

theorem qFindZ_plug (k : α) :
    ∀ (t : BT α β) (ctx : List (Frame α β)) (loc : Loc α β),
      qFindZ k t ctx = some loc →
      plugCtx loc.sub loc.ctx = plugCtx t ctx := by
  intro t
  induction t with
  | nil => intro ctx loc h; simp [qFindZ] at h
  | node l k' v r ihl ihr =>
    intro ctx loc h
    rw [qFindZ] at h
    cases hc : cmp3 k k' with
    | eq => rw [hc] at h; cases h; rfl
    | lt =>
      rw [hc] at h
      have := ihl _ _ h
      simpa [plugCtx, plug1] using this
    | gt =>
      rw [hc] at h
      have := ihr _ _ h
      simpa [plugCtx, plug1] using this

theorem qFindZ_sub (k : α) :
    ∀ (t : BT α β) (ctx : List (Frame α β)) (loc : Loc α β),
      qFindZ k t ctx = some loc →
      ∃ l v r, loc.sub = .node l k v r := by
  intro t
  induction t with
  | nil => intro ctx loc h; simp [qFindZ] at h
  | node l k' v r ihl ihr =>
    intro ctx loc h
    rw [qFindZ] at h
    cases hc : cmp3 k k' with
    | eq =>
      rw [hc] at h; cases h
      exact ⟨l, v, r, by rw [cmp3_eq_iff.mp hc]⟩
    | lt => rw [hc] at h; exact ihl _ _ h
    | gt => rw [hc] at h; exact ihr _ _ h

theorem treeFindZ_sub_eq (k : α) :
    ∀ (t : BT α β) (ctx : List (Frame α β)) (l : BT α β) (kk : α) (v : β) (r : BT α β),
      (treeFindZ k t ctx).sub = .node l kk v r → kk = k := by
  intro t
  induction t with
  | nil => intro ctx l kk v r h; simp [treeFindZ] at h
  | node tl k' v' tr ihl ihr =>
    intro ctx l kk v r h
    rw [treeFindZ] at h
    cases hc : cmp3 k k' with
    | eq =>
      rw [hc] at h
      cases h
      exact (cmp3_eq_iff.mp hc).symm
    | lt => rw [hc] at h; exact ihl _ _ _ _ _ h
    | gt => rw [hc] at h; exact ihr _ _ _ _ _ h

theorem dupDescend_sub (k : α) (v : β) :
    ∀ (t : BT α β) (ctx : List (Frame α β)),
      (dupDescend k v t ctx).sub = .node .nil k v .nil := by
  intro t
  induction t with
  | nil => intro ctx; rfl
  | node l k' v' r ihl ihr =>
    intro ctx
    rw [dupDescend]
    cases hc : cmp3 k k' with
    | eq => exact ihr _
    | lt => exact ihl _
    | gt => exact ihr _

theorem dupDescend_plugNil (k : α) (v : β) :
    ∀ (t : BT α β) (ctx : List (Frame α β)),
      plugCtx .nil (dupDescend k v t ctx).ctx = plugCtx t ctx := by
  intro t
  induction t with
  | nil => intro ctx; rfl
  | node l k' v' r ihl ihr =>
    intro ctx
    rw [dupDescend]
    cases hc : cmp3 k k' with
    | eq => have := ihr (⟨.right, k', v', l⟩ :: ctx); simpa [plugCtx, plug1] using this
    | lt => have := ihl (⟨.left, k', v', r⟩ :: ctx); simpa [plugCtx, plug1] using this
    | gt => have := ihr (⟨.right, k', v', l⟩ :: ctx); simpa [plugCtx, plug1] using this

theorem subSlideZ_plug (d : Dir) :
    ∀ (t : BT α β) (ctx : List (Frame α β)),
      plugCtx (subSlideZ d t ctx).sub (subSlideZ d t ctx).ctx = plugCtx t ctx := by
  intro t
  induction t with
  | nil => intro ctx; cases d <;> rfl
  | node l k v r ihl ihr =>
    intro ctx
    cases d with
    | left =>
      cases l with
      | nil => rfl
      | node a x w b =>
        have := ihl (⟨.left, k, v, r⟩ :: ctx)
        simpa [subSlideZ, plugCtx, plug1] using this
    | right =>
      cases r with
      | nil => rfl
      | node a x w b =>
        have := ihr (⟨.right, k, v, l⟩ :: ctx)
        simpa [subSlideZ, plugCtx, plug1] using this

theorem subSlideZ_right_sub :
    ∀ (t : BT α β) (ctx : List (Frame α β)), t ≠ .nil →
      ∃ a y w, (subSlideZ .right t ctx).sub = .node a y w .nil := by
  intro t
  induction t with
  | nil => intro ctx h; exact absurd rfl h
  | node l k v r ihl ihr =>
    intro ctx _
    cases r with
    | nil => exact ⟨l, k, v, rfl⟩
    | node a x w b =>
      have := ihr (⟨.right, k, v, l⟩ :: ctx) (by simp)
      simpa [subSlideZ] using this

theorem subSlideZ_right_ctxR :
    ∀ (t : BT α β) (ctx : List (Frame α β)),
      ctxR (subSlideZ .right t ctx).ctx = ctxR ctx := by
  intro t
  induction t with
  | nil => intro ctx; rfl
  | node l k v r ihl ihr =>
    intro ctx
    cases r with
    | nil => rfl
    | node a x w b =>
      have := ihr (⟨.right, k, v, l⟩ :: ctx)
      simpa [subSlideZ, ctxR, rpart] using this

theorem subSlideZ_left_sub :
    ∀ (t : BT α β) (ctx : List (Frame α β)), t ≠ .nil →
      ∃ y w b, (subSlideZ .left t ctx).sub = .node .nil y w b := by
  intro t
  induction t with
  | nil => intro ctx h; exact absurd rfl h
  | node l k v r ihl ihr =>
    intro ctx _
    cases l with
    | nil => exact ⟨k, v, r, rfl⟩
    | node a x w b =>
      have := ihl (⟨.left, k, v, r⟩ :: ctx) (by simp)
      simpa [subSlideZ] using this

theorem subSlideZ_left_ctxL :
    ∀ (t : BT α β) (ctx : List (Frame α β)),
      ctxL (subSlideZ .left t ctx).ctx = ctxL ctx := by
  intro t
  induction t with
  | nil => intro ctx; rfl
  | node l k v r ihl ihr =>
    intro ctx
    cases l with
    | nil => rfl
    | node a x w b =>
      have := ihl (⟨.left, k, v, r⟩ :: ctx)
      simpa [subSlideZ, ctxL, lpart] using this

theorem splitMax_inorder :
    ∀ (l : BT α β) (k : α) (v : β) (r : BT α β),
      ∃ t' e, splitMax (.node l k v r) = (t', some e) ∧
        inorder (.node l k v r) = inorder t' ++ [e] := by
  intro l k v r
  induction r generalizing l k v with
  | nil => exact ⟨l, (k, v), rfl, by simp [splitMax, inorder]⟩
  | node a x w b iha ihb =>
    obtain ⟨t', e, heq, hio⟩ := ihb a x w
    refine ⟨.node l k v t', e, ?_, ?_⟩
    · simp [splitMax, heq]
    · simp only [inorder] at hio ⊢
      rw [hio]
      simp

theorem delRoot_inorder (l : BT α β) (k : α) (v : β) (r : BT α β) :
    inorder (delRoot (.node l k v r)) = inorder l ++ inorder r := by
  cases l with
  | nil => simp [delRoot, inorder]
  | node a x w b =>
    cases r with
    | nil => simp [delRoot, inorder]
    | node c y u d =>
      obtain ⟨t', e, heq, hio⟩ := splitMax_inorder a x w b
      obtain ⟨pk, pv⟩ := e
      simp only [delRoot, heq]
      simp only [inorder] at hio ⊢
      rw [hio]
      simp

theorem btRemove_inorder (R : TRoot α β) (loc : Loc α β)
    (l : BT α β) (k : α) (v : β) (r : BT α β) (hs : loc.sub = .node l k v r) :
    inorder (ubi_btRemove R loc).root =
      ctxL loc.ctx ++ inorder l ++ inorder r ++ ctxR loc.ctx := by
  simp only [ubi_btRemove, hs]
  rw [inorder_plugCtx, delRoot_inorder]
  simp

theorem splayZip_inorder_node (ctx : List (Frame α β)) (l : BT α β) (k : α)
    (v : β) (r : BT α β) :
    inorder (splayZip (.node l k v r) ctx) =
      ctxL ctx ++ inorder l ++ (k, v) :: inorder r ++ ctxR ctx := by
  obtain ⟨l2, r2, heq, hl, hr⟩ := splayParts ctx l k v r
  rw [heq]
  simp only [inorder]
  rw [hl, hr]
  simp

theorem sptRemove_inorder (R : TRoot α β) (loc : Loc α β)
    (l : BT α β) (k : α) (v : β) (r : BT α β) (hs : loc.sub = .node l k v r) :
    inorder (ubi_sptRemove R loc).root =
      ctxL loc.ctx ++ inorder l ++ inorder r ++ ctxR loc.ctx := by
  obtain ⟨L2, R2, heq, hL, hR⟩ := splayParts loc.ctx l k v r
  simp only [ubi_sptRemove, hs, heq]
  cases hL2 : L2 with
  | nil =>
    rw [hL2] at hL
    simp only [inorder] at hL
    have h1 : ctxL loc.ctx = [] := by
      cases List.append_eq_nil.mp hL.symm with
      | intro h1 h2 => exact h1
    have h2 : inorder l = [] := by
      cases List.append_eq_nil.mp hL.symm with
      | intro ha hb => exact hb
    simp [hR, h1, h2]
  | node a x w b =>
    have hnn : (BT.node a x w b : BT α β) ≠ .nil := by simp
    obtain ⟨a2, y, w2, hsub⟩ := subSlideZ_right_sub (.node a x w b) [] hnn
    have hplug : plugCtx (subSlideZ .right (.node a x w b) []).sub
        (subSlideZ .right (.node a x w b) []).ctx = .node a x w b :=
      subSlideZ_plug .right (.node a x w b) []
    have hctxR : ctxR (subSlideZ .right (.node a x w b) []).ctx = [] :=
      subSlideZ_right_ctxR (.node a x w b) []
    simp only [hsub]
    obtain ⟨A, B, heq2, hA, hB⟩ :=
      splayParts (subSlideZ .right (.node a x w b) []).ctx a2 y w2 R2
    rw [heq2]
    simp only [inorder]
    rw [hA, hB, hctxR]
    have hL2io : inorder L2 =
        ctxL (subSlideZ .right (.node a x w b) []).ctx ++ inorder a2 ++ [(y, w2)] := by
      rw [hL2]
      conv_lhs => rw [← hplug]
      rw [inorder_plugCtx, hsub, hctxR]
      simp [inorder]
    have lhs_eq : ctxL (subSlideZ .right (.node a x w b) []).ctx ++ inorder a2 ++
        (y, w2) :: (inorder R2 ++ []) = inorder L2 ++ inorder R2 := by
      rw [hL2io]; simp
    have rhs_eq : inorder L2 ++ inorder R2 =
        ctxL loc.ctx ++ inorder l ++ inorder r ++ ctxR loc.ctx := by
      rw [hL, hR]; simp
    rw [lhs_eq, rhs_eq]

/-- The ordering invariant of the spec: the keys met by an in-order
traversal are non-decreasing. -/
def SortedT (t : BT α β) : Prop :=
  (keys t).Pairwise (· ≤ ·)

theorem keys_node (l : BT α β) (k : α) (v : β) (r : BT α β) :
    keys (.node l k v r) = keys l ++ k :: keys r := by
  simp [keys, inorder]

theorem sortedT_plug_sub {t : BT α β} {ctx : List (Frame α β)}
    (h : SortedT (plugCtx t ctx)) : SortedT t := by
  unfold SortedT keys at h ⊢
  rw [inorder_plugCtx] at h
  refine List.Pairwise.sublist ?_ h
  refine List.Sublist.map _ ?_
  have h1 : List.Sublist (inorder t) (inorder t ++ ctxR ctx) :=
    List.sublist_append_left _ _
  have h2 : List.Sublist (inorder t ++ ctxR ctx) (ctxL ctx ++ (inorder t ++ ctxR ctx)) :=
    List.sublist_append_right _ _
  simpa [List.append_assoc] using h1.trans h2

theorem sortedT_node_bounds {l : BT α β} {k' : α} {v : β} {r : BT α β}
    {ctx : List (Frame α β)} (h : SortedT (plugCtx (.node l k' v r) ctx)) :
    (∀ x ∈ keys l, x ≤ k') ∧ (∀ x ∈ keys r, k' ≤ x) := by
  have hsub : SortedT (.node l k' v r) := sortedT_plug_sub h
  unfold SortedT at hsub
  rw [keys_node, List.pairwise_append] at hsub
  obtain ⟨h1, h2, h3⟩ := hsub
  rw [List.pairwise_cons] at h2
  exact ⟨fun x hx => h3 x hx k' (by simp), fun x hx => h2.1 x hx⟩

/-- Bounds accumulated along a search descent: every entry left of the
current location has key at most `k`; every entry right of it has key at
least `k`. -/
def SearchCtx (k : α) (ctx : List (Frame α β)) : Prop :=
  (∀ e ∈ ctxL ctx, e.1 ≤ k) ∧ (∀ e ∈ ctxR ctx, k ≤ e.1)

theorem searchCtx_nil (k : α) : SearchCtx k ([] : List (Frame α β)) := by
  constructor <;> intro e he <;> simp [ctxL, ctxR] at he

theorem treeFindZ_searchCtx (k : α) :
    ∀ (t : BT α β) (ctx : List (Frame α β)),
      SortedT (plugCtx t ctx) → SearchCtx k ctx →
      SearchCtx k (treeFindZ k t ctx).ctx := by
  intro t
  induction t with
  | nil => intro ctx _ hc; exact hc
  | node l k' v r ihl ihr =>
    intro ctx hs hc
    obtain ⟨hboundL, hboundR⟩ := sortedT_node_bounds hs
    cases hcmp : cmp3 k k' with
    | eq => simpa [treeFindZ, hcmp] using hc
    | lt =>
      have hk : k < k' := cmp3_lt_iff.mp hcmp
      have hs' : SortedT (plugCtx l (⟨.left, k', v, r⟩ :: ctx)) := by
        simpa [plugCtx, plug1] using hs
      have hc' : SearchCtx k (⟨.left, k', v, r⟩ :: ctx) := by
        constructor
        · intro e he
          simp [ctxL, lpart] at he
          exact hc.1 e he
        · intro e he
          have he' : e ∈ ((k', v) :: inorder r) ++ ctxR ctx := by
            simpa [ctxR, rpart] using he
          rcases List.mem_append.mp he' with he1 | he2
          · rcases List.mem_cons.mp he1 with rfl | hmem
            · exact le_of_lt hk
            · have hkey : e.1 ∈ keys r := by
                simpa [keys] using List.mem_map_of_mem Prod.fst hmem
              exact le_of_lt (lt_of_lt_of_le hk (hboundR _ hkey))
          · exact hc.2 e he2
      simpa [treeFindZ, hcmp] using ihl _ hs' hc'
    | gt =>
      have hk : k' < k := cmp3_gt_iff.mp hcmp
      have hs' : SortedT (plugCtx r (⟨.right, k', v, l⟩ :: ctx)) := by
        simpa [plugCtx, plug1] using hs
      have hc' : SearchCtx k (⟨.right, k', v, l⟩ :: ctx) := by
        constructor
        · intro e he
          have he' : e ∈ ctxL ctx ++ (inorder l ++ [(k', v)]) := by
            simpa [ctxL, lpart] using he
          rcases List.mem_append.mp he' with he1 | he2
          · exact hc.1 e he1
          · rcases List.mem_append.mp he2 with hmem | hlast
            · have hkey : e.1 ∈ keys l := by
                simpa [keys] using List.mem_map_of_mem Prod.fst hmem
              exact le_of_lt (lt_of_le_of_lt (hboundL _ hkey) hk)
            · rcases List.mem_singleton.mp hlast with rfl
              exact le_of_lt hk
        · intro e he
          simp [ctxR, rpart] at he
          exact hc.2 e he
      simpa [treeFindZ, hcmp] using ihr _ hs' hc'

theorem dupDescend_searchCtx (k : α) (v : β) :
    ∀ (t : BT α β) (ctx : List (Frame α β)),
      SortedT (plugCtx t ctx) → SearchCtx k ctx →
      SearchCtx k (dupDescend k v t ctx).ctx := by
  intro t
  induction t with
  | nil => intro ctx _ hc; exact hc
  | node l k' v' r ihl ihr =>
    intro ctx hs hc
    obtain ⟨hboundL, hboundR⟩ := sortedT_node_bounds hs
    have hsl : SortedT (plugCtx l (⟨.left, k', v', r⟩ :: ctx)) := by
      simpa [plugCtx, plug1] using hs
    have hsr : SortedT (plugCtx r (⟨.right, k', v', l⟩ :: ctx)) := by
      simpa [plugCtx, plug1] using hs
    have goRight : k' ≤ k → SearchCtx k (dupDescend k v r (⟨.right, k', v', l⟩ :: ctx)).ctx := by
      intro hk
      refine ihr _ hsr ?_
      constructor
      · intro e he
        have he' : e ∈ ctxL ctx ++ (inorder l ++ [(k', v')]) := by
          simpa [ctxL, lpart] using he
        rcases List.mem_append.mp he' with he1 | he2
        · exact hc.1 e he1
        · rcases List.mem_append.mp he2 with hmem | hlast
          · have hkey : e.1 ∈ keys l := by
              simpa [keys] using List.mem_map_of_mem Prod.fst hmem
            exact le_trans (hboundL _ hkey) hk
          · rcases List.mem_singleton.mp hlast with rfl
            exact hk
      · intro e he
        have he' : e ∈ ctxR ctx := by simpa [ctxR, rpart] using he
        exact hc.2 e he'
    cases hcmp : cmp3 k k' with
    | lt =>
      have hk : k < k' := cmp3_lt_iff.mp hcmp
      have hc' : SearchCtx k (⟨.left, k', v', r⟩ :: ctx) := by
        constructor
        · intro e he
          have he' : e ∈ ctxL ctx := by simpa [ctxL, lpart] using he
          exact hc.1 e he'
        · intro e he
          have he' : e ∈ ((k', v') :: inorder r) ++ ctxR ctx := by
            simpa [ctxR, rpart] using he
          rcases List.mem_append.mp he' with he1 | he2
          · rcases List.mem_cons.mp he1 with rfl | hmem
            · exact le_of_lt hk
            · have hkey : e.1 ∈ keys r := by
                simpa [keys] using List.mem_map_of_mem Prod.fst hmem
              exact le_of_lt (lt_of_lt_of_le hk (hboundR _ hkey))
          · exact hc.2 e he2
      simpa [dupDescend, hcmp] using ihl _ hsl hc'
    | eq =>
      have hk : k = k' := cmp3_eq_iff.mp hcmp
      simpa [dupDescend, hcmp] using goRight (le_of_eq hk.symm)
    | gt =>
      have hk : k' < k := cmp3_gt_iff.mp hcmp
      simpa [dupDescend, hcmp] using goRight (le_of_lt hk)

theorem sorted_insert_mid {A B : List (α × β)} {k : α} (v : β)
    (hs : (List.map Prod.fst (A ++ B)).Pairwise (· ≤ ·))
    (hA : ∀ e ∈ A, e.1 ≤ k) (hB : ∀ e ∈ B, k ≤ e.1) :
    (List.map Prod.fst (A ++ (k, v) :: B)).Pairwise (· ≤ ·) := by
  rw [List.map_append, List.pairwise_append] at hs
  obtain ⟨h1, h2, h3⟩ := hs
  rw [List.map_append, List.map_cons, List.pairwise_append]
  refine ⟨h1, ?_, ?_⟩
  · rw [List.pairwise_cons]
    refine ⟨?_, h2⟩
    intro x hx
    rcases List.mem_map.mp hx with ⟨e, he, rfl⟩
    exact hB e he
  · intro a ha b hb
    rcases List.mem_map.mp ha with ⟨e, he, rfl⟩
    rcases List.mem_cons.mp hb with rfl | hbmem
    · exact hA e he
    · exact le_trans (hA e he) (by
        rcases List.mem_map.mp hbmem with ⟨e2, he2, rfl⟩
        exact hB e2 he2)

theorem insertZ_fresh_spec {d o : Bool} {k : α} {v : β} {t : BT α β}
    {loc : Loc α β} (h : insertZ d o k v t = .fresh loc) :
    loc.sub = .node .nil k v .nil ∧ plugCtx .nil loc.ctx = t ∧
    (SortedT t → SearchCtx k loc.ctx) := by
  have hplugT := treeFindZ_plug k t []
  simp only [plugCtx] at hplugT
  simp only [insertZ] at h
  cases hf : (treeFindZ k t []).sub with
  | nil =>
    rw [hf] at h hplugT
    cases h
    refine ⟨rfl, hplugT, ?_⟩
    intro hs
    have := treeFindZ_searchCtx k t [] (by simpa [plugCtx] using hs) (searchCtx_nil k)
    exact this
  | node l k' v' r =>
    rw [hf] at h hplugT
    dsimp only [] at h
    have hk : k' = k := treeFindZ_sub_eq k t [] _ _ _ _ hf
    cases hd : d with
    | false =>
      rw [hd, if_neg Bool.false_ne_true] at h
      cases ho : o with
      | false => rw [ho, if_neg Bool.false_ne_true] at h; simp at h
      | true => rw [ho, if_pos rfl] at h; simp at h
    | true =>
      rw [hd, if_pos rfl] at h
      cases h
      have hsearch0 : SortedT t → SearchCtx k (treeFindZ k t []).ctx := by
        intro hs
        exact treeFindZ_searchCtx k t [] (by simpa [plugCtx] using hs) (searchCtx_nil k)
      refine ⟨dupDescend_sub k v _ _, ?_, ?_⟩
      · have := dupDescend_plugNil k v r (⟨.right, k', v', l⟩ :: (treeFindZ k t []).ctx)
        rw [this]
        simpa [plugCtx, plug1] using hplugT
      · intro hs
        have hplug' : plugCtx r (⟨.right, k', v', l⟩ :: (treeFindZ k t []).ctx) = t := by
          simpa [plugCtx, plug1] using hplugT
        have hsort' : SortedT (plugCtx r (⟨.right, k', v', l⟩ :: (treeFindZ k t []).ctx)) := by
          rw [hplug']; exact hs
        refine dupDescend_searchCtx k v r _ hsort' ?_
        have hbase := hsearch0 hs
        have hsortloc : SortedT (plugCtx (.node l k' v' r) (treeFindZ k t []).ctx) := by
          rw [hplugT]; exact hs
        obtain ⟨hboundL, hboundR⟩ := sortedT_node_bounds hsortloc
        constructor
        · intro e he
          have he' : e ∈ ctxL (treeFindZ k t []).ctx ++ (inorder l ++ [(k', v')]) := by
            simpa [ctxL, lpart] using he
          rcases List.mem_append.mp he' with he1 | he2
          · exact hbase.1 e he1
          · rcases List.mem_append.mp he2 with hmem | hlast
            · have hkey : e.1 ∈ keys l := by
                simpa [keys] using List.mem_map_of_mem Prod.fst hmem
              exact le_trans (hboundL _ hkey) (le_of_eq hk)
            · rcases List.mem_singleton.mp hlast with rfl
              exact le_of_eq hk
        · intro e he
          have he' : e ∈ ctxR (treeFindZ k t []).ctx := by
            simpa [ctxR, rpart] using he
          exact hbase.2 e he'

theorem insertZ_replaced_spec {d o : Bool} {k : α} {v : β} {t : BT α β}
    {loc : Loc α β} {ok : α} {ov : β}
    (h : insertZ d o k v t = .replaced loc ok ov) :
    ok = k ∧ ∃ l r, loc.sub = .node l k v r ∧
      plugCtx (.node l k ov r) loc.ctx = t := by
  have hplugT := treeFindZ_plug k t []
  simp only [plugCtx] at hplugT
  simp only [insertZ] at h
  cases hf : (treeFindZ k t []).sub with
  | nil => rw [hf] at h; simp at h
  | node l k' v' r =>
    rw [hf] at h hplugT
    dsimp only [] at h
    have hk : k' = k := treeFindZ_sub_eq k t [] _ _ _ _ hf
    cases hd : d with
    | true => rw [hd] at h; simp at h
    | false =>
      rw [hd, if_neg Bool.false_ne_true] at h
      cases ho : o with
      | false => rw [ho] at h; simp at h
      | true =>
        rw [ho, if_pos rfl] at h
        cases h
        subst hk
        exact ⟨rfl, l, r, rfl, by simpa using hplugT⟩

theorem insertZ_rejected_spec {d o : Bool} {k : α} {v : β} {t : BT α β}
    {loc : Loc α β} (h : insertZ d o k v t = .rejected loc) :
    d = false ∧ o = false ∧ ∃ l v' r, loc.sub = .node l k v' r ∧
      plugCtx loc.sub loc.ctx = t ∧ (k, v') ∈ inorder t := by
  have hplugT := treeFindZ_plug k t []
  simp only [plugCtx] at hplugT
  simp only [insertZ] at h
  cases hf : (treeFindZ k t []).sub with
  | nil => rw [hf] at h; simp at h
  | node l k' v' r =>
    rw [hf] at h hplugT
    dsimp only [] at h
    have hk : k' = k := treeFindZ_sub_eq k t [] _ _ _ _ hf
    cases hd : d with
    | true => rw [hd] at h; simp at h
    | false =>
      rw [hd, if_neg Bool.false_ne_true] at h
      cases ho : o with
      | true => rw [ho] at h; simp at h
      | false =>
        rw [ho, if_neg Bool.false_ne_true] at h
        cases h
        subst hk
        refine ⟨rfl, rfl, l, v', r, rfl, hplugT, ?_⟩
        rw [← hplugT, inorder_plugCtx]
        simp [inorder]

theorem treeFindZ_found (k : α) :
    ∀ (t : BT α β) (ctx : List (Frame α β)),
      SortedT (plugCtx t ctx) → k ∈ keys t →
      (treeFindZ k t ctx).sub ≠ .nil := by
  intro t
  induction t with
  | nil => intro ctx _ hk; simp [keys, inorder] at hk
  | node l k' v r ihl ihr =>
    intro ctx hs hk
    obtain ⟨hboundL, hboundR⟩ := sortedT_node_bounds hs
    cases hcmp : cmp3 k k' with
    | eq => simp [treeFindZ, hcmp]
    | lt =>
      have hlt : k < k' := cmp3_lt_iff.mp hcmp
      have hkl : k ∈ keys l := by
        rw [keys_node] at hk
        rcases List.mem_append.mp hk with h1 | h2
        · exact h1
        · rcases List.mem_cons.mp h2 with rfl | h3
          · exact absurd hlt (lt_irrefl _)
          · exact absurd hlt (not_lt_of_ge (hboundR _ h3))
      have hs' : SortedT (plugCtx l (⟨.left, k', v, r⟩ :: ctx)) := by
        simpa [plugCtx, plug1] using hs
      simpa [treeFindZ, hcmp] using ihl _ hs' hkl
    | gt =>
      have hgt : k' < k := cmp3_gt_iff.mp hcmp
      have hkr : k ∈ keys r := by
        rw [keys_node] at hk
        rcases List.mem_append.mp hk with h1 | h2
        · exact absurd hgt (not_lt_of_ge (hboundL _ h1))
        · rcases List.mem_cons.mp h2 with rfl | h3
          · exact absurd hgt (lt_irrefl _)
          · exact h3
      have hs' : SortedT (plugCtx r (⟨.right, k', v, l⟩ :: ctx)) := by
        simpa [plugCtx, plug1] using hs
      simpa [treeFindZ, hcmp] using ihr _ hs' hkr

theorem insertZ_rejected_of {d o : Bool} (hd : d = false) (ho : o = false)
    (k : α) (v : β) (t : BT α β) (hs : SortedT t) (hk : k ∈ keys t) :
    ∃ loc, insertZ d o k v t = .rejected loc := by
  have hfound := treeFindZ_found k t [] (by simpa [plugCtx] using hs) hk
  simp only [insertZ]
  cases hf : (treeFindZ k t []).sub with
  | nil => exact absurd hf hfound
  | node l k' v' r =>
    subst hd; subst ho
    refine ⟨⟨.node l k' v' r, (treeFindZ k t []).ctx⟩, ?_⟩
    dsimp only []
    rw [if_neg Bool.false_ne_true, if_neg Bool.false_ne_true]

/-- Canonical shape of the in-order traversal around a plugged node. -/
theorem inorder_plug_node (ctx : List (Frame α β)) (l : BT α β) (k : α)
    (v : β) (r : BT α β) :
    inorder (plugCtx (.node l k v r) ctx) =
      (ctxL ctx ++ inorder l) ++ (k, v) :: (inorder r ++ ctxR ctx) := by
  rw [inorder_plugCtx]
  simp [inorder]

/-- Canonical shape of the in-order traversal after splaying a node. -/
theorem inorder_splay_node (ctx : List (Frame α β)) (l : BT α β) (k : α)
    (v : β) (r : BT α β) :
    inorder (splayZip (.node l k v r) ctx) =
      (ctxL ctx ++ inorder l) ++ (k, v) :: (inorder r ++ ctxR ctx) := by
  rw [splayZip_inorder_node]
  simp

variable [DecidableEq β]

/-- Expected effect of one Insert call on the set of stored nodes, judged
from the call's observable result (success flag and OldNode): a refused
insertion changes nothing, a plain success adds the new entry, an
overwrite success adds the new entry and hands the replaced entry back to
the caller. -/
def ledgerUpd (S : Multiset (α × β)) (k : α) (v : β) :
    Bool → Option (α × β) → Multiset (α × β)
  | false, _ => S
  | true, none => (k, v) ::ₘ S
  | true, some e => (k, v) ::ₘ S.erase e

theorem coe_middle {γ : Type} (A C : List γ) (x : γ) :
    ((A ++ x :: C : List γ) : Multiset γ) = x ::ₘ ((A ++ C : List γ) : Multiset γ) := by
  have h : (A ++ x :: C : List γ).Perm (x :: (A ++ C)) := List.perm_middle
  calc ((A ++ x :: C : List γ) : Multiset γ)
      = ((x :: (A ++ C) : List γ) : Multiset γ) := Multiset.coe_eq_coe.mpr h
    _ = x ::ₘ ((A ++ C : List γ) : Multiset γ) := (Multiset.cons_coe x _).symm

theorem btInsert_step (R : TRoot α β) (k : α) (v : β) (hs : SortedT R.root) :
    SortedT (ubi_btInsert R k v).2.2.root ∧
    ((inorder (ubi_btInsert R k v).2.2.root : Multiset (α × β)) =
      ledgerUpd (↑(inorder R.root)) k v (ubi_btInsert R k v).1 (ubi_btInsert R k v).2.1) ∧
    ((ubi_btInsert R k v).2.2.count =
      if (ubi_btInsert R k v).1 = true ∧ (ubi_btInsert R k v).2.1 = none
      then R.count + 1 else R.count) := by
  rcases hres : insertZ R.dups R.ovwt k v R.root with loc | ⟨loc, ok, ov⟩ | loc
  · obtain ⟨hsub, hplug, hsc⟩ := insertZ_fresh_spec hres
    have hscx := hsc hs
    have hold : inorder R.root = ctxL loc.ctx ++ ctxR loc.ctx := by
      rw [← hplug, inorder_plugCtx]; simp [inorder]
    have hs' : (List.map Prod.fst (ctxL loc.ctx ++ ctxR loc.ctx)).Pairwise (· ≤ ·) := by
      have h := hs; unfold SortedT keys at h; rw [hold] at h; exact h
    simp only [ubi_btInsert, hres]
    refine ⟨?_, ?_, ?_⟩
    · rw [hsub]
      unfold SortedT keys
      rw [inorder_plug_node]
      simp only [inorder, List.append_nil, List.nil_append]
      exact sorted_insert_mid v hs' hscx.1 hscx.2
    · rw [hsub, inorder_plug_node]
      simp only [ledgerUpd, hold]
      simp only [inorder, List.append_nil, List.nil_append]
      exact coe_middle _ _ _
    · simp
  · obtain ⟨hok, l, r, hsub, hplug⟩ := insertZ_replaced_spec hres
    subst hok
    have hold : inorder R.root =
        (ctxL loc.ctx ++ inorder l) ++ (ok, ov) :: (inorder r ++ ctxR loc.ctx) := by
      rw [← hplug, inorder_plug_node]
    simp only [ubi_btInsert, hres]
    refine ⟨?_, ?_, ?_⟩
    · rw [hsub]
      unfold SortedT keys
      rw [inorder_plug_node]
      have h := hs; unfold SortedT keys at h; rw [hold] at h
      simpa using h
    · rw [hsub, inorder_plug_node]
      simp only [ledgerUpd, hold]
      rw [coe_middle, coe_middle]
      rw [Multiset.erase_cons_head]
    · simp
  · obtain ⟨hd, ho, l, v', r, hsub, hplug, hmem⟩ := insertZ_rejected_spec hres
    simp only [ubi_btInsert, hres]
    refine ⟨?_, ?_, ?_⟩
    · rw [hplug]; exact hs
    · simp [ledgerUpd, hplug]
    · simp

theorem sptInsert_step (R : TRoot α β) (k : α) (v : β) (hs : SortedT R.root) :
    SortedT (ubi_sptInsert R k v).2.2.root ∧
    ((inorder (ubi_sptInsert R k v).2.2.root : Multiset (α × β)) =
      ledgerUpd (↑(inorder R.root)) k v (ubi_sptInsert R k v).1 (ubi_sptInsert R k v).2.1) ∧
    ((ubi_sptInsert R k v).2.2.count =
      if (ubi_sptInsert R k v).1 = true ∧ (ubi_sptInsert R k v).2.1 = none
      then R.count + 1 else R.count) := by
  rcases hres : insertZ R.dups R.ovwt k v R.root with loc | ⟨loc, ok, ov⟩ | loc
  · obtain ⟨hsub, hplug, hsc⟩ := insertZ_fresh_spec hres
    have hscx := hsc hs
    have hold : inorder R.root = ctxL loc.ctx ++ ctxR loc.ctx := by
      rw [← hplug, inorder_plugCtx]; simp [inorder]
    have hs' : (List.map Prod.fst (ctxL loc.ctx ++ ctxR loc.ctx)).Pairwise (· ≤ ·) := by
      have h := hs; unfold SortedT keys at h; rw [hold] at h; exact h
    simp only [ubi_sptInsert, hres]
    refine ⟨?_, ?_, ?_⟩
    · rw [hsub]
      unfold SortedT keys
      rw [inorder_splay_node]
      simp only [inorder, List.append_nil, List.nil_append]
      exact sorted_insert_mid v hs' hscx.1 hscx.2
    · rw [hsub, inorder_splay_node]
      simp only [ledgerUpd, hold]
      simp only [inorder, List.append_nil, List.nil_append]
      exact coe_middle _ _ _
    · simp
  · obtain ⟨hok, l, r, hsub, hplug⟩ := insertZ_replaced_spec hres
    subst hok
    have hold : inorder R.root =
        (ctxL loc.ctx ++ inorder l) ++ (ok, ov) :: (inorder r ++ ctxR loc.ctx) := by
      rw [← hplug, inorder_plug_node]
    simp only [ubi_sptInsert, hres]
    refine ⟨?_, ?_, ?_⟩
    · rw [hsub]
      unfold SortedT keys
      rw [inorder_splay_node]
      have h := hs; unfold SortedT keys at h; rw [hold] at h
      simpa using h
    · rw [hsub, inorder_splay_node]
      simp only [ledgerUpd, hold]
      rw [coe_middle, coe_middle]
      rw [Multiset.erase_cons_head]
    · simp
  · obtain ⟨hd, ho, l, v', r, hsub, hplug, hmem⟩ := insertZ_rejected_spec hres
    have hold : inorder R.root =
        (ctxL loc.ctx ++ inorder l) ++ (k, v') :: (inorder r ++ ctxR loc.ctx) := by
      rw [← hplug, hsub, inorder_plug_node]
    simp only [ubi_sptInsert, hres]
    refine ⟨?_, ?_, ?_⟩
    · rw [hsub]
      unfold SortedT keys
      rw [inorder_splay_node, ← hold]
      exact hs
    · rw [hsub, inorder_splay_node]
      simp only [ledgerUpd]
      rw [← hold]
    · simp

theorem btRemove_step (R : TRoot α β) (loc : Loc α β) (l : BT α β) (k : α)
    (v : β) (r : BT α β) (hsub : loc.sub = .node l k v r)
    (hplug : plugCtx loc.sub loc.ctx = R.root) (hs : SortedT R.root) :
    SortedT (ubi_btRemove R loc).root ∧
    ((inorder (ubi_btRemove R loc).root : Multiset (α × β)) =
      ((inorder R.root : Multiset (α × β))).erase (k, v)) ∧
    (ubi_btRemove R loc).count = R.count - 1 := by
  have hold : inorder R.root =
      (ctxL loc.ctx ++ inorder l) ++ (k, v) :: (inorder r ++ ctxR loc.ctx) := by
    rw [← hplug, hsub, inorder_plug_node]
  have hnew : inorder (ubi_btRemove R loc).root =
      (ctxL loc.ctx ++ inorder l) ++ (inorder r ++ ctxR loc.ctx) := by
    rw [btRemove_inorder R loc l k v r hsub]
    simp
  refine ⟨?_, ?_, rfl⟩
  · unfold SortedT keys
    rw [hnew]
    have h := hs; unfold SortedT keys at h; rw [hold] at h
    refine List.Pairwise.sublist ?_ h
    refine List.Sublist.map _ ?_
    exact List.Sublist.append (List.Sublist.refl _) (List.sublist_cons_self _ _)
  · rw [hnew, hold, coe_middle, Multiset.erase_cons_head]

theorem sptRemove_step (R : TRoot α β) (loc : Loc α β) (l : BT α β) (k : α)
    (v : β) (r : BT α β) (hsub : loc.sub = .node l k v r)
    (hplug : plugCtx loc.sub loc.ctx = R.root) (hs : SortedT R.root) :
    SortedT (ubi_sptRemove R loc).root ∧
    ((inorder (ubi_sptRemove R loc).root : Multiset (α × β)) =
      ((inorder R.root : Multiset (α × β))).erase (k, v)) ∧
    (ubi_sptRemove R loc).count = R.count - 1 := by
  have hold : inorder R.root =
      (ctxL loc.ctx ++ inorder l) ++ (k, v) :: (inorder r ++ ctxR loc.ctx) := by
    rw [← hplug, hsub, inorder_plug_node]
  have hnew : inorder (ubi_sptRemove R loc).root =
      (ctxL loc.ctx ++ inorder l) ++ (inorder r ++ ctxR loc.ctx) := by
    rw [sptRemove_inorder R loc l k v r hsub]
    simp
  refine ⟨?_, ?_, ?_⟩
  · unfold SortedT keys
    rw [hnew]
    have h := hs; unfold SortedT keys at h; rw [hold] at h
    refine List.Pairwise.sublist ?_ h
    refine List.Sublist.map _ ?_
    exact List.Sublist.append (List.Sublist.refl _) (List.sublist_cons_self _ _)
  · rw [hnew, hold, coe_middle, Multiset.erase_cons_head]
  · rcases hsp : splayZip loc.sub loc.ctx with _ | ⟨L, kk, vv, Rt⟩
    · simp [ubi_sptRemove, hsp]
    · cases L with
      | nil => simp [ubi_sptRemove, hsp]
      | node a x w b =>
        rcases hss : (subSlideZ .right (.node a x w b) []).sub with _ | ⟨a2, y, w2, rr⟩
        · simp [ubi_sptRemove, hsp, hss]
        · cases rr <;> simp [ubi_sptRemove, hsp, hss]

theorem ledgerUpd_card (S : Multiset (α × β)) (k : α) (v : β) (ok : Bool)
    (old : Option (α × β)) (hmem : ∀ e, old = some e → e ∈ S) :
    (ledgerUpd S k v ok old).card =
      if ok = true ∧ old = none then S.card + 1 else S.card := by
  cases ok with
  | false => simp [ledgerUpd]
  | true =>
    cases old with
    | none => simp [ledgerUpd]
    | some e =>
      have he : e ∈ S := hmem e rfl
      have hpos : 0 < Multiset.card S := Multiset.card_pos_iff_exists_mem.mpr ⟨e, he⟩
      have hcond : ¬((true = true) ∧ (some e : Option (α × β)) = none) := by simp
      rw [if_neg hcond]
      simp only [ledgerUpd, Multiset.card_cons, Multiset.card_erase_of_mem he,
        Nat.pred_eq_sub_one]
      omega

theorem btInsert_old_mem (R : TRoot α β) (k : α) (v : β) :
    ∀ e, (ubi_btInsert R k v).2.1 = some e →
      e ∈ (inorder R.root : Multiset (α × β)) := by
  intro e he
  rcases hres : insertZ R.dups R.ovwt k v R.root with loc | ⟨loc, ok, ov⟩ | loc
  · simp [ubi_btInsert, hres] at he
  · obtain ⟨hok, l, r, hsub, hplug⟩ := insertZ_replaced_spec hres
    subst hok
    simp only [ubi_btInsert, hres] at he
    have he' : (ok, ov) = e := by simpa using he
    subst he'
    rw [Multiset.mem_coe, ← hplug, inorder_plug_node]
    simp
  · obtain ⟨hd, ho, l, v', r, hsub, hplug, hmem2⟩ := insertZ_rejected_spec hres
    simp only [ubi_btInsert, hres, hsub] at he
    have he' : (k, v') = e := by simpa [rootEntry] using he
    subst he'
    rw [Multiset.mem_coe]
    exact hmem2

theorem sptInsert_old_mem (R : TRoot α β) (k : α) (v : β) :
    ∀ e, (ubi_sptInsert R k v).2.1 = some e →
      e ∈ (inorder R.root : Multiset (α × β)) := by
  intro e he
  rcases hres : insertZ R.dups R.ovwt k v R.root with loc | ⟨loc, ok, ov⟩ | loc
  · simp [ubi_sptInsert, hres] at he
  · obtain ⟨hok, l, r, hsub, hplug⟩ := insertZ_replaced_spec hres
    subst hok
    simp only [ubi_sptInsert, hres] at he
    have he' : (ok, ov) = e := by simpa using he
    subst he'
    rw [Multiset.mem_coe, ← hplug, inorder_plug_node]
    simp
  · obtain ⟨hd, ho, l, v', r, hsub, hplug, hmem2⟩ := insertZ_rejected_spec hres
    simp only [ubi_sptInsert, hres, hsub] at he
    have he' : (k, v') = e := by simpa [rootEntry] using he
    subst he'
    rw [Multiset.mem_coe]
    exact hmem2

/-- Reachable (tree, ledger) pairs: every sequence of InitTree, Insert and
Remove calls, through either the BaseTree or the SplayTree entry points,
where each Remove is handed a node actually in the tree (the caller
contract).  The ledger records the entries handed to the structure and not
yet handed back: Insert adds the new entry and, in overwrite mode, takes
the replaced entry out; Remove takes the removed node's entry out. -/
inductive TreeReach (d o : Bool) : TRoot α β → Multiset (α × β) → Prop where
  | init : TreeReach d o (ubi_btInitTree d o) 0
  | btIns (R : TRoot α β) (S : Multiset (α × β)) (k : α) (v : β) :
      TreeReach d o R S →
      TreeReach d o (ubi_btInsert R k v).2.2
        (ledgerUpd S k v (ubi_btInsert R k v).1 (ubi_btInsert R k v).2.1)
  | sptIns (R : TRoot α β) (S : Multiset (α × β)) (k : α) (v : β) :
      TreeReach d o R S →
      TreeReach d o (ubi_sptInsert R k v).2.2
        (ledgerUpd S k v (ubi_sptInsert R k v).1 (ubi_sptInsert R k v).2.1)
  | btRem (R : TRoot α β) (S : Multiset (α × β)) (loc : Loc α β)
      (l : BT α β) (k : α) (v : β) (r : BT α β) :
      TreeReach d o R S → loc.sub = .node l k v r →
      plugCtx loc.sub loc.ctx = R.root →
      TreeReach d o (ubi_btRemove R loc) (S.erase (k, v))
  | sptRem (R : TRoot α β) (S : Multiset (α × β)) (loc : Loc α β)
      (l : BT α β) (k : α) (v : β) (r : BT α β) :
      TreeReach d o R S → loc.sub = .node l k v r →
      plugCtx loc.sub loc.ctx = R.root →
      TreeReach d o (ubi_sptRemove R loc) (S.erase (k, v))

/-- Claim C1: for every tree (BaseTree or SplayTree variant) and every
sequence of InitTree, Insert and Remove operations respecting the caller
contract (removed nodes are members, the comparator is a fixed total
order), the in-order traversal of the resulting tree visits exactly those
nodes that were inserted and not removed (respectively handed back by an
overwrite), in non-decreasing key order per the tree's compare function,
and root.count equals the number of those nodes. -/
theorem claim_C1 {d o : Bool} {R : TRoot α β} {S : Multiset (α × β)}
    (h : TreeReach d o R S) :
    SortedT R.root ∧ (inorder R.root : Multiset (α × β)) = S ∧
      R.count = S.card := by
  induction h with
  | init =>
    refine ⟨?_, rfl, rfl⟩
    simp [ubi_btInitTree, SortedT, keys, inorder]
  | btIns R S k v hR ih =>
    obtain ⟨ihs, ihms, ihc⟩ := ih
    obtain ⟨hs1, hms1, hc1⟩ := btInsert_step R k v ihs
    have hmem : ∀ e, (ubi_btInsert R k v).2.1 = some e → e ∈ S := by
      intro e he
      rw [← ihms]
      exact btInsert_old_mem R k v e he
    refine ⟨hs1, ?_, ?_⟩
    · rw [hms1, ihms]
    · rw [hc1, ledgerUpd_card S k v _ _ hmem, ihc]
  | sptIns R S k v hR ih =>
    obtain ⟨ihs, ihms, ihc⟩ := ih
    obtain ⟨hs1, hms1, hc1⟩ := sptInsert_step R k v ihs
    have hmem : ∀ e, (ubi_sptInsert R k v).2.1 = some e → e ∈ S := by
      intro e he
      rw [← ihms]
      exact sptInsert_old_mem R k v e he
    refine ⟨hs1, ?_, ?_⟩
    · rw [hms1, ihms]
    · rw [hc1, ledgerUpd_card S k v _ _ hmem, ihc]
  | btRem R S loc l k v r hR hsub hplug ih =>
    obtain ⟨ihs, ihms, ihc⟩ := ih
    obtain ⟨hs1, hms1, hc1⟩ := btRemove_step R loc l k v r hsub hplug ihs
    have hmem : (k, v) ∈ S := by
      rw [← ihms, Multiset.mem_coe, ← hplug, hsub, inorder_plug_node]
      simp
    refine ⟨hs1, ?_, ?_⟩
    · rw [hms1, ihms]
    · rw [hc1, ihc, Multiset.card_erase_of_mem hmem, Nat.pred_eq_sub_one]
  | sptRem R S loc l k v r hR hsub hplug ih =>
    obtain ⟨ihs, ihms, ihc⟩ := ih
    obtain ⟨hs1, hms1, hc1⟩ := sptRemove_step R loc l k v r hsub hplug ihs
    have hmem : (k, v) ∈ S := by
      rw [← ihms, Multiset.mem_coe, ← hplug, hsub, inorder_plug_node]
      simp
    refine ⟨hs1, ?_, ?_⟩
    · rw [hms1, ihms]
    · rw [hc1, ihc, Multiset.card_erase_of_mem hmem, Nat.pred_eq_sub_one]

/-- Witness for C1 at a concrete input: the empty tree followed by one
Insert of key 0. -/
theorem claim_C1_witness :
    SortedT (ubi_btInsert (ubi_btInitTree false false : TRoot Int Nat) 0 0).2.2.root ∧
    (inorder (ubi_btInsert (ubi_btInitTree false false : TRoot Int Nat) 0 0).2.2.root :
        Multiset (Int × Nat)) =
      ledgerUpd 0 0 0 (ubi_btInsert (ubi_btInitTree false false : TRoot Int Nat) 0 0).1
        (ubi_btInsert (ubi_btInitTree false false : TRoot Int Nat) 0 0).2.1 ∧
    (ubi_btInsert (ubi_btInitTree false false : TRoot Int Nat) 0 0).2.2.count =
      (ledgerUpd 0 0 0 (ubi_btInsert (ubi_btInitTree false false : TRoot Int Nat) 0 0).1
        (ubi_btInsert (ubi_btInitTree false false : TRoot Int Nat) 0 0).2.1).card :=
  claim_C1 (TreeReach.btIns _ _ _ _ TreeReach.init)

theorem plug1_ne_nil (f : Frame α β) (t : BT α β) : plug1 f t ≠ .nil := by
  cases hd : f.d <;> simp [plug1, hd]

theorem climbZ_sub (d : Dir) :
    ∀ (ctx : List (Frame α β)) (t : BT α β) (loc : Loc α β),
      climbZ d t ctx = some loc → loc.sub ≠ .nil := by
  intro ctx
  induction ctx with
  | nil => intro t loc h; simp [climbZ] at h
  | cons f rest ih =>
    intro t loc h
    rw [climbZ] at h
    by_cases hd : f.d = d
    · rw [if_pos hd] at h
      exact ih _ _ h
    · rw [if_neg hd] at h
      cases h
      exact plug1_ne_nil f t

theorem climbZ_plug (d : Dir) :
    ∀ (ctx : List (Frame α β)) (t : BT α β) (loc : Loc α β),
      climbZ d t ctx = some loc →
      plugCtx loc.sub loc.ctx = plugCtx t ctx := by
  intro ctx
  induction ctx with
  | nil => intro t loc h; simp [climbZ] at h
  | cons f rest ih =>
    intro t loc h
    rw [climbZ] at h
    by_cases hd : f.d = d
    · rw [if_pos hd] at h
      exact ih _ _ h
    · rw [if_neg hd] at h
      cases h
      rfl

theorem subSlideZ_sub_ne_nil (d : Dir) (t : BT α β) (ctx : List (Frame α β))
    (h : t ≠ .nil) : (subSlideZ d t ctx).sub ≠ .nil := by
  cases d
  · obtain ⟨y, w, b, hh⟩ := subSlideZ_left_sub t ctx h
    simp [hh]
  · obtain ⟨a, y, w, hh⟩ := subSlideZ_right_sub t ctx h
    simp [hh]

theorem neighborZ_sub (d : Dir) (loc : Loc α β) (loc' : Loc α β)
    (h : neighborZ d loc = some loc') : loc'.sub ≠ .nil := by
  unfold neighborZ at h
  cases hs : loc.sub with
  | nil => rw [hs] at h; simp at h
  | node l k v r =>
    rw [hs] at h
    cases d with
    | left =>
      cases l with
      | nil => exact climbZ_sub .left _ _ _ h
      | node a x w b =>
        cases h
        exact subSlideZ_sub_ne_nil .right _ _ (by simp)
    | right =>
      cases r with
      | nil => exact climbZ_sub .right _ _ _ h
      | node a x w b =>
        cases h
        exact subSlideZ_sub_ne_nil .left _ _ (by simp)

theorem neighborZ_plug (d : Dir) (loc : Loc α β) (loc' : Loc α β)
    (h : neighborZ d loc = some loc') :
    plugCtx loc'.sub loc'.ctx = plugCtx loc.sub loc.ctx := by
  unfold neighborZ at h
  cases hs : loc.sub with
  | nil => rw [hs] at h; simp at h
  | node l k v r =>
    rw [hs] at h
    cases d with
    | left =>
      cases l with
      | nil =>
        have := climbZ_plug .left _ _ _ h
        simpa [plugCtx, plug1] using this
      | node a x w b =>
        cases h
        have := subSlideZ_plug .right (.node a x w b) (⟨.left, k, v, r⟩ :: loc.ctx)
        simpa [plugCtx, plug1] using this
    | right =>
      cases r with
      | nil =>
        have := climbZ_plug .right _ _ _ h
        simpa [plugCtx, plug1] using this
      | node a x w b =>
        cases h
        have := subSlideZ_plug .left (.node a x w b) (⟨.right, k, v, l⟩ :: loc.ctx)
        simpa [plugCtx, plug1] using this

theorem borderUp_sub (k : α) :
    ∀ (ctx : List (Frame α β)) (t : BT α β), t ≠ .nil →
      (borderUp k t ctx).sub ≠ .nil := by
  intro ctx
  induction ctx with
  | nil => intro t h; exact h
  | cons f rest ih =>
    intro t h
    rw [borderUp]
    by_cases hc : cmp3 k f.key = .eq
    · rw [if_pos hc]
      exact ih _ (plug1_ne_nil f t)
    · rw [if_neg hc]
      exact h

theorem borderUp_plug (k : α) :
    ∀ (ctx : List (Frame α β)) (t : BT α β),
      plugCtx (borderUp k t ctx).sub (borderUp k t ctx).ctx = plugCtx t ctx := by
  intro ctx
  induction ctx with
  | nil => intro t; rfl
  | cons f rest ih =>
    intro t
    rw [borderUp]
    by_cases hc : cmp3 k f.key = .eq
    · rw [if_pos hc]
      exact ih _
    · rw [if_neg hc]

theorem borderDown_sub (k : α) (d : Dir) :
    ∀ (n : Nat) (loc : Loc α β), loc.sub.size ≤ n → loc.sub ≠ .nil →
      (borderDown k d loc).sub ≠ .nil := by
  intro n
  induction n with
  | zero =>
    intro loc hle hnn
    obtain ⟨sub, ctx⟩ := loc
    cases sub with
    | nil => exact absurd rfl hnn
    | node l k' v r => simp [BT.size] at hle
  | succ n ih =>
    intro loc hle hnn
    obtain ⟨sub, ctx⟩ := loc
    cases sub with
    | nil => exact absurd rfl hnn
    | node l k' v r =>
      rw [borderDown.eq_def]
      dsimp only []
      cases d with
      | left =>
        cases hq : qFindZ k l (⟨.left, k', v, r⟩ :: ctx) with
        | none => simp
        | some ploc =>
          refine ih ploc ?_ ?_
          · have h1 := qFindZ_size_le l (⟨.left, k', v, r⟩ :: ctx) ploc hq
            simp [BT.size] at hle
            omega
          · obtain ⟨l2, v2, r2, hh⟩ := qFindZ_sub k l _ ploc hq
            simp [hh]
      | right =>
        cases hq : qFindZ k r (⟨.right, k', v, l⟩ :: ctx) with
        | none => simp
        | some ploc =>
          refine ih ploc ?_ ?_
          · have h1 := qFindZ_size_le r (⟨.right, k', v, l⟩ :: ctx) ploc hq
            simp [BT.size] at hle
            omega
          · obtain ⟨l2, v2, r2, hh⟩ := qFindZ_sub k r _ ploc hq
            simp [hh]

theorem borderDown_plug (k : α) (d : Dir) :
    ∀ (n : Nat) (loc : Loc α β), loc.sub.size ≤ n →
      plugCtx (borderDown k d loc).sub (borderDown k d loc).ctx =
        plugCtx loc.sub loc.ctx := by
  intro n
  induction n with
  | zero =>
    intro loc hle
    obtain ⟨sub, ctx⟩ := loc
    cases sub with
    | nil => rw [borderDown.eq_def]
    | node l k' v r => simp [BT.size] at hle
  | succ n ih =>
    intro loc hle
    obtain ⟨sub, ctx⟩ := loc
    cases sub with
    | nil => rw [borderDown.eq_def]
    | node l k' v r =>
      rw [borderDown.eq_def]
      dsimp only []
      cases d with
      | left =>
        cases hq : qFindZ k l (⟨.left, k', v, r⟩ :: ctx) with
        | none => simp
        | some ploc =>
          have hplug := qFindZ_plug k l (⟨.left, k', v, r⟩ :: ctx) ploc hq
          have h1 := qFindZ_size_le l (⟨.left, k', v, r⟩ :: ctx) ploc hq
          have hrec := ih ploc (by simp [BT.size] at hle; omega)
          dsimp only []
          rw [hrec, hplug]
          simp [plugCtx, plug1]
      | right =>
        cases hq : qFindZ k r (⟨.right, k', v, l⟩ :: ctx) with
        | none => simp
        | some ploc =>
          have hplug := qFindZ_plug k r (⟨.right, k', v, l⟩ :: ctx) ploc hq
          have h1 := qFindZ_size_le r (⟨.right, k', v, l⟩ :: ctx) ploc hq
          have hrec := ih ploc (by simp [BT.size] at hle; omega)
          dsimp only []
          rw [hrec, hplug]
          simp [plugCtx, plug1]

theorem borderZ_sub (dupsOK : Bool) (k : α) (d : Dir) (loc : Loc α β)
    (h : loc.sub ≠ .nil) : (borderZ dupsOK k d loc).sub ≠ .nil := by
  unfold borderZ
  by_cases hd : dupsOK
  · rw [if_pos hd]
    exact borderDown_sub k d _ _ le_rfl (borderUp_sub k loc.ctx loc.sub h)
  · rw [if_neg hd]
    exact h

theorem borderZ_plug (dupsOK : Bool) (k : α) (d : Dir) (loc : Loc α β) :
    plugCtx (borderZ dupsOK k d loc).sub (borderZ dupsOK k d loc).ctx =
      plugCtx loc.sub loc.ctx := by
  unfold borderZ
  by_cases hd : dupsOK
  · rw [if_pos hd]
    rw [borderDown_plug k d _ _ le_rfl, borderUp_plug]
  · rw [if_neg hd]

instance decSortedT (t : BT α β) : Decidable (SortedT t) :=
  inferInstanceAs (Decidable ((keys t).Pairwise (· ≤ ·)))

theorem btLocateZ_sub (dupsOK : Bool) (k : α) (op : CompOp) (t : BT α β)
    (loc' : Loc α β) (h : ubi_btLocateZ dupsOK k op t = some loc') :
    loc'.sub ≠ .nil := by
  simp only [ubi_btLocateZ] at h
  cases hf : (treeFindZ k t []).sub with
  | node l k' v' r =>
    rw [hf] at h
    dsimp only [] at h
    cases op with
    | LT => exact neighborZ_sub .left _ _ h
    | GT => exact neighborZ_sub .right _ _ h
    | LE => cases h; exact borderZ_sub _ _ _ _ (by simp)
    | EQ => cases h; exact borderZ_sub _ _ _ _ (by simp)
    | GE => cases h; exact borderZ_sub _ _ _ _ (by simp)
  | nil =>
    rw [hf] at h
    dsimp only [] at h
    cases op with
    | EQ => simp at h
    | LT =>
      cases hctx : (treeFindZ k t []).ctx with
      | nil => rw [hctx] at h; simp at h
      | cons f rest =>
        rw [hctx] at h
        dsimp only [] at h
        by_cases hfd : f.d = .left
        · rw [if_pos hfd] at h
          exact neighborZ_sub .left _ _ h
        · rw [if_neg hfd] at h
          cases h
          exact plug1_ne_nil f .nil
    | LE =>
      cases hctx : (treeFindZ k t []).ctx with
      | nil => rw [hctx] at h; simp at h
      | cons f rest =>
        rw [hctx] at h
        dsimp only [] at h
        by_cases hfd : f.d = .left
        · rw [if_pos hfd] at h
          exact neighborZ_sub .left _ _ h
        · rw [if_neg hfd] at h
          cases h
          exact plug1_ne_nil f .nil
    | GE =>
      cases hctx : (treeFindZ k t []).ctx with
      | nil => rw [hctx] at h; simp at h
      | cons f rest =>
        rw [hctx] at h
        dsimp only [] at h
        by_cases hfd : f.d = .right
        · rw [if_pos hfd] at h
          exact neighborZ_sub .right _ _ h
        · rw [if_neg hfd] at h
          cases h
          exact plug1_ne_nil f .nil
    | GT =>
      cases hctx : (treeFindZ k t []).ctx with
      | nil => rw [hctx] at h; simp at h
      | cons f rest =>
        rw [hctx] at h
        dsimp only [] at h
        by_cases hfd : f.d = .right
        · rw [if_pos hfd] at h
          exact neighborZ_sub .right _ _ h
        · rw [if_neg hfd] at h
          cases h
          exact plug1_ne_nil f .nil

theorem rootEntry_splay (loc : Loc α β) (l : BT α β) (k : α) (v : β)
    (r : BT α β) (hs : loc.sub = .node l k v r) :
    rootEntry (splayZip loc.sub loc.ctx) = some (k, v) := by
  obtain ⟨l2, r2, heq, _, _⟩ := splayParts loc.ctx l k v r
  rw [hs, heq]
  rfl

/-- Claim C2: for every splay tree, whenever ubi_sptFind, ubi_sptLocate or
ubi_sptInsert succeeds (Find/Locate return a non-empty node, or Insert
returns success after adding NewNode), the returned (or newly inserted)
node is the tree's root immediately after the call. -/
theorem claim_C2 (R : TRoot α β) (k : α) (v : β) (op : CompOp) :
    ((ubi_sptFind R k).1.isSome = true →
      rootEntry (ubi_sptFind R k).2.root = (ubi_sptFind R k).1) ∧
    ((ubi_sptLocate R k op).1.isSome = true →
      rootEntry (ubi_sptLocate R k op).2.root = (ubi_sptLocate R k op).1) ∧
    ((ubi_sptInsert R k v).1 = true →
      rootEntry (ubi_sptInsert R k v).2.2.root = some (k, v)) := by
  refine ⟨?_, ?_, ?_⟩
  · intro hsome
    simp only [ubi_sptFind] at hsome ⊢
    cases hq : qFindZ k R.root [] with
    | none => rw [hq] at hsome; simp at hsome
    | some loc =>
      obtain ⟨l, v', r, hsub⟩ := qFindZ_sub k R.root [] loc hq
      dsimp only []
      rw [rootEntry_splay loc l k v' r hsub]
      simp [locEntry, hsub, rootEntry]
  · intro hsome
    simp only [ubi_sptLocate] at hsome ⊢
    cases hq : ubi_btLocateZ R.dups k op R.root with
    | none => rw [hq] at hsome; simp at hsome
    | some loc =>
      have hnn := btLocateZ_sub R.dups k op R.root loc hq
      cases hsub : loc.sub with
      | nil => exact absurd hsub hnn
      | node l k0 v0 r =>
        dsimp only []
        rw [rootEntry_splay loc l k0 v0 r hsub]
        simp [locEntry, hsub, rootEntry]
  · intro hok
    rcases hres : insertZ R.dups R.ovwt k v R.root with loc | ⟨loc, ok, ov⟩ | loc
    · obtain ⟨hsub, _, _⟩ := insertZ_fresh_spec hres
      simp only [ubi_sptInsert, hres]
      exact rootEntry_splay loc .nil k v .nil hsub
    · obtain ⟨hok2, l, r, hsub, _⟩ := insertZ_replaced_spec hres
      simp only [ubi_sptInsert, hres]
      exact rootEntry_splay loc l k v r hsub
    · simp only [ubi_sptInsert, hres] at hok
      simp at hok

/-- Witness for C2: a successful Find on a singleton tree and a successful
Insert into it. -/
theorem claim_C2_witness :
    rootEntry (ubi_sptFind (⟨.node .nil 0 0 .nil, 1, false, false⟩ : TRoot Int Nat) 0).2.root =
      (ubi_sptFind (⟨.node .nil 0 0 .nil, 1, false, false⟩ : TRoot Int Nat) 0).1 ∧
    rootEntry (ubi_sptInsert (⟨.node .nil 0 0 .nil, 1, false, false⟩ : TRoot Int Nat) 1 7).2.2.root =
      some (1, 7) :=
  ⟨(claim_C2 (⟨.node .nil 0 0 .nil, 1, false, false⟩ : TRoot Int Nat) 0 0 .EQ).1 (by decide),
   (claim_C2 (⟨.node .nil 0 0 .nil, 1, false, false⟩ : TRoot Int Nat) 1 7 .EQ).2.2 (by decide)⟩

/-- Claim C6: if ubi_btInsert is called on a tree whose flags allow neither
duplicates nor overwriting, and the tree already contains a node whose key
compares equal to the new key, then Insert returns failure, stores that
conflicting node in OldNode, and leaves the tree completely unchanged:
same root, same count, same flags, and hence the links, gender and balance
of every member node are unaltered. -/
theorem claim_C6 (R : TRoot α β) (k : α) (v : β)
    (hd : R.dups = false) (ho : R.ovwt = false) (hs : SortedT R.root)
    (hk : k ∈ keys R.root) :
    (ubi_btInsert R k v).1 = false ∧
    (∃ v', (ubi_btInsert R k v).2.1 = some (k, v') ∧ (k, v') ∈ inorder R.root) ∧
    (ubi_btInsert R k v).2.2 = R := by
  obtain ⟨loc, hres⟩ := insertZ_rejected_of hd ho k v R.root hs hk
  obtain ⟨_, _, l, v', r, hsub, hplug, hmem⟩ := insertZ_rejected_spec hres
  refine ⟨?_, ⟨v', ?_, hmem⟩, ?_⟩
  · simp [ubi_btInsert, hres]
  · simp [ubi_btInsert, hres, hsub, rootEntry]
  · simp only [ubi_btInsert, hres]
    rw [hplug]

/-- Witness for C6: a duplicate-rejecting insert into a singleton tree. -/
theorem claim_C6_witness :
    (ubi_btInsert (⟨.node .nil 0 5 .nil, 1, false, false⟩ : TRoot Int Nat) 0 9).1 = false ∧
    (∃ v', (ubi_btInsert (⟨.node .nil 0 5 .nil, 1, false, false⟩ : TRoot Int Nat) 0 9).2.1 =
        some (0, v') ∧
      (0, v') ∈ inorder (BT.node .nil 0 5 .nil : BT Int Nat)) ∧
    (ubi_btInsert (⟨.node .nil 0 5 .nil, 1, false, false⟩ : TRoot Int Nat) 0 9).2.2 =
      (⟨.node .nil 0 5 .nil, 1, false, false⟩ : TRoot Int Nat) :=
  claim_C6 (⟨.node .nil 0 5 .nil, 1, false, false⟩ : TRoot Int Nat) 0 9 rfl rfl
    (by decide) (by decide)

/-- Claim C10: when ubi_sptInsert rejects an insertion (duplicates and
overwrite both disallowed and a matching key present), it returns failure
and reports the conflicting in-tree node via OldNode, yet it still splays
that conflicting node to the root: after the failed call the tree holds
exactly the same nodes, in the same in-order order and with the same
count, but the tree's root is now the conflicting node. -/
theorem claim_C10 (R : TRoot α β) (k : α) (v : β)
    (hd : R.dups = false) (ho : R.ovwt = false) (hs : SortedT R.root)
    (hk : k ∈ keys R.root) :
    (ubi_sptInsert R k v).1 = false ∧
    (∃ v', (ubi_sptInsert R k v).2.1 = some (k, v') ∧
      rootEntry (ubi_sptInsert R k v).2.2.root = some (k, v')) ∧
    inorder (ubi_sptInsert R k v).2.2.root = inorder R.root ∧
    (ubi_sptInsert R k v).2.2.count = R.count := by
  obtain ⟨loc, hres⟩ := insertZ_rejected_of hd ho k v R.root hs hk
  obtain ⟨_, _, l, v', r, hsub, hplug, hmem⟩ := insertZ_rejected_spec hres
  refine ⟨?_, ⟨v', ?_, ?_⟩, ?_, ?_⟩
  · simp [ubi_sptInsert, hres]
  · simp [ubi_sptInsert, hres, hsub, rootEntry]
  · simp only [ubi_sptInsert, hres]
    exact rootEntry_splay loc l k v' r hsub
  · simp only [ubi_sptInsert, hres]
    rw [hsub, inorder_splay_node, ← hplug, hsub, inorder_plug_node]
  · simp [ubi_sptInsert, hres]

/-- Witness for C10: a rejected insert into a two-node splay tree whose
conflicting node is not the root before the call, and is the root after. -/
theorem claim_C10_witness :
    (ubi_sptInsert (⟨.node (.node .nil 0 5 .nil) 1 6 .nil, 2, false, false⟩ : TRoot Int Nat) 0 9).1 = false ∧
    (∃ v', (ubi_sptInsert (⟨.node (.node .nil 0 5 .nil) 1 6 .nil, 2, false, false⟩ : TRoot Int Nat) 0 9).2.1 =
        some (0, v') ∧
      rootEntry (ubi_sptInsert (⟨.node (.node .nil 0 5 .nil) 1 6 .nil, 2, false, false⟩ : TRoot Int Nat) 0 9).2.2.root =
        some (0, v')) ∧
    inorder (ubi_sptInsert (⟨.node (.node .nil 0 5 .nil) 1 6 .nil, 2, false, false⟩ : TRoot Int Nat) 0 9).2.2.root =
      inorder (BT.node (.node .nil 0 5 .nil) 1 6 .nil : BT Int Nat) ∧
    (ubi_sptInsert (⟨.node (.node .nil 0 5 .nil) 1 6 .nil, 2, false, false⟩ : TRoot Int Nat) 0 9).2.2.count = 2 :=
  claim_C10 (⟨.node (.node .nil 0 5 .nil) 1 6 .nil, 2, false, false⟩ : TRoot Int Nat) 0 9
    rfl rfl (by decide) (by decide)

/-- Claim C4 (code bug in `ubi_btLastOf`): on a duplicate-keys tree holding
the single node (3, 0), which matches the search key 3, `ubi_btFirstOf`
returns that node but `ubi_btLastOf` returns NULL, because its guard tests
`NULL != p` where `ubi_btFirstOf` tests `NULL == p`.  This contradicts the
function's own documentation ("NULL (error) is returned only if the key
indicated by MatchMe does not match the key included in p"); the corrected
guard (`ubi_btLastOfDocumented`) returns the node. -/
theorem claim_C4 :
    cmp3 (3 : Nat) 3 = .eq ∧
    ubi_btFirstOf (⟨.node .nil 3 0 .nil, 1, true, false⟩ : TRoot Nat Nat) 3
        ⟨.node .nil 3 0 .nil, []⟩ = some ⟨.node .nil 3 0 .nil, []⟩ ∧
    ubi_btLastOf (⟨.node .nil 3 0 .nil, 1, true, false⟩ : TRoot Nat Nat) 3
        ⟨.node .nil 3 0 .nil, []⟩ = none ∧
    ubi_btLastOfDocumented (⟨.node .nil 3 0 .nil, 1, true, false⟩ : TRoot Nat Nat) 3
        ⟨.node .nil 3 0 .nil, []⟩ = some ⟨.node .nil 3 0 .nil, []⟩ := by
  have hbdl : borderDown (3 : Nat) .left
      (⟨.node .nil 3 0 .nil, []⟩ : Loc Nat Nat) = ⟨.node .nil 3 0 .nil, []⟩ := by
    rw [borderDown.eq_def]
    rfl
  have hbdr : borderDown (3 : Nat) .right
      (⟨.node .nil 3 0 .nil, []⟩ : Loc Nat Nat) = ⟨.node .nil 3 0 .nil, []⟩ := by
    rw [borderDown.eq_def]
    rfl
  refine ⟨by decide, ?_, rfl, ?_⟩
  · simp [ubi_btFirstOf, borderZ, borderUp, hbdl, cmp3]
  · simp [ubi_btLastOfDocumented, borderZ, borderUp, hbdr, cmp3]

theorem qFindZ_found (k : α) :
    ∀ (t : BT α β) (ctx : List (Frame α β)),
      SortedT (plugCtx t ctx) → k ∈ keys t →
      qFindZ k t ctx ≠ none := by
  intro t
  induction t with
  | nil => intro ctx _ hk; simp [keys, inorder] at hk
  | node l k' v r ihl ihr =>
    intro ctx hs hk
    obtain ⟨hboundL, hboundR⟩ := sortedT_node_bounds hs
    cases hcmp : cmp3 k k' with
    | eq => simp [qFindZ, hcmp]
    | lt =>
      have hlt : k < k' := cmp3_lt_iff.mp hcmp
      have hkl : k ∈ keys l := by
        rw [keys_node] at hk
        rcases List.mem_append.mp hk with h1 | h2
        · exact h1
        · rcases List.mem_cons.mp h2 with rfl | h3
          · exact absurd hlt (lt_irrefl _)
          · exact absurd hlt (not_lt_of_ge (hboundR _ h3))
      have hs' : SortedT (plugCtx l (⟨.left, k', v, r⟩ :: ctx)) := by
        simpa [plugCtx, plug1] using hs
      simpa [qFindZ, hcmp] using ihl _ hs' hkl
    | gt =>
      have hgt : k' < k := cmp3_gt_iff.mp hcmp
      have hkr : k ∈ keys r := by
        rw [keys_node] at hk
        rcases List.mem_append.mp hk with h1 | h2
        · exact absurd hgt (not_lt_of_ge (hboundL _ h1))
        · rcases List.mem_cons.mp h2 with rfl | h3
          · exact absurd hgt (lt_irrefl _)
          · exact h3
      have hs' : SortedT (plugCtx r (⟨.right, k', v, l⟩ :: ctx)) := by
        simpa [plugCtx, plug1] using hs
      simpa [qFindZ, hcmp] using ihr _ hs' hkr

theorem treeFindZ_strict (k : α) :
    ∀ (t : BT α β) (ctx : List (Frame α β)),
      SortedT (plugCtx t ctx) →
      (∀ e ∈ ctxL ctx, e.1 < k) → (∀ e ∈ ctxR ctx, k < e.1) →
      (∀ e ∈ ctxL (treeFindZ k t ctx).ctx, e.1 < k) ∧
      (∀ e ∈ ctxR (treeFindZ k t ctx).ctx, k < e.1) := by
  intro t
  induction t with
  | nil => intro ctx _ hL hR; exact ⟨hL, hR⟩
  | node l k' v r ihl ihr =>
    intro ctx hs hL hR
    obtain ⟨hboundL, hboundR⟩ := sortedT_node_bounds hs
    cases hcmp : cmp3 k k' with
    | eq =>
      have heq : treeFindZ k (.node l k' v r) ctx = ⟨.node l k' v r, ctx⟩ := by
        simp [treeFindZ, hcmp]
      rw [heq]
      exact ⟨hL, hR⟩
    | lt =>
      have hk : k < k' := cmp3_lt_iff.mp hcmp
      have hs' : SortedT (plugCtx l (⟨.left, k', v, r⟩ :: ctx)) := by
        simpa [plugCtx, plug1] using hs
      have hL' : ∀ e ∈ ctxL (⟨.left, k', v, r⟩ :: ctx), e.1 < k := by
        intro e he
        have he' : e ∈ ctxL ctx := by simpa [ctxL, lpart] using he
        exact hL e he'
      have hR' : ∀ e ∈ ctxR (⟨.left, k', v, r⟩ :: ctx), k < e.1 := by
        intro e he
        have he' : e ∈ ((k', v) :: inorder r) ++ ctxR ctx := by
          simpa [ctxR, rpart] using he
        rcases List.mem_append.mp he' with he1 | he2
        · rcases List.mem_cons.mp he1 with rfl | hmem
          · exact hk
          · have hkey : e.1 ∈ keys r := by
              simpa [keys] using List.mem_map_of_mem Prod.fst hmem
            exact lt_of_lt_of_le hk (hboundR _ hkey)
        · exact hR e he2
      simpa [treeFindZ, hcmp] using ihl _ hs' hL' hR'
    | gt =>
      have hk : k' < k := cmp3_gt_iff.mp hcmp
      have hs' : SortedT (plugCtx r (⟨.right, k', v, l⟩ :: ctx)) := by
        simpa [plugCtx, plug1] using hs
      have hL' : ∀ e ∈ ctxL (⟨.right, k', v, l⟩ :: ctx), e.1 < k := by
        intro e he
        have he' : e ∈ ctxL ctx ++ (inorder l ++ [(k', v)]) := by
          simpa [ctxL, lpart] using he
        rcases List.mem_append.mp he' with he1 | he2
        · exact hL e he1
        · rcases List.mem_append.mp he2 with hmem | hlast
          · have hkey : e.1 ∈ keys l := by
              simpa [keys] using List.mem_map_of_mem Prod.fst hmem
            exact lt_of_le_of_lt (hboundL _ hkey) hk
          · rcases List.mem_singleton.mp hlast with rfl
            exact hk
      have hR' : ∀ e ∈ ctxR (⟨.right, k', v, l⟩ :: ctx), k < e.1 := by
        intro e he
        have he' : e ∈ ctxR ctx := by simpa [ctxR, rpart] using he
        exact hR e he'
      simpa [treeFindZ, hcmp] using ihr _ hs' hL' hR'

theorem qFindZ_strictL (k : α) :
    ∀ (t : BT α β) (ctx : List (Frame α β)) (loc : Loc α β),
      SortedT (plugCtx t ctx) →
      (∀ e ∈ ctxL ctx, e.1 < k) →
      qFindZ k t ctx = some loc →
      ∀ e ∈ ctxL loc.ctx, e.1 < k := by
  intro t
  induction t with
  | nil => intro ctx loc _ _ h; simp [qFindZ] at h
  | node l k' v r ihl ihr =>
    intro ctx loc hs hL h
    obtain ⟨hboundL, hboundR⟩ := sortedT_node_bounds hs
    rw [qFindZ] at h
    cases hcmp : cmp3 k k' with
    | eq => rw [hcmp] at h; cases h; exact hL
    | lt =>
      rw [hcmp] at h
      have hs' : SortedT (plugCtx l (⟨.left, k', v, r⟩ :: ctx)) := by
        simpa [plugCtx, plug1] using hs
      refine ihl _ _ hs' ?_ h
      intro e he
      have he' : e ∈ ctxL ctx := by simpa [ctxL, lpart] using he
      exact hL e he'
    | gt =>
      rw [hcmp] at h
      have hk : k' < k := cmp3_gt_iff.mp hcmp
      have hs' : SortedT (plugCtx r (⟨.right, k', v, l⟩ :: ctx)) := by
        simpa [plugCtx, plug1] using hs
      refine ihr _ _ hs' ?_ h
      intro e he
      have he' : e ∈ ctxL ctx ++ (inorder l ++ [(k', v)]) := by
        simpa [ctxL, lpart] using he
      rcases List.mem_append.mp he' with he1 | he2
      · exact hL e he1
      · rcases List.mem_append.mp he2 with hmem | hlast
        · have hkey : e.1 ∈ keys l := by
            simpa [keys] using List.mem_map_of_mem Prod.fst hmem
          exact lt_of_le_of_lt (hboundL _ hkey) hk
        · rcases List.mem_singleton.mp hlast with rfl
          exact hk

theorem qFindZ_strictR (k : α) :
    ∀ (t : BT α β) (ctx : List (Frame α β)) (loc : Loc α β),
      SortedT (plugCtx t ctx) →
      (∀ e ∈ ctxR ctx, k < e.1) →
      qFindZ k t ctx = some loc →
      ∀ e ∈ ctxR loc.ctx, k < e.1 := by
  intro t
  induction t with
  | nil => intro ctx loc _ _ h; simp [qFindZ] at h
  | node l k' v r ihl ihr =>
    intro ctx loc hs hR h
    obtain ⟨hboundL, hboundR⟩ := sortedT_node_bounds hs
    rw [qFindZ] at h
    cases hcmp : cmp3 k k' with
    | eq => rw [hcmp] at h; cases h; exact hR
    | gt =>
      rw [hcmp] at h
      have hs' : SortedT (plugCtx r (⟨.right, k', v, l⟩ :: ctx)) := by
        simpa [plugCtx, plug1] using hs
      refine ihr _ _ hs' ?_ h
      intro e he
      have he' : e ∈ ctxR ctx := by simpa [ctxR, rpart] using he
      exact hR e he'
    | lt =>
      rw [hcmp] at h
      have hk : k < k' := cmp3_lt_iff.mp hcmp
      have hs' : SortedT (plugCtx l (⟨.left, k', v, r⟩ :: ctx)) := by
        simpa [plugCtx, plug1] using hs
      refine ihl _ _ hs' ?_ h
      intro e he
      have he' : e ∈ ((k', v) :: inorder r) ++ ctxR ctx := by
        simpa [ctxR, rpart] using he
      rcases List.mem_append.mp he' with he1 | he2
      · rcases List.mem_cons.mp he1 with rfl | hmem
        · exact hk
        · have hkey : e.1 ∈ keys r := by
            simpa [keys] using List.mem_map_of_mem Prod.fst hmem
          exact lt_of_lt_of_le hk (hboundR _ hkey)
      · exact hR e he2

theorem borderUp_id (k : α) (t : BT α β) (ctx : List (Frame α β))
    (hL : ∀ e ∈ ctxL ctx, e.1 < k) (hR : ∀ e ∈ ctxR ctx, k < e.1) :
    borderUp k t ctx = ⟨t, ctx⟩ := by
  cases ctx with
  | nil => rfl
  | cons f rest =>
    obtain ⟨fd, fk, fv, fsib⟩ := f
    have hne : cmp3 k fk ≠ .eq := by
      cases fd with
      | left =>
        have hmem : (fk, fv) ∈ ctxR (⟨.left, fk, fv, fsib⟩ :: rest) := by
          simp [ctxR, rpart]
        have hk := hR _ hmem
        intro heq
        rw [cmp3_eq_iff.mp heq] at hk
        exact lt_irrefl _ hk
      | right =>
        have hmem : (fk, fv) ∈ ctxL (⟨.right, fk, fv, fsib⟩ :: rest) := by
          simp [ctxL, lpart]
        have hk := hL _ hmem
        intro heq
        rw [cmp3_eq_iff.mp heq] at hk
        exact lt_irrefl _ hk
    rw [borderUp, if_neg hne]

theorem borderDown_left_spec (k : α) :
    ∀ (n : Nat) (loc : Loc α β), loc.sub.size ≤ n →
      SortedT (plugCtx loc.sub loc.ctx) →
      ∀ l v r, loc.sub = .node l k v r →
      (∀ e ∈ ctxL loc.ctx, e.1 < k) →
      ∃ l' w r', (borderDown k .left loc).sub = .node l' k w r' ∧
        (∀ e ∈ ctxL (borderDown k .left loc).ctx, e.1 < k) ∧
        (∀ e ∈ inorder l', e.1 < k) := by
  intro n
  induction n with
  | zero =>
    intro loc hle _ l v r hsub _
    rw [hsub] at hle
    simp [BT.size] at hle
  | succ n ih =>
    intro loc hle hT l v r hsub hctxL
    obtain ⟨sub, ctx⟩ := loc
    dsimp only [] at hsub
    subst hsub
    have hT' : SortedT (plugCtx l (⟨.left, k, v, r⟩ :: ctx)) := by
      simpa [plugCtx, plug1] using hT
    rw [borderDown.eq_def]
    dsimp only []
    cases hq : qFindZ k l (⟨.left, k, v, r⟩ :: ctx) with
    | none =>
      refine ⟨l, v, r, rfl, hctxL, ?_⟩
      intro e he
      have hkey : e.1 ∈ keys l := by
        simpa [keys] using List.mem_map_of_mem Prod.fst he
      have hle2 : e.1 ≤ k := (sortedT_node_bounds hT).1 _ hkey
      rcases lt_or_eq_of_le hle2 with hlt | heq
      · exact hlt
      · exact absurd hq (by
          have : k ∈ keys l := by rw [← heq]; exact hkey
          exact qFindZ_found k l (⟨.left, k, v, r⟩ :: ctx) hT' this)
    | some ploc =>
      obtain ⟨l2, v2, r2, hsub2⟩ := qFindZ_sub k l _ ploc hq
      have hplug2 := qFindZ_plug k l (⟨.left, k, v, r⟩ :: ctx) ploc hq
      have hsize := qFindZ_size_le l (⟨.left, k, v, r⟩ :: ctx) ploc hq
      have hT2 : SortedT (plugCtx ploc.sub ploc.ctx) := by
        rw [hplug2]
        exact hT'
      have hctxL2 : ∀ e ∈ ctxL ploc.ctx, e.1 < k := by
        refine qFindZ_strictL k l (⟨.left, k, v, r⟩ :: ctx) ploc hT' ?_ hq
        intro e he
        have he' : e ∈ ctxL ctx := by simpa [ctxL, lpart] using he
        exact hctxL e he'
      refine ih ploc ?_ hT2 l2 v2 r2 hsub2 hctxL2
      simp [BT.size] at hle
      omega

theorem borderDown_right_spec (k : α) :
    ∀ (n : Nat) (loc : Loc α β), loc.sub.size ≤ n →
      SortedT (plugCtx loc.sub loc.ctx) →
      ∀ l v r, loc.sub = .node l k v r →
      (∀ e ∈ ctxR loc.ctx, k < e.1) →
      ∃ l' w r', (borderDown k .right loc).sub = .node l' k w r' ∧
        (∀ e ∈ ctxR (borderDown k .right loc).ctx, k < e.1) ∧
        (∀ e ∈ inorder r', k < e.1) := by
  intro n
  induction n with
  | zero =>
    intro loc hle _ l v r hsub _
    rw [hsub] at hle
    simp [BT.size] at hle
  | succ n ih =>
    intro loc hle hT l v r hsub hctxR
    obtain ⟨sub, ctx⟩ := loc
    dsimp only [] at hsub
    subst hsub
    have hT' : SortedT (plugCtx r (⟨.right, k, v, l⟩ :: ctx)) := by
      simpa [plugCtx, plug1] using hT
    rw [borderDown.eq_def]
    dsimp only []
    cases hq : qFindZ k r (⟨.right, k, v, l⟩ :: ctx) with
    | none =>
      refine ⟨l, v, r, rfl, hctxR, ?_⟩
      intro e he
      have hkey : e.1 ∈ keys r := by
        simpa [keys] using List.mem_map_of_mem Prod.fst he
      have hge : k ≤ e.1 := (sortedT_node_bounds hT).2 _ hkey
      rcases lt_or_eq_of_le hge with hlt | heq
      · exact hlt
      · exact absurd hq (by
          have : k ∈ keys r := by rw [heq]; exact hkey
          exact qFindZ_found k r (⟨.right, k, v, l⟩ :: ctx) hT' this)
    | some ploc =>
      obtain ⟨l2, v2, r2, hsub2⟩ := qFindZ_sub k r _ ploc hq
      have hplug2 := qFindZ_plug k r (⟨.right, k, v, l⟩ :: ctx) ploc hq
      have hsize := qFindZ_size_le r (⟨.right, k, v, l⟩ :: ctx) ploc hq
      have hT2 : SortedT (plugCtx ploc.sub ploc.ctx) := by
        rw [hplug2]
        exact hT'
      have hctxR2 : ∀ e ∈ ctxR ploc.ctx, k < e.1 := by
        refine qFindZ_strictR k r (⟨.right, k, v, l⟩ :: ctx) ploc hT' ?_ hq
        intro e he
        have he' : e ∈ ctxR ctx := by simpa [ctxR, rpart] using he
        exact hctxR e he'
      refine ih ploc ?_ hT2 l2 v2 r2 hsub2 hctxR2
      simp [BT.size] at hle
      omega

theorem inorder_ne_nil (l : BT α β) (k : α) (v : β) (r : BT α β) :
    inorder (.node l k v r) ≠ [] := by
  simp [inorder]

theorem subSlideZ_right_entry :
    ∀ (t : BT α β) (ctx : List (Frame α β)), t ≠ .nil →
      locEntry (subSlideZ .right t ctx) = (inorder t).getLast? := by
  intro t
  induction t with
  | nil => intro ctx h; exact absurd rfl h
  | node l k v r ihl ihr =>
    intro ctx _
    cases r with
    | nil =>
      show locEntry ⟨.node l k v .nil, ctx⟩ = _
      simp [locEntry, rootEntry, inorder]
    | node a x w b =>
      have hrec := ihr (⟨.right, k, v, l⟩ :: ctx) (by simp)
      show locEntry (subSlideZ .right (.node a x w b) (⟨.right, k, v, l⟩ :: ctx)) = _
      rw [hrec]
      have hne := inorder_ne_nil a x w b
      show _ = (inorder l ++ (k, v) :: inorder (.node a x w b)).getLast?
      rw [show (inorder l ++ (k, v) :: inorder (BT.node a x w b) : List (α × β)) =
        (inorder l ++ [(k, v)]) ++ inorder (.node a x w b) by simp]
      rw [List.getLast?_append_of_ne_nil _ hne]

theorem subSlideZ_left_entry :
    ∀ (t : BT α β) (ctx : List (Frame α β)), t ≠ .nil →
      locEntry (subSlideZ .left t ctx) = (inorder t).head? := by
  intro t
  induction t with
  | nil => intro ctx h; exact absurd rfl h
  | node l k v r ihl ihr =>
    intro ctx _
    cases l with
    | nil =>
      show locEntry ⟨.node .nil k v r, ctx⟩ = _
      simp [locEntry, rootEntry, inorder]
    | node a x w b =>
      have hrec := ihl (⟨.left, k, v, r⟩ :: ctx) (by simp)
      show locEntry (subSlideZ .left (.node a x w b) (⟨.left, k, v, r⟩ :: ctx)) = _
      rw [hrec]
      show _ = (inorder (.node a x w b) ++ (k, v) :: inorder r).head?
      cases hio : inorder (.node a x w b) with
      | nil => exact absurd hio (inorder_ne_nil a x w b)
      | cons e es => simp [hio]

theorem climbZ_left_entry :
    ∀ (ctx : List (Frame α β)) (t : BT α β),
      Option.bind (climbZ .left t ctx) locEntry = (ctxL ctx).getLast? := by
  intro ctx
  induction ctx with
  | nil => intro t; rfl
  | cons f rest ih =>
    intro t
    obtain ⟨fd, fk, fv, fs⟩ := f
    cases fd with
    | left =>
      rw [climbZ, if_pos rfl]
      rw [ih]
      simp [ctxL, lpart]
    | right =>
      rw [climbZ, if_neg (by simp)]
      show some (fk, fv) = _
      rw [show ctxL (⟨Dir.right, fk, fv, fs⟩ :: rest) =
        (ctxL rest ++ inorder fs) ++ [(fk, fv)] by simp [ctxL, lpart]]
      rw [List.getLast?_concat]

theorem climbZ_right_entry :
    ∀ (ctx : List (Frame α β)) (t : BT α β),
      Option.bind (climbZ .right t ctx) locEntry = (ctxR ctx).head? := by
  intro ctx
  induction ctx with
  | nil => intro t; rfl
  | cons f rest ih =>
    intro t
    obtain ⟨fd, fk, fv, fs⟩ := f
    cases fd with
    | right =>
      rw [climbZ, if_pos rfl]
      rw [ih]
      simp [ctxR, rpart]
    | left =>
      rw [climbZ, if_neg (by simp)]
      show some (fk, fv) = _
      simp [ctxR, rpart]

theorem neighborZ_left_entry (loc : Loc α β) (l : BT α β) (k : α) (v : β)
    (r : BT α β) (hsub : loc.sub = .node l k v r) :
    Option.bind (neighborZ .left loc) locEntry =
      (ctxL loc.ctx ++ inorder l).getLast? := by
  unfold neighborZ
  rw [hsub]
  cases l with
  | nil =>
    rw [climbZ_left_entry]
    simp [inorder]
  | node a x w b =>
    show Option.bind (some (subSlideZ .right (.node a x w b) (⟨.left, k, v, r⟩ :: loc.ctx))) locEntry = _
    rw [Option.some_bind]
    rw [subSlideZ_right_entry (.node a x w b) _ (by simp)]
    rw [List.getLast?_append_of_ne_nil _ (inorder_ne_nil a x w b)]

theorem neighborZ_right_entry (loc : Loc α β) (l : BT α β) (k : α) (v : β)
    (r : BT α β) (hsub : loc.sub = .node l k v r) :
    Option.bind (neighborZ .right loc) locEntry =
      (inorder r ++ ctxR loc.ctx).head? := by
  unfold neighborZ
  rw [hsub]
  cases r with
  | nil =>
    rw [climbZ_right_entry]
    simp [inorder]
  | node a x w b =>
    show Option.bind (some (subSlideZ .left (.node a x w b) (⟨.right, k, v, l⟩ :: loc.ctx))) locEntry = _
    rw [Option.some_bind]
    rw [subSlideZ_left_entry (.node a x w b) _ (by simp)]
    cases hio : inorder (.node a x w b) with
    | nil => exact absurd hio (inorder_ne_nil a x w b)
    | cons e es => simp [hio]

theorem eq_key_count (A M B : List (α × β)) (k : α)
    (hA : ∀ e ∈ A, e.1 < k) (hM : ∀ e ∈ M, e.1 = k) (hB : ∀ e ∈ B, k < e.1) :
    (A ++ M ++ B).countP (fun e => decide (e.1 = k)) = M.length := by
  rw [List.countP_append, List.countP_append]
  have h1 : A.countP (fun e => decide (e.1 = k)) = 0 :=
    List.countP_eq_zero.mpr (fun e he => by simp [ne_of_lt (hA e he)])
  have h3 : B.countP (fun e => decide (e.1 = k)) = 0 :=
    List.countP_eq_zero.mpr (fun e he => by simp [ne_of_gt (hB e he)])
  have h2 : M.countP (fun e => decide (e.1 = k)) = M.length :=
    List.countP_eq_length.mpr (fun e he => by simp [hM e he])
  omega

theorem prefix_pred_unique (p : α × β → Prop) :
    ∀ (P Q A B : List (α × β)), P ++ Q = A ++ B →
      (∀ e ∈ P, p e) → (∀ e ∈ A, p e) →
      (∀ e, Q.head? = some e → ¬ p e) → (∀ e, B.head? = some e → ¬ p e) →
      P = A := by
  intro P
  induction P with
  | nil =>
    intro Q A B heq hP hA hQ hB
    cases A with
    | nil => rfl
    | cons a A' =>
      exfalso
      have hhd : Q.head? = some a := by
        rw [List.nil_append] at heq
        rw [heq]
        rfl
      exact hQ a hhd (hA a (by simp))
  | cons x P' ih =>
    intro Q A B heq hP hA hQ hB
    cases A with
    | nil =>
      exfalso
      have hhd : B.head? = some x := by
        rw [List.nil_append] at heq
        rw [← heq]
        rfl
      exact hB x hhd (hP x (by simp))
    | cons a A' =>
      rw [List.cons_append, List.cons_append] at heq
      injection heq with h1 h2
      rw [h1]
      rw [ih Q A' B h2 (fun e he => hP e (by simp [he])) (fun e he => hA e (by simp [he])) hQ hB]

theorem suffix_pred_unique (p : α × β → Prop)
    (P S C B : List (α × β)) (heq : P ++ S = C ++ B)
    (hS : ∀ e ∈ S, p e) (hB : ∀ e ∈ B, p e)
    (hP : ∀ e, P.getLast? = some e → ¬ p e)
    (hC : ∀ e, C.getLast? = some e → ¬ p e) :
    S = B := by
  have hrev : S.reverse ++ P.reverse = B.reverse ++ C.reverse := by
    rw [← List.reverse_append, ← List.reverse_append, heq]
  have hres := prefix_pred_unique p S.reverse P.reverse B.reverse C.reverse hrev
    (fun e he => hS e (List.mem_reverse.mp he))
    (fun e he => hB e (List.mem_reverse.mp he))
    (fun e he => hP e (by rwa [← List.head?_reverse]))
    (fun e he => hC e (by rwa [← List.head?_reverse]))
  have := congrArg List.reverse hres
  simpa using this

theorem borderZ_left_full (dups : Bool) (k : α) (loc : Loc α β)
    (l : BT α β) (v : β) (r : BT α β) (hsub : loc.sub = .node l k v r)
    (hT : SortedT (plugCtx loc.sub loc.ctx))
    (hLctx : ∀ e ∈ ctxL loc.ctx, e.1 < k)
    (hRctx : ∀ e ∈ ctxR loc.ctx, k < e.1)
    (hone : dups = true ∨ (∀ e ∈ inorder l, e.1 < k)) :
    ∃ l' w r', (borderZ dups k .left loc).sub = .node l' k w r' ∧
      (∀ e ∈ ctxL (borderZ dups k .left loc).ctx ++ inorder l', e.1 < k) := by
  cases dups with
  | false =>
    have hid : borderZ false k .left loc = loc := by
      rw [borderZ, if_neg Bool.false_ne_true]
    rcases hone with hone | hone
    · exact absurd hone (by simp)
    · refine ⟨l, v, r, by rw [hid]; exact hsub, ?_⟩
      rw [hid]
      intro e he
      rcases List.mem_append.mp he with h1 | h2
      · exact hLctx e h1
      · exact hone e h2
  | true =>
    have hup : borderUp k loc.sub loc.ctx = ⟨loc.sub, loc.ctx⟩ :=
      borderUp_id k loc.sub loc.ctx hLctx hRctx
    have hzdef : borderZ true k .left loc = borderDown k .left ⟨loc.sub, loc.ctx⟩ := by
      rw [borderZ, if_pos rfl, hup]
    obtain ⟨l', w, r', hsub', hctx', hl'⟩ :=
      borderDown_left_spec k (⟨loc.sub, loc.ctx⟩ : Loc α β).sub.size
        ⟨loc.sub, loc.ctx⟩ le_rfl hT l v r hsub hLctx
    refine ⟨l', w, r', by rw [hzdef]; exact hsub', ?_⟩
    rw [hzdef]
    intro e he
    rcases List.mem_append.mp he with h1 | h2
    · exact hctx' e h1
    · exact hl' e h2

theorem borderZ_right_full (dups : Bool) (k : α) (loc : Loc α β)
    (l : BT α β) (v : β) (r : BT α β) (hsub : loc.sub = .node l k v r)
    (hT : SortedT (plugCtx loc.sub loc.ctx))
    (hLctx : ∀ e ∈ ctxL loc.ctx, e.1 < k)
    (hRctx : ∀ e ∈ ctxR loc.ctx, k < e.1)
    (hone : dups = true ∨ (∀ e ∈ inorder r, k < e.1)) :
    ∃ l' w r', (borderZ dups k .right loc).sub = .node l' k w r' ∧
      (∀ e ∈ inorder r' ++ ctxR (borderZ dups k .right loc).ctx, k < e.1) := by
  cases dups with
  | false =>
    have hid : borderZ false k .right loc = loc := by
      rw [borderZ, if_neg Bool.false_ne_true]
    rcases hone with hone | hone
    · exact absurd hone (by simp)
    · refine ⟨l, v, r, by rw [hid]; exact hsub, ?_⟩
      rw [hid]
      intro e he
      rcases List.mem_append.mp he with h1 | h2
      · exact hone e h1
      · exact hRctx e h2
  | true =>
    have hup : borderUp k loc.sub loc.ctx = ⟨loc.sub, loc.ctx⟩ :=
      borderUp_id k loc.sub loc.ctx hLctx hRctx
    have hzdef : borderZ true k .right loc = borderDown k .right ⟨loc.sub, loc.ctx⟩ := by
      rw [borderZ, if_pos rfl, hup]
    obtain ⟨l', w, r', hsub', hctx', hr'⟩ :=
      borderDown_right_spec k (⟨loc.sub, loc.ctx⟩ : Loc α β).sub.size
        ⟨loc.sub, loc.ctx⟩ le_rfl hT l v r hsub hRctx
    refine ⟨l', w, r', by rw [hzdef]; exact hsub', ?_⟩
    rw [hzdef]
    intro e he
    rcases List.mem_append.mp he with h1 | h2
    · exact hr' e h1
    · exact hctx' e h2

/-- Claim C5 (amended): for every tree and search key with at least one
exact match present, Locate with op LT returns the in-order node just
before the first match; with LE, EQ and GE it returns the first exact
match; with GT it returns the in-order node just after the last match.
With op EQ and no match present, Locate returns empty.  (The original
claim said LE returns the last exact match when duplicates exist; the code
returns the first.)  The duplicate-run hypothesis covers trees that allow
duplicate keys as well as trees in which the key is unique. -/
theorem claim_C5 (R : TRoot α β) (k : α) (A M B : List (α × β))
    (hs : SortedT R.root)
    (hio : inorder R.root = A ++ M ++ B)
    (hA : ∀ e ∈ A, e.1 < k) (hM : ∀ e ∈ M, e.1 = k) (hB : ∀ e ∈ B, k < e.1)
    (hdup : R.dups = true ∨ M.length ≤ 1) :
    (M ≠ [] →
      ubi_btLocate R k .LT = A.getLast? ∧
      ubi_btLocate R k .LE = M.head? ∧
      ubi_btLocate R k .EQ = M.head? ∧
      ubi_btLocate R k .GE = M.head? ∧
      ubi_btLocate R k .GT = B.head?) ∧
    (M = [] → ubi_btLocate R k .EQ = none) := by
  constructor
  · intro hMne
    obtain ⟨m, M', rfl⟩ := List.exists_cons_of_ne_nil hMne
    have hkmem : k ∈ keys R.root := by
      have : m ∈ inorder R.root := by rw [hio]; simp
      have h2 : m.1 ∈ keys R.root := by
        simpa [keys] using List.mem_map_of_mem Prod.fst this
      rwa [hM m (by simp)] at h2
    have hfound := treeFindZ_found k R.root []
      (by simpa [plugCtx] using hs) hkmem
    cases hf : (treeFindZ k R.root []).sub with
    | nil => exact absurd hf hfound
    | node l0 k0 v0 r0 =>
      have hk0 : k0 = k := treeFindZ_sub_eq k R.root [] _ _ _ _ hf
      subst hk0
      have hplugf : plugCtx (.node l0 k0 v0 r0) (treeFindZ k0 R.root []).ctx = R.root := by
        have h := treeFindZ_plug k0 R.root []
        rw [hf] at h
        simpa [plugCtx] using h
      obtain ⟨hLctx, hRctx⟩ := treeFindZ_strict k0 R.root []
        (by simpa [plugCtx] using hs)
        (by intro e he; simp [ctxL] at he)
        (by intro e he; simp [ctxR] at he)
      have hcount : (inorder R.root).countP (fun e => decide (e.1 = k0)) =
          (m :: M').length := by
        rw [hio]; exact eq_key_count A (m :: M') B k0 hA hM hB
      have hbigf : inorder R.root =
          (ctxL (treeFindZ k0 R.root []).ctx ++ inorder l0) ++
            (k0, v0) :: (inorder r0 ++ ctxR (treeFindZ k0 R.root []).ctx) := by
        conv_lhs => rw [← hplugf, inorder_plug_node]
      have hsortf : SortedT (plugCtx (BT.node l0 k0 v0 r0) (treeFindZ k0 R.root []).ctx) := by
        rw [hplugf]; exact hs
      have honeL : R.dups = true ∨ (∀ e ∈ inorder l0, e.1 < k0) := by
        rcases hdup with hd | hd
        · exact Or.inl hd
        · refine Or.inr ?_
          intro e he
          have hkey : e.1 ∈ keys l0 := by
            simpa [keys] using List.mem_map_of_mem Prod.fst he
          rcases lt_or_eq_of_le ((sortedT_node_bounds hsortf).1 _ hkey) with hlt | heq
          · exact hlt
          · exfalso
            have hpos : 0 < (inorder l0).countP (fun e => decide (e.1 = k0)) :=
              List.countP_pos.mpr ⟨e, he, by simp [heq]⟩
            rw [hbigf] at hcount
            simp only [List.countP_append, List.countP_cons, List.length_cons] at hcount hd ⊢
            simp at hcount
            omega
      have honeR : R.dups = true ∨ (∀ e ∈ inorder r0, k0 < e.1) := by
        rcases hdup with hd | hd
        · exact Or.inl hd
        · refine Or.inr ?_
          intro e he
          have hkey : e.1 ∈ keys r0 := by
            simpa [keys] using List.mem_map_of_mem Prod.fst he
          rcases lt_or_eq_of_le ((sortedT_node_bounds hsortf).2 _ hkey) with hlt | heq
          · exact hlt
          · exfalso
            have hpos : 0 < (inorder r0).countP (fun e => decide (e.1 = k0)) :=
              List.countP_pos.mpr ⟨e, he, by simp [heq.symm]⟩
            rw [hbigf] at hcount
            simp only [List.countP_append, List.countP_cons, List.length_cons] at hcount hd ⊢
            simp at hcount
            omega
      obtain ⟨lL, wL, rL, hsubL, hallL⟩ :=
        borderZ_left_full R.dups k0 ⟨.node l0 k0 v0 r0, (treeFindZ k0 R.root []).ctx⟩
          l0 v0 r0 rfl hsortf hLctx hRctx honeL
      obtain ⟨lR, wR, rR, hsubR, hallR⟩ :=
        borderZ_right_full R.dups k0 ⟨.node l0 k0 v0 r0, (treeFindZ k0 R.root []).ctx⟩
          l0 v0 r0 rfl hsortf hLctx hRctx honeR
      have hplugB : plugCtx
          (borderZ R.dups k0 .left ⟨.node l0 k0 v0 r0, (treeFindZ k0 R.root []).ctx⟩).sub
          (borderZ R.dups k0 .left ⟨.node l0 k0 v0 r0, (treeFindZ k0 R.root []).ctx⟩).ctx =
          R.root := by
        rw [borderZ_plug]
        exact hplugf
      have hplugR : plugCtx
          (borderZ R.dups k0 .right ⟨.node l0 k0 v0 r0, (treeFindZ k0 R.root []).ctx⟩).sub
          (borderZ R.dups k0 .right ⟨.node l0 k0 v0 r0, (treeFindZ k0 R.root []).ctx⟩).ctx =
          R.root := by
        rw [borderZ_plug]
        exact hplugf
      have hbigB : inorder R.root =
          (ctxL (borderZ R.dups k0 .left ⟨.node l0 k0 v0 r0, (treeFindZ k0 R.root []).ctx⟩).ctx ++
            inorder lL) ++ (k0, wL) ::
            (inorder rL ++
              ctxR (borderZ R.dups k0 .left ⟨.node l0 k0 v0 r0, (treeFindZ k0 R.root []).ctx⟩).ctx) := by
        conv_lhs => rw [← hplugB, hsubL, inorder_plug_node]
      have hbigR : inorder R.root =
          (ctxL (borderZ R.dups k0 .right ⟨.node l0 k0 v0 r0, (treeFindZ k0 R.root []).ctx⟩).ctx ++
            inorder lR) ++ (k0, wR) ::
            (inorder rR ++
              ctxR (borderZ R.dups k0 .right ⟨.node l0 k0 v0 r0, (treeFindZ k0 R.root []).ctx⟩).ctx) := by
        conv_lhs => rw [← hplugR, hsubR, inorder_plug_node]
      have hPA : ctxL (borderZ R.dups k0 .left ⟨.node l0 k0 v0 r0, (treeFindZ k0 R.root []).ctx⟩).ctx ++
          inorder lL = A := by
        refine prefix_pred_unique (fun e => e.1 < k0) _
          ((k0, wL) :: (inorder rL ++
            ctxR (borderZ R.dups k0 .left ⟨.node l0 k0 v0 r0, (treeFindZ k0 R.root []).ctx⟩).ctx))
          A ((m :: M') ++ B) ?_ hallL hA ?_ ?_
        · rw [← hbigB, hio]
          simp
        · intro e he
          have h1 : (k0, wL) = e := by simpa using he
          simp [← h1]
        · intro e he
          have h1 : m = e := by simpa using he
          simp [← h1, hM m (by simp)]
      have hQMB : (k0, wL) :: (inorder rL ++
          ctxR (borderZ R.dups k0 .left ⟨.node l0 k0 v0 r0, (treeFindZ k0 R.root []).ctx⟩).ctx) =
          (m :: M') ++ B := by
        have h1 : (ctxL (borderZ R.dups k0 .left ⟨.node l0 k0 v0 r0, (treeFindZ k0 R.root []).ctx⟩).ctx ++
            inorder lL) ++ ((k0, wL) :: (inorder rL ++
              ctxR (borderZ R.dups k0 .left ⟨.node l0 k0 v0 r0, (treeFindZ k0 R.root []).ctx⟩).ctx)) =
            (ctxL (borderZ R.dups k0 .left ⟨.node l0 k0 v0 r0, (treeFindZ k0 R.root []).ctx⟩).ctx ++
            inorder lL) ++ ((m :: M') ++ B) := by
          rw [← hbigB, hio]
          rw [hPA]
          simp
        exact List.append_cancel_left h1
      have hMhead : (m :: M').head? = some (k0, wL) := by
        have := hQMB
        rw [List.cons_append] at this
        injection this with h1 h2
        rw [h1]
        rfl
      have hSB : inorder rR ++
          ctxR (borderZ R.dups k0 .right ⟨.node l0 k0 v0 r0, (treeFindZ k0 R.root []).ctx⟩).ctx = B := by
        refine suffix_pred_unique (fun e => k0 < e.1)
          ((ctxL (borderZ R.dups k0 .right ⟨.node l0 k0 v0 r0, (treeFindZ k0 R.root []).ctx⟩).ctx ++
            inorder lR) ++ [(k0, wR)]) _ (A ++ (m :: M')) B ?_ hallR hB ?_ ?_
        · rw [show ((ctxL (borderZ R.dups k0 .right ⟨.node l0 k0 v0 r0, (treeFindZ k0 R.root []).ctx⟩).ctx ++
            inorder lR) ++ [(k0, wR)]) ++ (inorder rR ++
              ctxR (borderZ R.dups k0 .right ⟨.node l0 k0 v0 r0, (treeFindZ k0 R.root []).ctx⟩).ctx) =
            (ctxL (borderZ R.dups k0 .right ⟨.node l0 k0 v0 r0, (treeFindZ k0 R.root []).ctx⟩).ctx ++
            inorder lR) ++ ((k0, wR) :: (inorder rR ++
              ctxR (borderZ R.dups k0 .right ⟨.node l0 k0 v0 r0, (treeFindZ k0 R.root []).ctx⟩).ctx)) from by simp]
          rw [← hbigR, hio]
        · intro e he
          rw [List.getLast?_concat] at he
          have h1 : (k0, wR) = e := by simpa using he
          simp [← h1]
        · intro e he
          rw [List.getLast?_append_of_ne_nil _ (by simp : (m :: M') ≠ [])] at he
          have hmemo : e ∈ (m :: M').getLast? := Option.mem_def.mpr he
          obtain ⟨hne2, heq2⟩ := List.mem_getLast?_eq_getLast hmemo
          have hem : e ∈ m :: M' := by rw [heq2]; exact List.getLast_mem hne2
          simp [hM e hem]
      refine ⟨?_, ?_, ?_, ?_, ?_⟩
      · show (ubi_btLocateZ R.dups k0 .LT R.root).bind locEntry = A.getLast?
        have hz : ubi_btLocateZ R.dups k0 .LT R.root =
            neighborZ .left (borderZ R.dups k0 .left
              ⟨.node l0 k0 v0 r0, (treeFindZ k0 R.root []).ctx⟩) := by
          simp only [ubi_btLocateZ]
          rw [hf]
        rw [hz]
        rw [show ((neighborZ .left (borderZ R.dups k0 .left
            ⟨.node l0 k0 v0 r0, (treeFindZ k0 R.root []).ctx⟩)).bind locEntry) =
          Option.bind (neighborZ .left (borderZ R.dups k0 .left
            ⟨.node l0 k0 v0 r0, (treeFindZ k0 R.root []).ctx⟩)) locEntry from rfl]
        rw [neighborZ_left_entry _ lL k0 wL rL hsubL]
        rw [hPA]
      · show (ubi_btLocateZ R.dups k0 .LE R.root).bind locEntry = (m :: M').head?
        have hz : ubi_btLocateZ R.dups k0 .LE R.root =
            some (borderZ R.dups k0 .left
              ⟨.node l0 k0 v0 r0, (treeFindZ k0 R.root []).ctx⟩) := by
          simp only [ubi_btLocateZ]
          rw [hf]
        rw [hz, hMhead]
        simp [locEntry, hsubL, rootEntry]
      · show (ubi_btLocateZ R.dups k0 .EQ R.root).bind locEntry = (m :: M').head?
        have hz : ubi_btLocateZ R.dups k0 .EQ R.root =
            some (borderZ R.dups k0 .left
              ⟨.node l0 k0 v0 r0, (treeFindZ k0 R.root []).ctx⟩) := by
          simp only [ubi_btLocateZ]
          rw [hf]
        rw [hz, hMhead]
        simp [locEntry, hsubL, rootEntry]
      · show (ubi_btLocateZ R.dups k0 .GE R.root).bind locEntry = (m :: M').head?
        have hz : ubi_btLocateZ R.dups k0 .GE R.root =
            some (borderZ R.dups k0 .left
              ⟨.node l0 k0 v0 r0, (treeFindZ k0 R.root []).ctx⟩) := by
          simp only [ubi_btLocateZ]
          rw [hf]
        rw [hz, hMhead]
        simp [locEntry, hsubL, rootEntry]
      · show (ubi_btLocateZ R.dups k0 .GT R.root).bind locEntry = B.head?
        have hz : ubi_btLocateZ R.dups k0 .GT R.root =
            neighborZ .right (borderZ R.dups k0 .right
              ⟨.node l0 k0 v0 r0, (treeFindZ k0 R.root []).ctx⟩) := by
          simp only [ubi_btLocateZ]
          rw [hf]
        rw [hz]
        rw [show ((neighborZ .right (borderZ R.dups k0 .right
            ⟨.node l0 k0 v0 r0, (treeFindZ k0 R.root []).ctx⟩)).bind locEntry) =
          Option.bind (neighborZ .right (borderZ R.dups k0 .right
            ⟨.node l0 k0 v0 r0, (treeFindZ k0 R.root []).ctx⟩)) locEntry from rfl]
        rw [neighborZ_right_entry _ lR k0 wR rR hsubR]
        rw [hSB]
  · intro hMnil
    subst hMnil
    have hknot : k ∉ keys R.root := by
      intro hk
      rw [keys, hio] at hk
      simp only [List.map_append, List.mem_append] at hk
      rcases hk with (hk | hk) | hk
      · rcases List.mem_map.mp hk with ⟨e, he, rfl⟩
        exact absurd (hA e he) (lt_irrefl _)
      · simp at hk
      · rcases List.mem_map.mp hk with ⟨e, he, rfl⟩
        exact absurd (hB e he) (lt_irrefl _)
    show (ubi_btLocateZ R.dups k .EQ R.root).bind locEntry = none
    cases hf : (treeFindZ k R.root []).sub with
    | node l0 k0 v0 r0 =>
      exfalso
      have hk0 : k0 = k := treeFindZ_sub_eq k R.root [] _ _ _ _ hf
      subst hk0
      have hplugf : plugCtx (.node l0 k0 v0 r0) (treeFindZ k0 R.root []).ctx = R.root := by
        have h := treeFindZ_plug k0 R.root []
        rw [hf] at h
        simpa [plugCtx] using h
      refine hknot ?_
      rw [keys, ← hplugf, inorder_plug_node]
      simp
    | nil =>
      have hz : ubi_btLocateZ R.dups k .EQ R.root = none := by
        simp only [ubi_btLocateZ]
        rw [hf]
      rw [hz]
      rfl

/-- Counterexample to the original C5 wording: on the duplicate-keys tree
whose in-order traversal is [(3, 0), (3, 1)], the last exact match for key
3 is (3, 1), but Locate with op LE returns the FIRST exact match (3, 0)
(the code takes the LEFT border of the found node for the default
LE/EQ/GE case, never the right one). -/
theorem claim_C5_counterexample :
    SortedT (BT.node .nil 3 0 (.node .nil 3 1 .nil) : BT Nat Nat) ∧
    (inorder (BT.node .nil 3 0 (.node .nil 3 1 .nil) : BT Nat Nat)).getLast? =
      some (3, 1) ∧
    ubi_btLocate (⟨.node .nil 3 0 (.node .nil 3 1 .nil), 2, true, false⟩ :
        TRoot Nat Nat) 3 .LE = some (3, 0) ∧
    ((3, 0) : Nat × Nat) ≠ (3, 1) := by
  have hbd : borderDown (3 : Nat) .left
      (⟨.node .nil 3 0 (.node .nil 3 1 .nil), []⟩ : Loc Nat Nat)
      = ⟨.node .nil 3 0 (.node .nil 3 1 .nil), []⟩ := by
    rw [borderDown.eq_def]
    rfl
  refine ⟨by decide, rfl, ?_, by decide⟩
  simp [ubi_btLocate, ubi_btLocateZ, treeFindZ, cmp3, borderZ, borderUp, hbd,
    locEntry, rootEntry]

/-- Witness for C5 (amended): on a concrete four-node tree with a
duplicate run for key 3, Locate returns the predecessor of the first
match for LT, the first match for LE, EQ and GE, and the successor of the
last match for GT. -/
theorem claim_C5_witness :
    (([(3, 0), (3, 1)] : List (Nat × Nat)) ≠ [] →
      ubi_btLocate (⟨.node (.node .nil 1 10 .nil) 3 0
          (.node .nil 3 1 (.node .nil 5 2 .nil)), 4, true, false⟩ :
          TRoot Nat Nat) 3 .LT = ([(1, 10)] : List (Nat × Nat)).getLast? ∧
      ubi_btLocate (⟨.node (.node .nil 1 10 .nil) 3 0
          (.node .nil 3 1 (.node .nil 5 2 .nil)), 4, true, false⟩ :
          TRoot Nat Nat) 3 .LE = ([(3, 0), (3, 1)] : List (Nat × Nat)).head? ∧
      ubi_btLocate (⟨.node (.node .nil 1 10 .nil) 3 0
          (.node .nil 3 1 (.node .nil 5 2 .nil)), 4, true, false⟩ :
          TRoot Nat Nat) 3 .EQ = ([(3, 0), (3, 1)] : List (Nat × Nat)).head? ∧
      ubi_btLocate (⟨.node (.node .nil 1 10 .nil) 3 0
          (.node .nil 3 1 (.node .nil 5 2 .nil)), 4, true, false⟩ :
          TRoot Nat Nat) 3 .GE = ([(3, 0), (3, 1)] : List (Nat × Nat)).head? ∧
      ubi_btLocate (⟨.node (.node .nil 1 10 .nil) 3 0
          (.node .nil 3 1 (.node .nil 5 2 .nil)), 4, true, false⟩ :
          TRoot Nat Nat) 3 .GT = ([(5, 2)] : List (Nat × Nat)).head?) ∧
    (([(3, 0), (3, 1)] : List (Nat × Nat)) = [] →
      ubi_btLocate (⟨.node (.node .nil 1 10 .nil) 3 0
          (.node .nil 3 1 (.node .nil 5 2 .nil)), 4, true, false⟩ :
          TRoot Nat Nat) 3 .EQ = none) :=
  claim_C5 (⟨.node (.node .nil 1 10 .nil) 3 0
      (.node .nil 3 1 (.node .nil 5 2 .nil)), 4, true, false⟩ : TRoot Nat Nat)
    3 [(1, 10)] [(3, 0), (3, 1)] [(5, 2)] (by decide) rfl
    (by decide) (by decide) (by decide) (Or.inl rfl)

theorem childLoc_spec (d : Dir) (loc loc' : Loc α β)
    (h : childLoc d loc = some loc') :
    plugCtx loc'.sub loc'.ctx = plugCtx loc.sub loc.ctx ∧
    loc'.sub ≠ .nil ∧ loc'.sub.size < loc.sub.size := by
  obtain ⟨sub, ctx⟩ := loc
  cases sub with
  | nil => simp [childLoc] at h
  | node l k v r =>
    cases d with
    | left =>
      cases l with
      | nil => simp [childLoc] at h
      | node a x w b =>
        simp only [childLoc, Option.some.injEq] at h
        subst h
        refine ⟨?_, by simp, by simp [BT.size]; omega⟩
        simp [plugCtx, plug1]
    | right =>
      cases r with
      | nil => simp [childLoc] at h
      | node a x w b =>
        simp only [childLoc, Option.some.injEq] at h
        subst h
        refine ⟨?_, by simp, by simp [BT.size]; omega⟩
        simp [plugCtx, plug1]

theorem childLoc_both_none (d : Dir) (loc : Loc α β) (l r : BT α β) (k : α) (v : β)
    (hsub : loc.sub = .node l k v r)
    (h1 : childLoc d loc = none) (h2 : childLoc d.rev loc = none) :
    l = .nil ∧ r = .nil := by
  obtain ⟨sub, ctx⟩ := loc
  simp only at hsub
  subst hsub
  cases d with
  | left =>
    constructor
    · cases l with
      | nil => rfl
      | node a x w b => simp [childLoc] at h1
    · cases r with
      | nil => rfl
      | node a x w b => simp [childLoc, Dir.rev] at h2
  | right =>
    constructor
    · cases l with
      | nil => rfl
      | node a x w b => simp [childLoc, Dir.rev] at h2
    · cases r with
      | nil => rfl
      | node a x w b => simp [childLoc] at h1

theorem leafFill_mem (d : Dir) (q : List (Loc α β)) (loc' : Loc α β)
    (h : loc' ∈ leafFill d q) :
    ∃ loc ∈ q, ∃ d', childLoc d' loc = some loc' := by
  simp only [leafFill, List.mem_append] at h
  rcases h with h | h
  · rcases List.mem_filterMap.mp h with ⟨loc, hmem, hc⟩
    exact ⟨loc, hmem, d, hc⟩
  · rcases List.mem_filterMap.mp (List.mem_of_mem_take h) with ⟨loc, hmem, hc⟩
    exact ⟨loc, hmem, d.rev, hc⟩

theorem leafFill_eq_nil (d : Dir) (q : List (Loc α β))
    (h : leafFill d q = []) :
    ∀ loc ∈ q, childLoc d loc = none ∧ childLoc d.rev loc = none := by
  simp only [leafFill, List.append_eq_nil] at h
  obtain ⟨h1, h2⟩ := h
  rw [h1] at h2
  simp only [List.length_nil, Nat.sub_zero] at h2
  have h2' : q.filterMap (childLoc d.rev) = [] := by
    cases hq : q.filterMap (childLoc d.rev) with
    | nil => rfl
    | cons a as => rw [hq] at h2; simp [List.take] at h2
  intro loc hmem
  constructor
  · by_contra hne
    cases hc : childLoc d loc with
    | none => exact hne hc
    | some x =>
      have : x ∈ q.filterMap (childLoc d) := List.mem_filterMap.mpr ⟨loc, hmem, hc⟩
      rw [h1] at this
      simp at this
  · by_contra hne
    cases hc : childLoc d.rev loc with
    | none => exact hne hc
    | some x =>
      have : x ∈ q.filterMap (childLoc d.rev) := List.mem_filterMap.mpr ⟨loc, hmem, hc⟩
      rw [h2'] at this
      simp at this

theorem leafLoop_spec (T : BT α β) :
    ∀ (n m : Nat) (d : Dir) (q : List (Loc α β)), q ≠ [] →
      (∀ loc ∈ q, plugCtx loc.sub loc.ctx = T ∧ loc.sub ≠ .nil ∧ loc.sub.size ≤ m) →
      m < n →
      ∃ loc k v, leafLoop n d q = some loc ∧
        plugCtx loc.sub loc.ctx = T ∧ loc.sub = .node .nil k v .nil := by
  intro n
  induction n with
  | zero => intro m d q _ _ hmn; omega
  | succ n ih =>
    intro m d q hne hinv hmn
    obtain ⟨q0, qs, rfl⟩ := List.exists_cons_of_ne_nil hne
    cases hfill : leafFill d (q0 :: qs) with
    | nil =>
      obtain ⟨hplug, hnnil, hsz⟩ := hinv q0 (by simp)
      cases hq0 : q0.sub with
      | nil => exact absurd hq0 hnnil
      | node l k v r =>
        obtain ⟨h1, h2⟩ := leafFill_eq_nil d (q0 :: qs) hfill q0 (by simp)
        obtain ⟨rfl, rfl⟩ := childLoc_both_none d q0 l r k v hq0 h1 h2
        refine ⟨q0, k, v, ?_, hplug, hq0⟩
        simp only [leafLoop, hfill]
    | cons p0 ps =>
      have hm1 : ∀ loc ∈ p0 :: ps,
          plugCtx loc.sub loc.ctx = T ∧ loc.sub ≠ .nil ∧ loc.sub.size ≤ m - 1 := by
        intro loc hmem
        rw [← hfill] at hmem
        obtain ⟨loc1, hmem1, d', hc⟩ := leafFill_mem d (q0 :: qs) loc hmem
        obtain ⟨hp, hn, hlt⟩ := childLoc_spec d' loc1 loc hc
        obtain ⟨hp1, hn1, hs1⟩ := hinv loc1 hmem1
        exact ⟨hp ▸ hp1, hn, by omega⟩
      have hmn1 : m - 1 < n := by
        obtain ⟨_, hnnil, hsz⟩ := hinv q0 (by simp)
        cases hq0 : q0.sub with
        | nil => exact absurd hq0 hnnil
        | node l k v r =>
          rw [hq0] at hsz
          simp only [BT.size] at hsz
          omega
      obtain ⟨loc, k, v, hrun, hplug, hleaf⟩ := ih (m - 1) d.rev (p0 :: ps) (by simp) hm1 hmn1
      refine ⟨loc, k, v, ?_, hplug, hleaf⟩
      have hstep : leafLoop (n + 1) d (q0 :: qs) = leafLoop n d.rev (p0 :: ps) := by
        simp only [leafLoop, hfill]
      rw [hstep, hrun]

/-- Claim C9: ubi_btLeafNode returns NULL exactly when its argument is
NULL; on a nonempty subtree it returns a node that lies within that
subtree and has neither a left nor a right child (a true leaf), so the
cache eviction path that removes the returned node never takes Remove's
two-children node-swap branch: splicing out the leaf leaves an empty
subtree in its place. -/
theorem claim_C9 (t : BT α β) :
    (ubi_btLeafNode t = none ↔ t = .nil) ∧
    (t ≠ .nil →
      ∃ loc k v, ubi_btLeafNode t = some loc ∧
        plugCtx loc.sub loc.ctx = t ∧
        loc.sub = .node .nil k v .nil ∧
        delRoot loc.sub = .nil) := by
  have hmain : t ≠ .nil → ∃ loc k v, ubi_btLeafNode t = some loc ∧
      plugCtx loc.sub loc.ctx = t ∧ loc.sub = .node .nil k v .nil := by
    intro hne
    cases t with
    | nil => exact absurd rfl hne
    | node l k v r =>
      obtain ⟨loc, k', v', hrun, hplug, hleaf⟩ :=
        leafLoop_spec (BT.node l k v r) ((BT.node l k v r).size + 1)
          ((BT.node l k v r).size) .left [⟨.node l k v r, []⟩]
          (by simp)
          (by intro loc hmem; simp only [List.mem_singleton] at hmem; subst hmem
              exact ⟨rfl, by simp, le_rfl⟩)
          (by omega)
      exact ⟨loc, k', v', by simpa [ubi_btLeafNode] using hrun, hplug, hleaf⟩
  constructor
  · constructor
    · intro hnone
      by_contra hne
      obtain ⟨loc, k, v, hrun, _, _⟩ := hmain hne
      rw [hrun] at hnone
      exact Option.noConfusion hnone
    · intro h
      subst h
      rfl
  · intro hne
    obtain ⟨loc, k, v, hrun, hplug, hleaf⟩ := hmain hne
    refine ⟨loc, k, v, hrun, hplug, hleaf, ?_⟩
    rw [hleaf]
    rfl

/-- Witness for C9: the descent on a concrete three-node tree returns an
in-tree leaf, and the NULL-iff-NULL equivalence holds there. -/
theorem claim_C9_witness :
    (ubi_btLeafNode (BT.node (.node .nil 1 10 .nil) 3 30 (.node .nil 5 50 .nil) :
        BT Nat Nat) = none ↔
      (BT.node (.node .nil 1 10 .nil) 3 30 (.node .nil 5 50 .nil) : BT Nat Nat) = .nil) ∧
    (∃ loc k v,
      ubi_btLeafNode (BT.node (.node .nil 1 10 .nil) 3 30 (.node .nil 5 50 .nil) :
        BT Nat Nat) = some loc ∧
      plugCtx loc.sub loc.ctx =
        (BT.node (.node .nil 1 10 .nil) 3 30 (.node .nil 5 50 .nil) : BT Nat Nat) ∧
      loc.sub = .node .nil k v .nil ∧
      delRoot loc.sub = .nil) :=
  ⟨(claim_C9 (BT.node (.node .nil 1 10 .nil) 3 30 (.node .nil 5 50 .nil) : BT Nat Nat)).1,
   (claim_C9 (BT.node (.node .nil 1 10 .nil) 3 30 (.node .nil 5 50 .nil) : BT Nat Nat)).2
     (by decide)⟩

theorem size_eq_length_inorder (t : BT α β) : t.size = (inorder t).length := by
  induction t with
  | nil => rfl
  | node l k v r ihl ihr =>
    simp only [BT.size, inorder, List.length_append, List.length_cons, ihl, ihr]
    omega

theorem leafNode_main (t : BT α β) (hne : t ≠ .nil) :
    ∃ loc k v, ubi_btLeafNode t = some loc ∧
      plugCtx loc.sub loc.ctx = t ∧ loc.sub = .node .nil k v .nil := by
  cases t with
  | nil => exact absurd rfl hne
  | node l k v r =>
    obtain ⟨loc, k', v', hrun, hplug, hleaf⟩ :=
      leafLoop_spec (BT.node l k v r) ((BT.node l k v r).size + 1)
        ((BT.node l k v r).size) .left [⟨.node l k v r, []⟩]
        (by simp)
        (by intro loc hmem; simp only [List.mem_singleton] at hmem; subst hmem
            exact ⟨rfl, by simp, le_rfl⟩)
        (by omega)
    exact ⟨loc, k', v', by simpa [ubi_btLeafNode] using hrun, hplug, hleaf⟩

theorem sptRemove_size_leaf (R : TRoot α β) (loc : Loc α β) (k : α) (v : β)
    (hsub : loc.sub = .node .nil k v .nil)
    (hplug : plugCtx loc.sub loc.ctx = R.root) :
    (ubi_sptRemove R loc).root.size + 1 = R.root.size := by
  have h1 := sptRemove_inorder R loc .nil k v .nil hsub
  have h2 : inorder R.root =
      ctxL loc.ctx ++ inorder (BT.node .nil k v .nil : BT α β) ++ ctxR loc.ctx := by
    rw [← hplug, hsub, inorder_plugCtx]
  rw [size_eq_length_inorder, size_eq_length_inorder, h1, h2]
  simp only [inorder, List.length_append, List.length_cons, List.length_nil]
  omega

theorem cachetrim_budget : ∀ (n : Nat) (c : CacheRoot α),
    c.tree.root.size < n → budgetOK (cachetrim n c) := by
  intro n
  induction n with
  | zero => intro c h; omega
  | succ n ih =>
    intro c hsz
    by_cases hcond : (c.max_entries ≠ 0 ∧ c.max_entries < c.tree.count) ∨
        (c.max_memory ≠ 0 ∧ c.max_memory < c.mem_used)
    · simp only [cachetrim]
      rw [if_pos hcond]
      cases hroot : c.tree.root with
      | nil =>
        have hred : ubi_cacheReduce c 1 = (false, c) := by
          simp [ubi_cacheReduce, hroot, ubi_btLeafNode]
        rw [hred]
        exact Or.inl hroot
      | node l k v r =>
        obtain ⟨loc, k', v', hLN, hplug, hleaf⟩ :=
          leafNode_main c.tree.root (by rw [hroot]; simp)
        have hred : ubi_cacheReduce c 1 =
            (true, free_entry { c with tree := ubi_sptRemove c.tree loc }
              (match loc.sub with | .node _ _ s _ => s | .nil => 0)) := by
          simp [ubi_cacheReduce, hLN]
        rw [hred]
        apply ih
        have hdec := sptRemove_size_leaf c.tree loc k' v' hleaf hplug
        simp only [free_entry]
        omega
    · simp only [cachetrim]
      rw [if_neg hcond]
      push_neg at hcond
      exact Or.inr ⟨hcond.1, hcond.2⟩

/-- Claim C3: after a ubi_cachePut call the budget condition holds
unconditionally (Put always trims); after ubi_cacheSetMaxEntries or
ubi_cacheSetMaxMemory it holds provided it held before the call (the
functions trim whenever the limit shrank or newly appeared, and a limit
that grew cannot invalidate a budget that held).  In each case either the
cache is empty or every nonzero limit bounds its counter: count by
max_entries and mem_used by max_memory. -/
theorem claim_C3 (c : CacheRoot α) (k : α) (sz m : Nat) :
    budgetOK (ubi_cachePut c sz k) ∧
    (budgetOK c → budgetOK (ubi_cacheSetMaxEntries c m).2) ∧
    (budgetOK c → budgetOK (ubi_cacheSetMaxMemory c m).2) := by
  refine ⟨?_, ?_, ?_⟩
  · simp only [ubi_cachePut]
    exact cachetrim_budget _ _ (by omega)
  · intro hok
    simp only [ubi_cacheSetMaxEntries]
    by_cases hc : m < c.max_entries ∨ (m ≠ 0 ∧ c.max_entries = 0)
    · rw [if_pos hc]
      exact cachetrim_budget _ _ (Nat.lt_succ_self _)
    · rw [if_neg hc]
      push_neg at hc
      obtain ⟨h1, h2⟩ := hc
      rcases hok with hnil | ⟨he, hm⟩
      · exact Or.inl hnil
      · refine Or.inr ⟨?_, hm⟩
        intro hm0
        rcases Nat.eq_zero_or_pos c.max_entries with h0 | hpos
        · exact absurd h0 (h2 hm0)
        · exact le_trans (he (by omega)) h1
  · intro hok
    simp only [ubi_cacheSetMaxMemory]
    by_cases hc : m < c.max_memory ∨ (m ≠ 0 ∧ c.max_memory = 0)
    · rw [if_pos hc]
      exact cachetrim_budget _ _ (Nat.lt_succ_self _)
    · rw [if_neg hc]
      push_neg at hc
      obtain ⟨h1, h2⟩ := hc
      rcases hok with hnil | ⟨he, hm⟩
      · exact Or.inl hnil
      · refine Or.inr ⟨he, ?_⟩
        intro hm0
        rcases Nat.eq_zero_or_pos c.max_memory with h0 | hpos
        · exact absurd h0 (h2 hm0)
        · exact le_trans (hm (by omega)) h1

/-- Witness for C3: a Put into a fresh two-entry cache and limit changes
on it. -/
theorem claim_C3_witness :
    budgetOK (ubi_cachePut (ubi_cacheInit 2 0 : CacheRoot Nat) 5 7) ∧
    budgetOK (ubi_cacheSetMaxEntries (ubi_cacheInit 2 0 : CacheRoot Nat) 1).2 ∧
    budgetOK (ubi_cacheSetMaxMemory (ubi_cacheInit 2 0 : CacheRoot Nat) 1).2 :=
  ⟨(claim_C3 (ubi_cacheInit 2 0 : CacheRoot Nat) 7 5 1).1,
   (claim_C3 (ubi_cacheInit 2 0 : CacheRoot Nat) 7 5 1).2.1 (Or.inl rfl),
   (claim_C3 (ubi_cacheInit 2 0 : CacheRoot Nat) 7 5 1).2.2 (Or.inl rfl)⟩

theorem reduce_counters : ∀ (n : Nat) (c : CacheRoot α),
    (ubi_cacheReduce c n).2.cache_hits = c.cache_hits ∧
    (ubi_cacheReduce c n).2.cache_trys = c.cache_trys := by
  intro n
  induction n with
  | zero => intro c; exact ⟨rfl, rfl⟩
  | succ n ih =>
    intro c
    simp only [ubi_cacheReduce]
    cases hL : ubi_btLeafNode c.tree.root with
    | none => exact ⟨rfl, rfl⟩
    | some loc => exact ⟨(ih _).1, (ih _).2⟩

theorem cachetrim_counters : ∀ (n : Nat) (c : CacheRoot α),
    (cachetrim n c).cache_hits = c.cache_hits ∧
    (cachetrim n c).cache_trys = c.cache_trys := by
  intro n
  induction n with
  | zero => intro c; exact ⟨rfl, rfl⟩
  | succ n ih =>
    intro c
    simp only [cachetrim]
    by_cases hcond : (c.max_entries ≠ 0 ∧ c.max_entries < c.tree.count) ∨
        (c.max_memory ≠ 0 ∧ c.max_memory < c.mem_used)
    · rw [if_pos hcond]
      have hrc := reduce_counters 1 c
      cases hred : ubi_cacheReduce c 1 with
      | mk b c2 =>
        rw [hred] at hrc
        cases b with
        | false => exact hrc
        | true => exact ⟨(ih c2).1.trans hrc.1, (ih c2).2.trans hrc.2⟩
    · rw [if_neg hcond]
      exact ⟨rfl, rfl⟩

theorem put_counters (c : CacheRoot α) (sz : Nat) (k : α) :
    (ubi_cachePut c sz k).cache_hits = c.cache_hits ∧
    (ubi_cachePut c sz k).cache_trys = c.cache_trys := by
  simp only [ubi_cachePut]
  cases hold : (ubi_sptInsert ({ c with mem_used := c.mem_used + sz } :
      CacheRoot α).tree k sz).2.1 with
  | none => exact ⟨(cachetrim_counters _ _).1, (cachetrim_counters _ _).2⟩
  | some old => exact ⟨(cachetrim_counters _ _).1, (cachetrim_counters _ _).2⟩

theorem counters_inv {c : CacheRoot α} (h : CacheReach c) :
    c.cache_hits ≤ c.cache_trys ∧ c.cache_trys ≤ 0xFFFD := by
  induction h with
  | init me mm => exact ⟨le_rfl, by norm_num [ubi_cacheInit]⟩
  | put sz k hr ih =>
    rw [(put_counters _ _ _).1, (put_counters _ _ _).2]
    exact ih
  | @get c0 k hr ih =>
    obtain ⟨ih1, ih2⟩ := ih
    simp only [ubi_cacheGet]
    have hmod1 : (c0.cache_trys + 1) % 65536 = c0.cache_trys + 1 :=
      Nat.mod_eq_of_lt (by omega)
    by_cases hf : (ubi_sptFind c0.tree k).1.isSome = true
    · have hmod2 : (c0.cache_hits + 1) % 65536 = c0.cache_hits + 1 :=
        Nat.mod_eq_of_lt (by omega)
      simp only [hf, if_true, hmod1, hmod2]
      by_cases hov : 0xFFFE ≤ c0.cache_trys + 1
      · rw [if_pos hov]
        exact ⟨by dsimp only; omega, by dsimp only; omega⟩
      · rw [if_neg hov]
        exact ⟨by dsimp only; omega, by dsimp only; omega⟩
    · simp only [hf, if_false, hmod1, Bool.false_eq_true]
      by_cases hov : 0xFFFE ≤ c0.cache_trys + 1
      · rw [if_pos hov]
        exact ⟨by dsimp only; omega, by dsimp only; omega⟩
      · rw [if_neg hov]
        exact ⟨by dsimp only; omega, by dsimp only; omega⟩
  | @del c0 k hr ih =>
    simp only [ubi_cacheDelete]
    cases hfe : (ubi_sptFind c0.tree k).1 with
    | none => exact ih
    | some e => exact ih
  | reduce n hr ih =>
    rw [(reduce_counters _ _).1, (reduce_counters _ _).2]
    exact ih
  | @setME c0 n hr ih =>
    simp only [ubi_cacheSetMaxEntries]
    by_cases hc : n < c0.max_entries ∨ (n ≠ 0 ∧ c0.max_entries = 0)
    · rw [if_pos hc]
      rw [(cachetrim_counters _ _).1, (cachetrim_counters _ _).2]
      exact ih
    · rw [if_neg hc]
      exact ih
  | @setMM c0 n hr ih =>
    simp only [ubi_cacheSetMaxMemory]
    by_cases hc : n < c0.max_memory ∨ (n ≠ 0 ∧ c0.max_memory = 0)
    · rw [if_pos hc]
      rw [(cachetrim_counters _ _).1, (cachetrim_counters _ _).2]
      exact ih
    · rw [if_neg hc]
      exact ih
  | clear hr ih => exact ⟨le_rfl, by norm_num [ubi_cacheClear]⟩

/-- Claim C7: on every cache state reachable through the ubi_Cache
interface, ubi_cacheHitRatio returns floor(10000 * cache_hits /
cache_trys) when cache_trys is nonzero and 0 when it is zero, and the
result lies in [0, 10000]; the underlying counter invariant 0 <=
cache_hits <= cache_trys <= 0xFFFD is maintained by every operation
(ubi_cacheGet increments trys on every lookup, hits only on a match, and
halves both 16-bit counters once trys reaches 0xFFFE, so neither counter
ever wraps). -/
theorem claim_C7 {c : CacheRoot α} (h : CacheReach c) :
    (c.cache_trys ≠ 0 →
      ubi_cacheHitRatio c = 10000 * c.cache_hits / c.cache_trys) ∧
    (c.cache_trys = 0 → ubi_cacheHitRatio c = 0) ∧
    ubi_cacheHitRatio c ≤ 10000 ∧
    c.cache_hits ≤ c.cache_trys ∧ c.cache_trys ≤ 0xFFFD := by
  obtain ⟨h1, h2⟩ := counters_inv h
  refine ⟨?_, ?_, ?_, h1, h2⟩
  · intro ht
    simp [ubi_cacheHitRatio, ht]
  · intro ht
    simp [ubi_cacheHitRatio, ht]
  · by_cases ht : c.cache_trys = 0
    · simp [ubi_cacheHitRatio, ht]
    · simp only [ubi_cacheHitRatio, if_pos ht]
      exact Nat.div_le_of_le_mul (by omega)

/-- Witness for C7: the cache state after one missed Get on a fresh
cache (cache_trys = 1, cache_hits = 0). -/
theorem claim_C7_witness :
    ((ubi_cacheGet (ubi_cacheInit 0 0 : CacheRoot Nat) 5).2.cache_trys ≠ 0 →
      ubi_cacheHitRatio (ubi_cacheGet (ubi_cacheInit 0 0 : CacheRoot Nat) 5).2 =
        10000 * (ubi_cacheGet (ubi_cacheInit 0 0 : CacheRoot Nat) 5).2.cache_hits /
          (ubi_cacheGet (ubi_cacheInit 0 0 : CacheRoot Nat) 5).2.cache_trys) ∧
    ((ubi_cacheGet (ubi_cacheInit 0 0 : CacheRoot Nat) 5).2.cache_trys = 0 →
      ubi_cacheHitRatio (ubi_cacheGet (ubi_cacheInit 0 0 : CacheRoot Nat) 5).2 = 0) ∧
    ubi_cacheHitRatio (ubi_cacheGet (ubi_cacheInit 0 0 : CacheRoot Nat) 5).2 ≤ 10000 ∧
    (ubi_cacheGet (ubi_cacheInit 0 0 : CacheRoot Nat) 5).2.cache_hits ≤
      (ubi_cacheGet (ubi_cacheInit 0 0 : CacheRoot Nat) 5).2.cache_trys ∧
    (ubi_cacheGet (ubi_cacheInit 0 0 : CacheRoot Nat) 5).2.cache_trys ≤ 0xFFFD :=
  claim_C7 (CacheReach.get 5 (CacheReach.init 0 0))

theorem fixL_spec (l : AVL α β) (k : α) (v : β) (r : AVL α β)
    (hl : WellAVL l) (hr : WellAVL r) (hh : l.height = r.height + 2) :
    WellAVL (fixL l k v r).1 ∧
    (balOf l ≠ 0 →
      (fixL l k v r).1.height = r.height + 2 ∧ (fixL l k v r).2 = true) ∧
    (balOf l = 0 →
      (fixL l k v r).1.height = r.height + 3 ∧ (fixL l k v r).2 = false) := by
  cases l with
  | nil => simp [AVL.height] at hh
  | node ll lk lv lb lr =>
    obtain ⟨hll, hlr, hbal, habs⟩ := hl
    simp only [AVL.height] at hh
    by_cases h1 : lb = 1
    · subst h1
      cases lr with
      | nil =>
        exfalso
        simp only [AVL.height] at hbal
        omega
      | node lrl lrk lrv lrb lrr =>
        obtain ⟨hlrl, hlrr, hlrb, hlrabs⟩ := hlr
        simp only [AVL.height] at hbal hlrb hh
        have h3 : lrb = -1 ∨ lrb = 0 ∨ lrb = 1 := by omega
        rcases h3 with h3 | h3 | h3 <;> subst h3 <;>
          simp [fixL, WellAVL, AVL.height, balOf, hll, hlrl, hlrr, hr] <;>
          omega
    · by_cases h0 : lb = 0
      · subst h0
        simp [fixL, WellAVL, AVL.height, balOf, hll, hlr, hr] <;> omega
      · have hm1 : lb = -1 := by omega
        subst hm1
        simp [fixL, WellAVL, AVL.height, balOf, hll, hlr, hr] <;> omega

theorem fixR_spec (l : AVL α β) (k : α) (v : β) (r : AVL α β)
    (hl : WellAVL l) (hr : WellAVL r) (hh : r.height = l.height + 2) :
    WellAVL (fixR l k v r).1 ∧
    (balOf r ≠ 0 →
      (fixR l k v r).1.height = l.height + 2 ∧ (fixR l k v r).2 = true) ∧
    (balOf r = 0 →
      (fixR l k v r).1.height = l.height + 3 ∧ (fixR l k v r).2 = false) := by
  cases r with
  | nil => simp [AVL.height] at hh
  | node rl rk rv rb rr =>
    obtain ⟨hrl, hrr, hbal, habs⟩ := hr
    simp only [AVL.height] at hh
    by_cases h1 : rb = -1
    · subst h1
      cases rl with
      | nil =>
        exfalso
        simp only [AVL.height] at hbal
        omega
      | node rll rlk rlv rlb rlr =>
        obtain ⟨hrll, hrlr, hrlb, hrlabs⟩ := hrl
        simp only [AVL.height] at hbal hrlb hh
        have h3 : rlb = -1 ∨ rlb = 0 ∨ rlb = 1 := by omega
        rcases h3 with h3 | h3 | h3 <;> subst h3 <;>
          simp [fixR, WellAVL, AVL.height, balOf, hl, hrll, hrlr, hrr] <;>
          omega
    · by_cases h0 : rb = 0
      · subst h0
        simp [fixR, WellAVL, AVL.height, balOf, hl, hrl, hrr] <;> omega
      · have hp1 : rb = 1 := by omega
        subst hp1
        simp [fixR, WellAVL, AVL.height, balOf, hl, hrl, hrr] <;> omega

theorem avlIns_wf (k : α) (v : β) : ∀ (t : AVL α β), WellAVL t →
    WellAVL (ubi_avlInsert k v t).1 ∧
    ((ubi_avlInsert k v t).2 = true →
      (ubi_avlInsert k v t).1.height = t.height + 1 ∧
      (t = .nil ∨ balOf (ubi_avlInsert k v t).1 ≠ 0)) ∧
    ((ubi_avlInsert k v t).2 = false →
      (ubi_avlInsert k v t).1.height = t.height) := by
  intro t
  induction t with
  | nil =>
    intro _
    refine ⟨by simp [ubi_avlInsert, WellAVL, AVL.height], ?_, ?_⟩
    · intro _
      exact ⟨by simp [ubi_avlInsert, AVL.height], Or.inl rfl⟩
    · intro h
      simp [ubi_avlInsert] at h
  | node l k2 v2 b r ihl ihr =>
    intro hw
    obtain ⟨hwl, hwr, hbal, habs⟩ := hw
    cases hc : cmp3 k k2 with
    | eq =>
      refine ⟨?_, ?_, ?_⟩ <;>
        simp [ubi_avlInsert, hc, WellAVL, AVL.height, hwl, hwr] <;> omega
    | lt =>
      obtain ⟨ih1, ih2, ih3⟩ := ihl hwl
      cases hins : ubi_avlInsert k v l with
      | mk l2 g =>
        rw [hins] at ih1 ih2 ih3
        cases g with
        | false =>
          have hh : l2.height = l.height := ih3 rfl
          refine ⟨?_, ?_, ?_⟩ <;>
            simp [ubi_avlInsert, hc, hins, WellAVL, AVL.height, ih1, hwr, hh] <;> omega
        | true =>
          obtain ⟨hh0, hb0x⟩ := ih2 rfl
          have hh : l2.height = l.height + 1 := hh0
          have hb : l = .nil ∨ balOf l2 ≠ 0 := hb0x
          by_cases hb1 : b = 1
          · subst hb1
            refine ⟨?_, ?_, ?_⟩ <;>
              simp [ubi_avlInsert, hc, hins, WellAVL, AVL.height, ih1, hwr, hh] <;> omega
          · by_cases hb0 : b = 0
            · subst hb0
              refine ⟨?_, ?_, ?_⟩ <;>
                simp [ubi_avlInsert, hc, hins, WellAVL, AVL.height, balOf, ih1, hwr, hh] <;> omega
            · have hbm : b = -1 := by omega
              subst hbm
              have hl2r : l2.height = r.height + 2 := by omega
              have hbne : balOf l2 ≠ 0 := by
                rcases hb with hnil | hne
                · subst hnil
                  simp only [AVL.height] at hbal
                  omega
                · exact hne
              obtain ⟨hwf, hfx, _⟩ := fixL_spec l2 k2 v2 r ih1 hwr hl2r
              obtain ⟨hfh, _⟩ := hfx hbne
              refine ⟨?_, ?_, ?_⟩
              · simpa [ubi_avlInsert, hc, hins] using hwf
              · intro hgt
                simp [ubi_avlInsert, hc, hins] at hgt
              · intro _
                have heq2 : (ubi_avlInsert k v (.node l k2 v2 (-1) r)).1 =
                    (fixL l2 k2 v2 r).1 := by
                  simp [ubi_avlInsert, hc, hins]
                rw [heq2, hfh]
                simp only [AVL.height]
                omega
    | gt =>
      obtain ⟨ih1, ih2, ih3⟩ := ihr hwr
      cases hins : ubi_avlInsert k v r with
      | mk r2 g =>
        rw [hins] at ih1 ih2 ih3
        cases g with
        | false =>
          have hh : r2.height = r.height := ih3 rfl
          refine ⟨?_, ?_, ?_⟩ <;>
            simp [ubi_avlInsert, hc, hins, WellAVL, AVL.height, hwl, ih1, hh] <;> omega
        | true =>
          obtain ⟨hh0, hb0x⟩ := ih2 rfl
          have hh : r2.height = r.height + 1 := hh0
          have hb : r = .nil ∨ balOf r2 ≠ 0 := hb0x
          by_cases hb1 : b = -1
          · subst hb1
            refine ⟨?_, ?_, ?_⟩ <;>
              simp [ubi_avlInsert, hc, hins, WellAVL, AVL.height, hwl, ih1, hh] <;> omega
          · by_cases hb0 : b = 0
            · subst hb0
              refine ⟨?_, ?_, ?_⟩ <;>
                simp [ubi_avlInsert, hc, hins, WellAVL, AVL.height, balOf, hwl, ih1, hh] <;> omega
            · have hbm : b = 1 := by omega
              subst hbm
              have hr2l : r2.height = l.height + 2 := by omega
              have hbne : balOf r2 ≠ 0 := by
                rcases hb with hnil | hne
                · subst hnil
                  simp only [AVL.height] at hbal
                  omega
                · exact hne
              obtain ⟨hwf, hfx, _⟩ := fixR_spec l k2 v2 r2 hwl ih1 hr2l
              obtain ⟨hfh, _⟩ := hfx hbne
              refine ⟨?_, ?_, ?_⟩
              · simpa [ubi_avlInsert, hc, hins] using hwf
              · intro hgt
                simp [ubi_avlInsert, hc, hins] at hgt
              · intro _
                have heq2 : (ubi_avlInsert k v (.node l k2 v2 1 r)).1 =
                    (fixR l k2 v2 r2).1 := by
                  simp [ubi_avlInsert, hc, hins]
                rw [heq2, hfh]
                simp only [AVL.height]
                omega

theorem avlDelMax_wf : ∀ (t : AVL α β), WellAVL t → t ≠ .nil →
    WellAVL (avlDelMax t).1 ∧
    (avlDelMax t).2.1.isSome = true ∧
    ((avlDelMax t).2.2 = true → (avlDelMax t).1.height + 1 = t.height) ∧
    ((avlDelMax t).2.2 = false → (avlDelMax t).1.height = t.height) := by
  intro t
  induction t with
  | nil =>
    intro _ hne
    exact absurd rfl hne
  | node l k v b r ihl ihr =>
    intro hw _
    obtain ⟨hwl, hwr, hbal, habs⟩ := hw
    cases r with
    | nil =>
      simp only [AVL.height] at hbal
      refine ⟨?_, ?_, ?_, ?_⟩ <;> simp [avlDelMax, AVL.height, hwl] <;> omega
    | node rl rk rv rb rr =>
      obtain ⟨ih1, ih2, ih3, ih4⟩ := ihr hwr (by simp)
      cases hdm : avlDelMax (AVL.node rl rk rv rb rr) with
      | mk r2 rest =>
        cases rest with
        | mk eo s =>
          rw [hdm] at ih1 ih2 ih3 ih4
          have ih1x : WellAVL r2 := ih1
          have ih2x : eo.isSome = true := ih2
          have ih3x : s = true →
              r2.height + 1 = (AVL.node rl rk rv rb rr).height := ih3
          have ih4x : s = false →
              r2.height = (AVL.node rl rk rv rb rr).height := ih4
          simp only [AVL.height] at hbal ih3x ih4x
          cases s with
          | false =>
            have hr2 := ih4x rfl
            refine ⟨?_, ?_, ?_, ?_⟩ <;>
              simp [avlDelMax, hdm, WellAVL, AVL.height, hwl, ih1x, ih2x] <;>
              omega
          | true =>
            have hr2 := ih3x rfl
            by_cases hb1 : b = 1
            · subst hb1
              refine ⟨?_, ?_, ?_, ?_⟩ <;>
                simp [avlDelMax, hdm, WellAVL, AVL.height, hwl, ih1x, ih2x] <;>
                omega
            · by_cases hb0 : b = 0
              · subst hb0
                refine ⟨?_, ?_, ?_, ?_⟩ <;>
                  simp [avlDelMax, hdm, WellAVL, AVL.height, hwl, ih1x, ih2x] <;>
                  omega
              · have hbm : b = -1 := by omega
                subst hbm
                have hl2 : l.height = r2.height + 2 := by omega
                obtain ⟨hwf, hfx1, hfx0⟩ := fixL_spec l k v r2 hwl ih1x hl2
                cases hfix : fixL l k v r2 with
                | mk t2 s2 =>
                  rw [hfix] at hwf hfx1 hfx0
                  have hwfx : WellAVL t2 := hwf
                  by_cases hbl : balOf l = 0
                  · obtain ⟨hth, hs2⟩ := hfx0 hbl
                    have hth2 : t2.height = r2.height + 3 := hth
                    have hs2x : s2 = false := hs2
                    subst hs2x
                    refine ⟨?_, ?_, ?_, ?_⟩ <;>
                      simp [avlDelMax, hdm, hfix, AVL.height, hwfx, ih2x] <;>
                      omega
                  · obtain ⟨hth, hs2⟩ := hfx1 hbl
                    have hth2 : t2.height = r2.height + 2 := hth
                    have hs2x : s2 = true := hs2
                    subst hs2x
                    refine ⟨?_, ?_, ?_, ?_⟩ <;>
                      simp [avlDelMax, hdm, hfix, AVL.height, hwfx, ih2x] <;>
                      omega

theorem avlRem_wf (k : α) : ∀ (t : AVL α β), WellAVL t →
    WellAVL (ubi_avlRemove k t).1 ∧
    ((ubi_avlRemove k t).2 = true →
      (ubi_avlRemove k t).1.height + 1 = t.height) ∧
    ((ubi_avlRemove k t).2 = false →
      (ubi_avlRemove k t).1.height = t.height) := by
  intro t
  induction t with
  | nil =>
    intro _
    exact ⟨trivial, by simp [ubi_avlRemove], fun _ => rfl⟩
  | node l k2 v2 b r ihl ihr =>
    intro hw
    obtain ⟨hwl, hwr, hbal, habs⟩ := hw
    cases hc : cmp3 k k2 with
    | lt =>
      obtain ⟨ih1, ih2, ih3⟩ := ihl hwl
      cases hrem : ubi_avlRemove k l with
      | mk l2 g =>
        rw [hrem] at ih1 ih2 ih3
        have ih1x : WellAVL l2 := ih1
        cases g with
        | false =>
          have hh : l2.height = l.height := ih3 rfl
          refine ⟨?_, ?_, ?_⟩ <;>
            simp [ubi_avlRemove, hc, hrem, WellAVL, AVL.height, ih1x, hwr, hh] <;>
            omega
        | true =>
          have hh : l2.height + 1 = l.height := ih2 rfl
          by_cases hb1 : b = -1
          · subst hb1
            refine ⟨?_, ?_, ?_⟩ <;>
              simp [ubi_avlRemove, hc, hrem, WellAVL, AVL.height, ih1x, hwr, hh] <;>
              omega
          · by_cases hb0 : b = 0
            · subst hb0
              refine ⟨?_, ?_, ?_⟩ <;>
                simp [ubi_avlRemove, hc, hrem, WellAVL, AVL.height, ih1x, hwr, hh] <;>
                omega
            · have hbp : b = 1 := by omega
              subst hbp
              have hr2 : r.height = l2.height + 2 := by omega
              obtain ⟨hwf, hfx1, hfx0⟩ := fixR_spec l2 k2 v2 r ih1x hwr hr2
              cases hfix : fixR l2 k2 v2 r with
              | mk t2 s2 =>
                rw [hfix] at hwf hfx1 hfx0
                have hwfx : WellAVL t2 := hwf
                by_cases hbr : balOf r = 0
                · obtain ⟨hth, hs2⟩ := hfx0 hbr
                  have hth2 : t2.height = l2.height + 3 := hth
                  have hs2x : s2 = false := hs2
                  subst hs2x
                  refine ⟨?_, ?_, ?_⟩ <;>
                    simp [ubi_avlRemove, hc, hrem, hfix, AVL.height, hwfx] <;>
                    omega
                · obtain ⟨hth, hs2⟩ := hfx1 hbr
                  have hth2 : t2.height = l2.height + 2 := hth
                  have hs2x : s2 = true := hs2
                  subst hs2x
                  refine ⟨?_, ?_, ?_⟩ <;>
                    simp [ubi_avlRemove, hc, hrem, hfix, AVL.height, hwfx] <;>
                    omega
    | gt =>
      obtain ⟨ih1, ih2, ih3⟩ := ihr hwr
      cases hrem : ubi_avlRemove k r with
      | mk r2 g =>
        rw [hrem] at ih1 ih2 ih3
        have ih1x : WellAVL r2 := ih1
        cases g with
        | false =>
          have hh : r2.height = r.height := ih3 rfl
          refine ⟨?_, ?_, ?_⟩ <;>
            simp [ubi_avlRemove, hc, hrem, WellAVL, AVL.height, hwl, ih1x, hh] <;>
            omega
        | true =>
          have hh : r2.height + 1 = r.height := ih2 rfl
          by_cases hb1 : b = 1
          · subst hb1
            refine ⟨?_, ?_, ?_⟩ <;>
              simp [ubi_avlRemove, hc, hrem, WellAVL, AVL.height, hwl, ih1x, hh] <;>
              omega
          · by_cases hb0 : b = 0
            · subst hb0
              refine ⟨?_, ?_, ?_⟩ <;>
                simp [ubi_avlRemove, hc, hrem, WellAVL, AVL.height, hwl, ih1x, hh] <;>
                omega
            · have hbm : b = -1 := by omega
              subst hbm
              have hl2 : l.height = r2.height + 2 := by omega
              obtain ⟨hwf, hfx1, hfx0⟩ := fixL_spec l k2 v2 r2 hwl ih1x hl2
              cases hfix : fixL l k2 v2 r2 with
              | mk t2 s2 =>
                rw [hfix] at hwf hfx1 hfx0
                have hwfx : WellAVL t2 := hwf
                by_cases hbl : balOf l = 0
                · obtain ⟨hth, hs2⟩ := hfx0 hbl
                  have hth2 : t2.height = r2.height + 3 := hth
                  have hs2x : s2 = false := hs2
                  subst hs2x
                  refine ⟨?_, ?_, ?_⟩ <;>
                    simp [ubi_avlRemove, hc, hrem, hfix, AVL.height, hwfx] <;>
                    omega
                · obtain ⟨hth, hs2⟩ := hfx1 hbl
                  have hth2 : t2.height = r2.height + 2 := hth
                  have hs2x : s2 = true := hs2
                  subst hs2x
                  refine ⟨?_, ?_, ?_⟩ <;>
                    simp [ubi_avlRemove, hc, hrem, hfix, AVL.height, hwfx] <;>
                    omega
    | eq =>
      cases hdm : avlDelMax l with
      | mk l2 rest =>
        cases rest with
        | mk eo s =>
          cases eo with
          | none =>
            by_cases hl : l = .nil
            · subst hl
              simp only [AVL.height] at hbal
              refine ⟨?_, ?_, ?_⟩ <;>
                simp [ubi_avlRemove, hc, hdm, AVL.height, hwr] <;> omega
            · obtain ⟨_, ihs, _, _⟩ := avlDelMax_wf l hwl hl
              rw [hdm] at ihs
              simp at ihs
          | some e =>
            have hlne : l ≠ .nil := by
              intro h
              subst h
              simp [show avlDelMax (.nil : AVL α β) = (.nil, none, false) from rfl]
                at hdm
            obtain ⟨ihw, _, ih3, ih4⟩ := avlDelMax_wf l hwl hlne
            rw [hdm] at ihw ih3 ih4
            have ihwx : WellAVL l2 := ihw
            cases s with
            | false =>
              have hh : l2.height = l.height := ih4 rfl
              refine ⟨?_, ?_, ?_⟩ <;>
                simp [ubi_avlRemove, hc, hdm, WellAVL, AVL.height, ihwx, hwr, hh] <;>
                omega
            | true =>
              have hh : l2.height + 1 = l.height := ih3 rfl
              by_cases hb1 : b = -1
              · subst hb1
                refine ⟨?_, ?_, ?_⟩ <;>
                  simp [ubi_avlRemove, hc, hdm, WellAVL, AVL.height, ihwx, hwr, hh] <;>
                  omega
              · by_cases hb0 : b = 0
                · subst hb0
                  refine ⟨?_, ?_, ?_⟩ <;>
                    simp [ubi_avlRemove, hc, hdm, WellAVL, AVL.height, ihwx, hwr, hh] <;>
                    omega
                · have hbp : b = 1 := by omega
                  subst hbp
                  have hr2 : r.height = l2.height + 2 := by omega
                  obtain ⟨hwf, hfx1, hfx0⟩ := fixR_spec l2 e.1 e.2 r ihwx hwr hr2
                  cases hfix : fixR l2 e.1 e.2 r with
                  | mk t2 s2 =>
                    rw [hfix] at hwf hfx1 hfx0
                    have hwfx : WellAVL t2 := hwf
                    by_cases hbr : balOf r = 0
                    · obtain ⟨hth, hs2⟩ := hfx0 hbr
                      have hth2 : t2.height = l2.height + 3 := hth
                      have hs2x : s2 = false := hs2
                      subst hs2x
                      refine ⟨?_, ?_, ?_⟩ <;>
                        simp [ubi_avlRemove, hc, hdm, hfix, AVL.height, hwfx] <;>
                        omega
                    · obtain ⟨hth, hs2⟩ := hfx1 hbr
                      have hth2 : t2.height = l2.height + 2 := hth
                      have hs2x : s2 = true := hs2
                      subst hs2x
                      refine ⟨?_, ?_, ?_⟩ <;>
                        simp [ubi_avlRemove, hc, hdm, hfix, AVL.height, hwfx] <;>
                        omega

theorem sign_eq_self_of_natAbs_le_one (x : Int) (h : x.natAbs ≤ 1) :
    Int.sign x = x := by
  have h3 : x = -1 ∨ x = 0 ∨ x = 1 := by omega
  rcases h3 with h3 | h3 | h3 <;> subst h3 <;> rfl

theorem wellAVL_balSignOK : ∀ (t : AVL α β), WellAVL t → BalSignOK t := by
  intro t
  induction t with
  | nil => intro _; trivial
  | node l k v b r ihl ihr =>
    intro hw
    obtain ⟨hwl, hwr, hbal, habs⟩ := hw
    refine ⟨ihl hwl, ihr hwr, ?_, ?_⟩
    · rw [← hbal]
      exact (sign_eq_self_of_natAbs_le_one b habs).symm
    · rw [← hbal]
      exact habs

theorem wellAVL_fib : ∀ (t : AVL α β), WellAVL t →
    Nat.fib (t.height + 2) ≤ t.size + 1 := by
  intro t
  induction t with
  | nil => simp [AVL.height, AVL.size]
  | node l k v b r ihl ihr =>
    intro hw
    obtain ⟨hwl, hwr, hbal, habs⟩ := hw
    have hl := ihl hwl
    have hr := ihr hwr
    simp only [AVL.height, AVL.size]
    rcases le_total l.height r.height with hle | hle
    · rw [Nat.max_eq_right hle]
      have hmono : Nat.fib (r.height + 1) ≤ Nat.fib (l.height + 2) :=
        Nat.fib_mono (by omega)
      have hfib := @Nat.fib_add_two (r.height + 1)
      have hn : r.height + 1 + 1 = r.height + 2 := rfl
      rw [hn] at hfib
      omega
    · rw [Nat.max_eq_left hle]
      have hmono : Nat.fib (l.height + 1) ≤ Nat.fib (r.height + 2) :=
        Nat.fib_mono (by omega)
      have hfib := @Nat.fib_add_two (l.height + 1)
      have hn : l.height + 1 + 1 = l.height + 2 := rfl
      rw [hn] at hfib
      omega

theorem avlReach_wf {t : AVL α β} (h : AVLReach t) : WellAVL t := by
  induction h with
  | init => trivial
  | ins k v hr ih => exact (avlIns_wf k v _ ih).1
  | rem k hr ih => exact (avlRem_wf k _ ih).1

/-- Claim C8 (modelled from the spec: ubi_AVLtree.c is not among the
sources, only its header, so insert and remove follow spec.md section 4.2):
every AVL tree built by any sequence of ubi_avlInsert and ubi_avlRemove
operations satisfies, at every node, balance = sign(height(right) -
height(left)) with the two subtree heights differing by at most one, and
the whole tree obeys the precise form of the ~1.44*log2(n) AVL height
bound: fib(height + 2) <= size + 1, i.e. the node count grows at least
like the Fibonacci numbers in the height, which inverts to height <=
log_phi(size + 1) ~ 1.44 * log2(size). -/
theorem claim_C8 {t : AVL α β} (h : AVLReach t) :
    BalSignOK t ∧ Nat.fib (t.height + 2) ≤ t.size + 1 := by
  have hw := avlReach_wf h
  exact ⟨wellAVL_balSignOK t hw, wellAVL_fib t hw⟩

/-- Witness for C8: the tree built by inserting keys 1, 2, 3 in order
(which forces a rotation at the root). -/
theorem claim_C8_witness :
    BalSignOK (ubi_avlInsert 3 0 (ubi_avlInsert 2 0
      (ubi_avlInsert 1 0 (.nil : AVL Nat Nat)).1).1).1 ∧
    Nat.fib ((ubi_avlInsert 3 0 (ubi_avlInsert 2 0
      (ubi_avlInsert 1 0 (.nil : AVL Nat Nat)).1).1).1.height + 2) ≤
      (ubi_avlInsert 3 0 (ubi_avlInsert 2 0
        (ubi_avlInsert 1 0 (.nil : AVL Nat Nat)).1).1).1.size + 1 :=
  claim_C8 (AVLReach.ins 3 0 (AVLReach.ins 2 0 (AVLReach.ins 1 0 AVLReach.init)))
